import Mathlib

/-!
# beacon-kit: merkleization engine and state-transition processor

A shallow embedding of

* `mod/primitives/pkg/merkle/hasher.go` (`NewRootWithMaxLeaves`, `NewRootWithDepth`),
* `primitives/math/u64.go` (`NextPowerOfTwo`, `ILog2Ceil`, `HashTreeRoot`, `GweiFromWei`,
  `ToWei`),
* `state-transition/core/state_processor_randao.go`,
* `state-transition/core/state_processor_validators.go`,
* `cli/commands/genesis/payload.go` (`executableDataToExecutionPayloadHeader`),
* `consensus-types/types/block.go` (`NewBeaconBlockWithVersion`),
* the deposit message and the root parser exercised by
  `consensus-types/types/deposit_message_test.go` and `primitives/common/consensus_test.go`,

together with the properties of these functions that the design document states.

Conventions.  Go's `uint64`/`uint8` values are natural numbers; where the source can wrap the
model reduces modulo `2 ^ 64` explicitly.  A Go function returning `(T, error)` returns both
components here as well, because the source returns a meaningful value next to a non-nil error.
Functions that mutate the state in place return the state they leave behind together with the
error, so that what has been written before a failure stays visible.
-/

namespace BeaconKit

/-! ## `primitives/math`: powers of two -/

/-- Doubling search used by `NextPowerOfTwo`: the first of `p, 2p, 4p, ...` that is `≥ u`,
giving up after `fuel` doublings. -/
def nextPowerOfTwoAux : Nat → Nat → Nat → Nat
  | 0, p, _ => p
  | fuel + 1, p, u => if u ≤ p then p else nextPowerOfTwoAux fuel (2 * p) u

/-- Modelled from the spec: `pow.NextPowerOfTwo`, to which `U64.NextPowerOfTwo` delegates, is not
among the sources.  Its documentation in `u64.go` reads "the power of 2 for given input, or the
closest higher power of 2 if the input is not a power of 2", with the examples
`0->1, 1->1, 2->2, 3->4, 4->4, 5->8, ..., 9->16`.  The result is a `uint64`, hence the reduction
modulo `2 ^ 64`; it only matters for inputs above `2 ^ 63`, for which no power of two fits. -/
def NextPowerOfTwo (u : Nat) : Nat :=
  nextPowerOfTwoAux 64 1 u % 2 ^ 64

/-- Linear search used by `ILog2Ceil`: the first `k' ≥ k` with `u ≤ 2 ^ k'`, giving up after
`fuel` steps. -/
def iLog2CeilAux : Nat → Nat → Nat → Nat
  | 0, k, _ => k
  | fuel + 1, k, u => if u ≤ 2 ^ k then k else iLog2CeilAux fuel (k + 1) u

/-- Modelled from the spec: `log.ILog2Ceil`, to which `U64.ILog2Ceil` delegates, is not among the
sources.  Its documentation in `u64.go` reads "the ceiling of the base 2 logarithm of the U64".
The result is a `uint8`; for a 64-bit input it is at most `64`. -/
def ILog2Ceil (u : Nat) : Nat :=
  iLog2CeilAux 64 0 u

/-! ## `merkle`: the root hasher -/

/-- Errors a root computation can return. -/
inductive MerkleError where
  /-- `errors.New("number of leaves exceeds limit")`. -/
  | LeavesExceedLimit
  /-- An error reported by the `rootHashFn` of the hasher. -/
  | HashFnFailed (code : Nat)
  deriving DecidableEq, Repr

/-- `RootHasher[RootT]`: the pair hash `Combi` of the embedded `crypto.Hasher` and the layer hash
`rootHashFn`.  `rootHashFn output input` returns the contents of `output` after the call, or the
error code of the call. -/
structure RootHasher (R : Type) where
  Combi : R → R → R
  rootHashFn : List R → List R → Except Nat (List R)

/-- What a call returns: the `RootT` value, the `error` (`none` is `nil`), and the number of
times the call invoked `rootHashFn` or `Combi`. -/
structure RootResult (R : Type) where
  root : R
  err : Option MerkleError
  hashCalls : Nat
  deriving DecidableEq, Repr

/-- The first loop of `NewRootWithDepth`, `for i := range depth`, entered at layer `i` with `n`
iterations left, the working slice `leaves` and `calls` hash invocations so far.  It stops early
with the error of `rootHashFn`. -/
def hashLayers {R : Type} (rh : RootHasher R) (Z : Nat → R) :
    Nat → Nat → List R → Nat → Except MerkleError (List R) × Nat
  | 0, _, leaves, calls => (.ok leaves, calls)
  | n + 1, i, leaves, calls =>
    let layerLen := leaves.length
    let leaves1 := if layerLen % 2 = 1 then leaves ++ [Z i] else leaves
    match rh.rootHashFn leaves1 leaves1 with
    | .error code => (.error (.HashFnFailed code), calls + 1)
    | .ok out => hashLayers rh Z n (i + 1) (out.take ((layerLen + 1) / 2)) (calls + 1)

/-- The second loop of `NewRootWithDepth`, `for j := depth; j < limitDepth; j++`, entered at `j`
with `n` iterations left. -/
def combiLoop {R : Type} (rh : RootHasher R) (Z : Nat → R) : Nat → Nat → R → Nat → R × Nat
  | 0, _, h, calls => (h, calls)
  | n + 1, j, h, calls => combiLoop rh Z n (j + 1) (rh.Combi h (Z j)) (calls + 1)

/-- `RootHasher.NewRootWithDepth`.  `Z` is the table `zero.Hashes`. -/
def NewRootWithDepth {R : Type} (rh : RootHasher R) (Z : Nat → R)
    (leaves : List R) (depth limitDepth : Nat) : RootResult R :=
  if leaves.length = 0 then
    ⟨Z limitDepth, none, 0⟩
  else
    match hashLayers rh Z depth 0 leaves 0 with
    | (.error e, calls) => ⟨Z limitDepth, some e, calls⟩
    | (.ok [h], calls) =>
      let r := combiLoop rh Z (limitDepth - depth) depth h calls
      ⟨r.1, none, r.2⟩
    | (.ok _, calls) => ⟨Z limitDepth, none, calls⟩

/-- `RootHasher.NewRootWithMaxLeaves`.  `Z` is the table `zero.Hashes`.  `count` is
`math.U64(len(leaves))`; a slice length always fits 64 bits. -/
def NewRootWithMaxLeaves {R : Type} (rh : RootHasher R) (Z : Nat → R)
    (leaves : List R) (limit : Nat) : RootResult R :=
  if leaves.length > limit then
    ⟨Z 0, some .LeavesExceedLimit, 0⟩
  else if limit = 0 then
    ⟨Z 0, none, 0⟩
  else if h : limit = 1 ∧ leaves.length = 1 then
    ⟨leaves.get ⟨0, by omega⟩, none, 0⟩
  else
    NewRootWithDepth rh Z leaves (ILog2Ceil (NextPowerOfTwo leaves.length))
      (ILog2Ceil (NextPowerOfTwo limit))

/-! ### Reference semantics of the root -/

/-- Hashes adjacent pairs: `[a, b, c, d, ...] ↦ [Combi a b, Combi c d, ...]`. -/
def pairUp {R : Type} (Combi : R → R → R) : List R → List R
  | a :: b :: rest => Combi a b :: pairUp Combi rest
  | _ => []

/-- The contract assumed of `rootHashFn`: called on an input of even length and an output with
room for half of it, it succeeds, keeps the length of the output and writes
`out[i] = Combi(in[2i], in[2i+1])` for every pair. -/
def RootHashFnContract {R : Type} (rh : RootHasher R) : Prop :=
  ∀ (out inp : List R), inp.length % 2 = 0 → inp.length / 2 ≤ out.length →
    ∃ res, rh.rootHashFn out inp = .ok res ∧ res.length = out.length ∧
      ∀ (i : Nat) (h : i < inp.length / 2),
        res[i]? = some (rh.Combi (inp.get ⟨2 * i, by omega⟩) (inp.get ⟨2 * i + 1, by omega⟩))

/-- The contract assumed of the table `zero.Hashes`: every entry is the hash of two copies of
the entry below it. -/
def ZeroHashesContract {R : Type} (Combi : R → R → R) (Z : Nat → R) : Prop :=
  ∀ k, Z (k + 1) = Combi (Z k) (Z k)

/-- Root of the complete binary tree of depth `d` over the nodes `xs` (the first `2 ^ d` of
them), defined top down: the root of a tree is the hash of the roots of its two halves. -/
def completeTreeRoot {R : Type} (Combi : R → R → R) (zero : R) : Nat → List R → R
  | 0, xs => xs.headD zero
  | d + 1, xs =>
    Combi (completeTreeRoot Combi zero d (xs.take (2 ^ d)))
      (completeTreeRoot Combi zero d (xs.drop (2 ^ d)))

/-- The leaves followed by as many `zero` chunks as are needed to reach `2 ^ d` leaves. -/
def paddedLeaves {R : Type} (zero : R) (d : Nat) (leaves : List R) : List R :=
  leaves ++ List.replicate (2 ^ d - leaves.length) zero

/-- Root of the complete binary Merkle tree with `2 ^ d` leaves whose first leaves are `leaves`
and whose remaining leaves are `zero`. -/
def paddedMerkleRoot {R : Type} (Combi : R → R → R) (zero : R) (d : Nat) (leaves : List R) : R :=
  completeTreeRoot Combi zero d (paddedLeaves zero d leaves)

/-- One layer of the bottom-up construction at height `i`: pad an odd layer with `Z i`, then
hash adjacent pairs. -/
def layerStep {R : Type} (Combi : R → R → R) (Z : Nat → R) (i : Nat) (xs : List R) : List R :=
  pairUp Combi (if xs.length % 2 = 1 then xs ++ [Z i] else xs)

/-- The layers `i, i + 1, ..., i + n - 1` of the bottom-up construction. -/
def layerSteps {R : Type} (Combi : R → R → R) (Z : Nat → R) : Nat → Nat → List R → List R
  | 0, _, xs => xs
  | n + 1, i, xs => layerSteps Combi Z n (i + 1) (layerStep Combi Z i xs)

/-- The value obtained from `h` by successively applying `h := Combi(h, Hashes[j])` for
`j = d1, d1 + 1, ..., d2 - 1`. -/
def zeroExtend {R : Type} (Combi : R → R → R) (Z : Nat → R) (d1 d2 : Nat) (h : R) : R :=
  (List.range' d1 (d2 - d1)).foldl (fun acc j => Combi acc (Z j)) h

/-- A Go function that writes into a slice of its caller cannot change the length of that
slice: whenever `rootHashFn` succeeds, the output has the length it had before the call. -/
def RootHashFnKeepsLength {R : Type} (rh : RootHasher R) : Prop :=
  ∀ (out inp res : List R), rh.rootHashFn out inp = .ok res → res.length = out.length

/-! ### A concrete hasher over 32-byte chunks -/

/-- `[32]byte`. -/
structure Bytes32 where
  val : List Nat
  property : val.length = 32
  deriving DecidableEq, Repr

/-- The all-zero chunk. -/
def zeroBytes32 : Bytes32 := ⟨List.replicate 32 0, by simp⟩

/-- A chunk filled with the byte `b`. -/
def constBytes32 (b : Nat) : Bytes32 := ⟨List.replicate 32 b, by simp⟩

/-- A toy pair hash on 32-byte chunks, standing in for SHA-256 where a computable hash is
needed. -/
def toyCombi (a b : Bytes32) : Bytes32 :=
  ⟨List.zipWith (fun x y => (3 * x + y + 1) % 256) a.val b.val, by
    simp [List.length_zipWith, a.property, b.property]⟩

/-- A layer hash that writes the pair hashes to the front of the output and leaves the rest of
the output as it was; it rejects an input of odd length or an output that is too short, as
`gohashtree.Hash` does. -/
def pairwiseRootHashFn {R : Type} (Combi : R → R → R) (out inp : List R) :
    Except Nat (List R) :=
  if inp.length % 2 = 0 ∧ inp.length / 2 ≤ out.length then
    .ok (pairUp Combi inp ++ out.drop (inp.length / 2))
  else .error 1

/-- The toy root hasher. -/
def toyHasher : RootHasher Bytes32 :=
  ⟨toyCombi, pairwiseRootHashFn toyCombi⟩

/-- The zero-hash table of the toy hasher. -/
def toyZeroHashes : Nat → Bytes32
  | 0 => zeroBytes32
  | k + 1 => toyCombi (toyZeroHashes k) (toyZeroHashes k)

/-! ## Consensus types -/

/-- `[48]byte`. -/
structure Bytes48 where
  val : List Nat
  property : val.length = 48
  deriving DecidableEq, Repr

/-- `[96]byte`. -/
structure Bytes96 where
  val : List Nat
  property : val.length = 96
  deriving DecidableEq, Repr

/-- `crypto.BLSPubkey`. -/
abbrev BLSPubkey := Bytes48

/-- `crypto.BLSSignature`. -/
abbrev BLSSignature := Bytes96

/-- A 48-byte key filled with the byte `b`. -/
def constBytes48 (b : Nat) : Bytes48 := ⟨List.replicate 48 b, by simp⟩

/-- A 96-byte signature filled with the byte `b`. -/
def constBytes96 (b : Nat) : Bytes96 := ⟨List.replicate 96 b, by simp⟩

/-- Errors of the state-transition processor.  `Wrapf msg arg inner` is
`fmt.Errorf(msg, arg, inner)` for a message with `%w` and, when `arg` is given, one `%d`. -/
inductive Error where
  /-- A validator or ring index outside the stored range. -/
  | IndexOutOfRange
  /-- A pubkey without an entry in the pubkey index. -/
  | PubkeyNotFound
  /-- The error of the signature verifier. -/
  | SignatureInvalid (code : Nat)
  /-- The run-time panic of an integer division by zero. -/
  | DivideByZero
  /-- An error wrapped with context. -/
  | Wrapf (msg : String) (arg : Option Nat) (inner : Error)
  deriving DecidableEq, Repr

/-- Modelled from the spec: `ctypes.Validator` is declared outside the given sources.  The
design document lists its fields: "pubkey (48-byte, immutable once created), withdrawal
credentials, effective balance, activation-eligibility epoch, activation epoch, exit epoch,
slashed flag". -/
structure Validator where
  Pubkey : BLSPubkey
  WithdrawalCredentials : Bytes32
  EffectiveBalance : Nat
  Slashed : Bool
  ActivationEligibilityEpoch : Nat
  ActivationEpoch : Nat
  ExitEpoch : Nat
  deriving DecidableEq, Repr

/-- Modelled from the spec: `Validator.IsActive` is declared outside the given sources.  The
processor calls it where the consensus specification quoted in `processRegistryUpdates` has
`is_active_validator(validator, epoch)`: the validator has been activated and has not exited,
`activation_epoch <= epoch < exit_epoch`. -/
def Validator.IsActive (v : Validator) (epoch : Nat) : Bool :=
  decide (v.ActivationEpoch ≤ epoch) && decide (epoch < v.ExitEpoch)

/-- Modelled from the spec: `constants.FarFutureEpoch` is not among the sources.  It is the
"far-future sentinel" of an epoch that has not been set, the largest 64-bit value. -/
def FarFutureEpoch : Nat := 2 ^ 64 - 1

/-- Modelled from the spec: `Validator.IsEligibleForActivationQueue` is not among the sources.
A validator is marked for the activation queue "if effective balance ≥ configured minimum and
not already eligible", that is while its activation-eligibility epoch is still the far-future
sentinel. -/
def Validator.IsEligibleForActivationQueue (v : Validator) (threshold : Nat) : Bool :=
  decide (v.ActivationEligibilityEpoch = FarFutureEpoch) && decide (threshold ≤ v.EffectiveBalance)

/-- Modelled from the spec: `Validator.IsEligibleForActivation` is not among the sources.  The
"queued validators" are those whose activation-eligibility epoch has been reached and whose
activation epoch is still the far-future sentinel. -/
def Validator.IsEligibleForActivation (v : Validator) (epoch : Nat) : Bool :=
  decide (v.ActivationEligibilityEpoch ≤ epoch) && decide (v.ActivationEpoch = FarFutureEpoch)

/-- Modelled from the spec: `Validator.SetActivationEligibilityEpoch` is not among the sources.
It sets the activation-eligibility epoch. -/
def Validator.SetActivationEligibilityEpoch (v : Validator) (epoch : Nat) : Validator :=
  { v with ActivationEligibilityEpoch := epoch }

/-- Modelled from the spec: `Validator.SetActivationEpoch` is not among the sources.  It sets
the activation epoch. -/
def Validator.SetActivationEpoch (v : Validator) (epoch : Nat) : Validator :=
  { v with ActivationEpoch := epoch }

/-- `transition.ValidatorUpdate`. -/
structure ValidatorUpdate where
  Pubkey : BLSPubkey
  EffectiveBalance : Nat
  deriving DecidableEq, Repr

/-- The fields of `BeaconBlockBody` that randao processing reads: the reveal and the timestamp
of the execution payload. -/
structure BeaconBlockBody where
  RandaoReveal : BLSSignature
  Timestamp : Nat
  deriving DecidableEq, Repr

/-- `ctypes.BeaconBlock`. -/
structure BeaconBlock where
  Slot : Nat
  ProposerIndex : Nat
  ParentRoot : Bytes32
  StateRoot : Bytes32
  Body : BeaconBlockBody
  deriving DecidableEq, Repr

/-- `BeaconBlock.GetProposerIndex`. -/
def BeaconBlock.GetProposerIndex (b : BeaconBlock) : Nat := b.ProposerIndex

/-- `BeaconBlock.GetBody`. -/
def BeaconBlock.GetBody (b : BeaconBlock) : BeaconBlockBody := b.Body

/-- `BeaconBlock.GetTimestamp`: the timestamp of the execution payload in the body. -/
def BeaconBlock.GetTimestamp (b : BeaconBlock) : Nat := b.Body.Timestamp

/-! ## Chain configuration and the state accessor -/

/-- The chain configuration constants the processor consults. -/
structure ChainSpec where
  SlotsPerEpoch : Nat
  EpochsPerHistoricalVector : Nat
  ValidatorSetCap : Nat
  MinActivationBalance : Nat
  EffectiveBalanceIncrement : Nat
  DomainTypeRandao : List Nat
  ActiveForkVersionForTimestamp : Nat → List Nat

/-- Modelled from the spec: `statedb.StateDB` is implemented outside the given sources, which
hold only the interface `KVStore`.  The beacon state of the design document, restricted to the
fields the processor passes below read or write: the slot, the genesis validators root, the
validators in index order with the companion pubkey-to-index mapping, the balances, and the
fixed-capacity ring of randao mixes. -/
structure BeaconState where
  Slot : Nat
  GenesisValidatorsRoot : Bytes32
  Validators : List Validator
  PubkeyIndex : List (BLSPubkey × Nat)
  Balances : List Nat
  RandaoMixes : List Bytes32
  deriving DecidableEq, Repr

/-- Modelled from the spec: `StateDB.GetEpoch` is not among the sources.  An epoch is "a
fixed-length group of consecutive slots": the epoch of the state is its slot divided by the
number of slots per epoch. -/
def GetEpoch (cs : ChainSpec) (st : BeaconState) : Nat :=
  st.Slot / cs.SlotsPerEpoch

/-- Modelled from the spec: `StateDB.GetValidators` is not among the sources.  It lists the
validators in index order. -/
def GetValidators (st : BeaconState) : List Validator :=
  st.Validators

/-- Modelled from the spec: `StateDB.ValidatorByIndex` is not among the sources.  "Indexed get
... for validators ... by ValidatorIndex", failing for an index out of range. -/
def ValidatorByIndex (st : BeaconState) (index : Nat) : Except Error Validator :=
  match st.Validators[index]? with
  | some v => .ok v
  | none => .error .IndexOutOfRange

/-- Modelled from the spec: `StateDB.ValidatorIndexByPubkey` is not among the sources.  "Reverse
lookup ValidatorIndex by pubkey" through the companion mapping, failing for a pubkey without
an entry. -/
def ValidatorIndexByPubkey (st : BeaconState) (pubkey : BLSPubkey) : Except Error Nat :=
  match st.PubkeyIndex.lookup pubkey with
  | some idx => .ok idx
  | none => .error .PubkeyNotFound

/-- Modelled from the spec: `StateDB.UpdateValidatorAtIndex` is not among the sources.  "Indexed
... update for validators ... by ValidatorIndex": it overwrites the validator stored at the
index and fails for an index out of range.  The pubkey of a validator is immutable, so the
companion mapping stays as it is. -/
def UpdateValidatorAtIndex (st : BeaconState) (index : Nat) (val : Validator) :
    Except Error BeaconState :=
  if index < st.Validators.length then
    .ok { st with Validators := st.Validators.set index val }
  else .error .IndexOutOfRange

/-- Modelled from the spec: `StateDB.GetRandaoMixAtIndex` is not among the sources.
"Ring-buffer get ... by index", failing for an index outside the configured capacity. -/
def GetRandaoMixAtIndex (st : BeaconState) (index : Nat) : Except Error Bytes32 :=
  match st.RandaoMixes[index]? with
  | some mix => .ok mix
  | none => .error .IndexOutOfRange

/-- Modelled from the spec: `StateDB.UpdateRandaoMixAtIndex` is not among the sources.
"Ring-buffer ... update by index"; "every root-ring index write is a pure overwrite (no
append)", so it fails for an index outside the configured capacity. -/
def UpdateRandaoMixAtIndex (st : BeaconState) (index : Nat) (mix : Bytes32) :
    Except Error BeaconState :=
  if index < st.RandaoMixes.length then
    .ok { st with RandaoMixes := st.RandaoMixes.set index mix }
  else .error .IndexOutOfRange

/-- The invariant of the companion mapping: the reverse lookup of the pubkey of the validator
stored at an index succeeds and returns that index.  It makes the pubkeys pairwise distinct. -/
def PubkeyIndexConsistent (st : BeaconState) : Prop :=
  ∀ (i : Nat) (v : Validator), st.Validators[i]? = some v →
    ValidatorIndexByPubkey st v.Pubkey = .ok i

/-! ## The state processor -/

/-- `StateProcessor`: the chain configuration `cs`, the verifier of the `signer`, and the two
pure functions randao processing calls from other packages, `ForkData.ComputeRandaoSigningRoot`
(applied to the fork version, the genesis validators root, the domain type and the epoch) and
`sha256.Hash`. -/
structure StateProcessor where
  cs : ChainSpec
  VerifySignature : BLSPubkey → List Nat → BLSSignature → Option Error
  ComputeRandaoSigningRoot : List Nat → Bytes32 → List Nat → Nat → Bytes32
  sha256Hash : List Nat → Bytes32

/-- `StateProcessor.buildRandaoMix`: `xor.Bytes` writes the byte-wise XOR of the 32-byte mix and
of the 32-byte hash of the reveal into the fresh 32-byte slice `newMix`. -/
def StateProcessor.buildRandaoMix (sp : StateProcessor) (mix : Bytes32)
    (reveal : BLSSignature) : Bytes32 :=
  let revealHash := sp.sha256Hash reveal.val
  ⟨List.zipWith Nat.xor mix.val revealHash.val, by
    simp [List.length_zipWith, mix.property, revealHash.property]⟩

/-- `StateProcessor.processRandaoReveal`.  `verifyRandao` is `ctx.VerifyRandao()`.  The result
is the state the call leaves behind and the error it returns.  The remainder by
`EpochsPerHistoricalVector` panics for a zero divisor. -/
def StateProcessor.processRandaoReveal (sp : StateProcessor) (verifyRandao : Bool)
    (st : BeaconState) (blk : BeaconBlock) : BeaconState × Option Error :=
  let epoch := GetEpoch sp.cs st
  match ValidatorByIndex st blk.GetProposerIndex with
  | .error err => (st, some err)
  | .ok proposer =>
    let genesisValidatorsRoot := st.GenesisValidatorsRoot
    let body := blk.GetBody
    let timestamp := blk.GetTimestamp
    let forkVersion := sp.cs.ActiveForkVersionForTimestamp timestamp
    let verified : Option Error :=
      if verifyRandao then
        let signingRoot :=
          sp.ComputeRandaoSigningRoot forkVersion genesisValidatorsRoot sp.cs.DomainTypeRandao epoch
        sp.VerifySignature proposer.Pubkey signingRoot.val body.RandaoReveal
      else none
    match verified with
    | some err => (st, some (.Wrapf "state processor failed randao checks: %w" none err))
    | none =>
      if sp.cs.EpochsPerHistoricalVector = 0 then (st, some .DivideByZero)
      else
        match GetRandaoMixAtIndex st (epoch % sp.cs.EpochsPerHistoricalVector) with
        | .error err => (st, some err)
        | .ok prevMix =>
          match UpdateRandaoMixAtIndex st (epoch % sp.cs.EpochsPerHistoricalVector)
              (sp.buildRandaoMix prevMix body.RandaoReveal) with
          | .error err => (st, some err)
          | .ok st1 => (st1, none)

/-- `StateProcessor.processRandaoMixesReset`.  The result is the state the call leaves behind
and the error it returns.  `epoch.Unwrap()+1` is a 64-bit sum, and the remainder by
`EpochsPerHistoricalVector` panics for a zero divisor. -/
def StateProcessor.processRandaoMixesReset (sp : StateProcessor) (st : BeaconState) :
    BeaconState × Option Error :=
  let epoch := GetEpoch sp.cs st
  if sp.cs.EpochsPerHistoricalVector = 0 then (st, some .DivideByZero)
  else
    match GetRandaoMixAtIndex st (epoch % sp.cs.EpochsPerHistoricalVector) with
    | .error err => (st, some err)
    | .ok mix =>
      match UpdateRandaoMixAtIndex st
          ((epoch + 1) % 2 ^ 64 % sp.cs.EpochsPerHistoricalVector) mix with
      | .error err => (st, some err)
      | .ok st1 => (st1, none)

/-- Modelled from the spec: `StateProcessor.InitiateValidatorExit` is not among the sources.
"Initiate exit sets exit-epoch bookkeeping on the validator (no churn-limit queueing is applied
at this layer)"; the caller notes "we exit validators in the next epoch".  It reads the
validator at the index, sets its exit epoch to the epoch after the current one and writes it
back. -/
def StateProcessor.InitiateValidatorExit (sp : StateProcessor) (st : BeaconState) (idx : Nat) :
    BeaconState × Option Error :=
  match ValidatorByIndex st idx with
  | .error err => (st, some err)
  | .ok validator =>
    let nextEpoch := (GetEpoch sp.cs st + 1) % 2 ^ 64
    match UpdateValidatorAtIndex st idx { validator with ExitEpoch := nextEpoch } with
    | .error err => (st, some err)
    | .ok st1 => (st1, none)

/-- `getActiveVals`: the validators of the state that are active at `epoch`, in index order. -/
def getActiveVals (st : BeaconState) (epoch : Nat) : List Validator :=
  (GetValidators st).filter (fun val => val.IsActive epoch)

/-- `bytes.Compare` of the standard library: `-1`, `0` or `1` as the first byte string is
lexicographically below, equal to or above the second. -/
def bytesCompare : List Nat → List Nat → Int
  | [], [] => 0
  | [], _ :: _ => -1
  | _ :: _, [] => 1
  | a :: as, b :: bs => if a < b then -1 else if b < a then 1 else bytesCompare as bs

/-- The comparison function `processValidatorSetCap` passes to `slices.SortFunc`. -/
def validatorCmp (lhs rhs : Validator) : Int :=
  let val1Stake := lhs.EffectiveBalance
  let val2Stake := rhs.EffectiveBalance
  if val1Stake < val2Stake then -1
  else if val1Stake > val2Stake then 1
  else bytesCompare lhs.Pubkey.val rhs.Pubkey.val

/-- `slices.SortFunc` of the standard library, as an insertion sort: it sorts ascending as
determined by `cmp`.  The library leaves the order of elements that compare equal open; the
validators sorted here have distinct pubkeys and never compare equal. -/
def sortFunc {α : Type} (cmp : α → α → Int) (xs : List α) : List α :=
  xs.insertionSort (fun a b => cmp a b ≤ 0)

/-- The ejection loop of `processValidatorSetCap`, `for li := range len - cap`, over the
validators `nextEpochVals[li], nextEpochVals[li+1], ...` still to eject. -/
def StateProcessor.ejectLoop (sp : StateProcessor) :
    List Validator → Nat → BeaconState → BeaconState × Option Error
  | [], _, st => (st, none)
  | valToEject :: rest, li, st =>
    match ValidatorIndexByPubkey st valToEject.Pubkey with
    | .error err =>
      (st, some (.Wrapf "validators cap, failed loading validator index: %w" none err))
    | .ok idx =>
      match sp.InitiateValidatorExit st idx with
      | (st1, some exitErr) =>
        (st1, some (.Wrapf "validator cap, failed ejecting validator idx %d: %w" (some li)
          exitErr))
      | (st1, none) => sp.ejectLoop rest (li + 1) st1

/-- `StateProcessor.processValidatorSetCap`.  The result is the state the call leaves behind
and the error it returns. -/
def StateProcessor.processValidatorSetCap (sp : StateProcessor) (st : BeaconState) :
    BeaconState × Option Error :=
  let currentEpoch := GetEpoch sp.cs st
  let nextEpochVals := getActiveVals st ((currentEpoch + 1) % 2 ^ 64)
  let validatorSetCap := sp.cs.ValidatorSetCap
  if nextEpochVals.length ≤ validatorSetCap then
    (st, none)
  else
    let sorted := sortFunc validatorCmp nextEpochVals
    sp.ejectLoop (sorted.take (nextEpochVals.length - validatorSetCap)) 0 st

/-- What `processRegistryUpdates` returns: the state it leaves behind, the error, and the
pubkeys of the validators for which it has logged "registry update, validator is active but
effective balance is too low", in the order of the log lines. -/
structure RegistryResult where
  state : BeaconState
  err : Option Error
  logged : List BLSPubkey
  deriving DecidableEq, Repr

/-- The validator as the body of the loop of `processRegistryUpdates` leaves it: the
activation-eligibility epoch is set first, the activation epoch after it, each under its
condition. -/
def registryUpdatedValidator (minActivationBalance currEpoch activationEpoch : Nat)
    (val : Validator) : Validator :=
  let val1 :=
    if val.IsEligibleForActivationQueue minActivationBalance then
      val.SetActivationEligibilityEpoch activationEpoch
    else val
  if val1.IsEligibleForActivation currEpoch then val1.SetActivationEpoch activationEpoch
  else val1

/-- The flag `valModified` at the end of the body of the loop of `processRegistryUpdates`. -/
def registryValModified (minActivationBalance currEpoch activationEpoch : Nat)
    (val : Validator) : Bool :=
  let val1 :=
    if val.IsEligibleForActivationQueue minActivationBalance then
      val.SetActivationEligibilityEpoch activationEpoch
    else val
  val.IsEligibleForActivationQueue minActivationBalance || val1.IsEligibleForActivation currEpoch

/-- The condition under which the loop of `processRegistryUpdates` logs a validator: it is
active at the current epoch and its effective balance is at most
`minActivationBalance - EffectiveBalanceIncrement`, a 64-bit difference. -/
def registryLogsValidator (cs : ChainSpec) (currEpoch : Nat) (val : Validator) : Bool :=
  val.IsActive currEpoch &&
    decide (val.EffectiveBalance
      ≤ (cs.MinActivationBalance + 2 ^ 64 - cs.EffectiveBalanceIncrement % 2 ^ 64) % 2 ^ 64)

/-- The loop of `processRegistryUpdates`, `for si, val := range vals`, over the validators
still to visit, entered at index `si` with the state `st` and the log lines so far. -/
def StateProcessor.registryLoop (sp : StateProcessor) (currEpoch activationEpoch : Nat) :
    List Validator → Nat → BeaconState → List BLSPubkey → RegistryResult
  | [], _, st, logged => ⟨st, none, logged⟩
  | val :: rest, si, st, logged =>
    let minActivationBalance := sp.cs.MinActivationBalance
    let logged1 :=
      if registryLogsValidator sp.cs currEpoch val then logged ++ [val.Pubkey] else logged
    let val1 := registryUpdatedValidator minActivationBalance currEpoch activationEpoch val
    if registryValModified minActivationBalance currEpoch activationEpoch val then
      match ValidatorIndexByPubkey st val1.Pubkey with
      | .error err =>
        ⟨st, some (.Wrapf
          "registry update, failed loading validator index, state index %d: %w" (some si) err),
          logged1⟩
      | .ok idx =>
        match UpdateValidatorAtIndex st idx val1 with
        | .error err =>
          ⟨st, some (.Wrapf "registry update, failed updating validator idx %d: %w" (some idx)
            err), logged1⟩
        | .ok st1 => sp.registryLoop currEpoch activationEpoch rest (si + 1) st1 logged1
    else sp.registryLoop currEpoch activationEpoch rest (si + 1) st logged1

/-- `StateProcessor.processRegistryUpdates`.  `activationEpoch` is the 64-bit sum
`currEpoch + 1`; `vals` is the list of validators read once before the loop. -/
def StateProcessor.processRegistryUpdates (sp : StateProcessor) (st : BeaconState) :
    RegistryResult :=
  let currEpoch := GetEpoch sp.cs st
  let activationEpoch := (currEpoch + 1) % 2 ^ 64
  let vals := GetValidators st
  sp.registryLoop currEpoch activationEpoch vals 0 st []

/-- The pubkey index is sound: for the pubkey of a stored validator the reverse lookup, when it
succeeds, returns the index of that validator.  A consistent index is sound; a sound index may
lack entries. -/
def PubkeyIndexSound (st : BeaconState) : Prop :=
  ∀ (i idx : Nat) (v : Validator), st.Validators[i]? = some v →
    ValidatorIndexByPubkey st v.Pubkey = .ok idx → idx = i

/-! ### The validator-set diff -/

/-- A Go `map[string]math.Gwei`: a list of entries with distinct keys.  The order of the list
stands for the order in which `range` visits the map, which Go leaves unspecified. -/
abbrev GweiMap := List (List Nat × Nat)

/-- `m[key]` with the comma-ok form: the value stored under `key`, if any. -/
def GweiMap.get (m : GweiMap) (key : List Nat) : Option Nat :=
  (m.find? (fun e => decide (e.1 = key))).map (fun e => e.2)

/-- `delete(m, key)`. -/
def GweiMap.delete (m : GweiMap) (key : List Nat) : GweiMap :=
  m.filter (fun e => decide (e.1 ≠ key))

/-- `m[key] = value`: replaces the entry stored under `key`, if any. -/
def GweiMap.set (m : GweiMap) (key : List Nat) (value : Nat) : GweiMap :=
  m.delete key ++ [(key, value)]

/-- Modelled from the spec: `bytes.ToBytes48` is not among the sources.  It converts a byte
slice of length 48 to the array and fails for any other length, returning the zero array. -/
def ToBytes48 (input : List Nat) : Bytes48 × Option Error :=
  if h : input.length = 48 then (⟨input, h⟩, none) else (constBytes48 0, some .IndexOutOfRange)

/-- One iteration of the loop of `validatorSetsDiffs` over `currentValSet`; the accumulator is
the pair of `res` and `prevValsSet`. -/
def diffStep (acc : List ValidatorUpdate × GweiMap) (newVal : ValidatorUpdate) :
    List ValidatorUpdate × GweiMap :=
  let key := newVal.Pubkey.val
  match acc.2.get key with
  | none => (acc.1 ++ [newVal], acc.2)
  | some oldBal =>
    let res := if oldBal ≠ newVal.EffectiveBalance then acc.1 ++ [newVal] else acc.1
    (res, acc.2.delete key)

/-- `validatorSetsDiffs`. -/
def validatorSetsDiffs (prevEpochValidators currEpochValidator : List Validator) :
    List ValidatorUpdate :=
  let currentValSet : List ValidatorUpdate :=
    currEpochValidator.map (fun v => ⟨v.Pubkey, v.EffectiveBalance⟩)
  let prevValsSet : GweiMap :=
    prevEpochValidators.foldl (fun m v => m.set v.Pubkey.val v.EffectiveBalance) []
  let acc := currentValSet.foldl diffStep ([], prevValsSet)
  acc.1 ++ acc.2.map (fun e => ⟨(ToBytes48 e.1).1, 0⟩)

/-! ### Reference order on validators -/

/-- The rank of a validator: `v` ranks strictly below `w` when its effective balance is lower,
or the balances are equal and its pubkey is below in the byte-lexicographic order. -/
def rankLt (v w : Validator) : Prop :=
  v.EffectiveBalance < w.EffectiveBalance ∨
    (v.EffectiveBalance = w.EffectiveBalance ∧ v.Pubkey.val < w.Pubkey.val)

/-- The sort key of a validator in the lexicographic product of the balances and the byte
strings. -/
def rankKey (v : Validator) : ℕ ×ₗ List ℕ :=
  toLex (v.EffectiveBalance, v.Pubkey.val)

/-- The validator with its exit initiated for the epoch `nextEpoch`. -/
def withExitEpoch (nextEpoch : Nat) (v : Validator) : Validator :=
  { v with ExitEpoch := nextEpoch }

/-! ## `primitives/math`: Gwei and the hash tree root of a `U64` -/

/-- `params.GWei` of go-ethereum: the number of Wei in one Gwei. -/
def GWei : Nat := 10 ^ 9

/-- `ErrGweiOverflow`. -/
inductive GweiError where
  | ErrGweiOverflow
  deriving DecidableEq, Repr

/-- What a call of `GweiFromWei` leaves behind: the `Gwei` value and the `error` it returns,
and the value the big integer passed by pointer holds after the call. -/
structure GweiFromWeiResult where
  gwei : Nat
  err : Option GweiError
  arg : Int
  deriving DecidableEq, Repr

/-- `GweiFromWei`.  `i.Div(i, intToGwei)` is the Euclidean division of `math/big` and stores
the quotient in `i`; `IsUint64` holds for the values from `0` to `2 ^ 64 - 1`; `Uint64` returns
the low 64 bits. -/
def GweiFromWei (i : Int) : GweiFromWeiResult :=
  let intToGwei : Int := (GWei : Int)
  let i1 := Int.ediv i intToGwei
  if ¬ (0 ≤ i1 ∧ i1 < 2 ^ 64) then ⟨0, some .ErrGweiOverflow, i1⟩
  else ⟨i1.toNat % 2 ^ 64, none, i1⟩

/-- `binary.LittleEndian.PutUint64` of the standard library, as the eight bytes it writes:
`b[k] = byte(v >> (8 * k))`. -/
def putUint64LE (v : Nat) : List Nat :=
  (List.range 8).map (fun k => v / 256 ^ k % 256)

/-- `U64.HashTreeRoot`: the zero root with the little-endian bytes of `u` written over its
first eight bytes. -/
def U64HashTreeRoot (u : Nat) : Bytes32 :=
  ⟨putUint64LE u ++ (List.replicate 32 0).drop 8, by simp [putUint64LE]⟩

/-- The number a byte string encodes in little-endian order: the first byte is the least
significant. -/
def littleEndianValue : List Nat → Nat
  | [] => 0
  | b :: bs => b + 256 * littleEndianValue bs

/-! ## The payload header builder -/

/-- A byte array of the fixed length `n`. -/
structure FixedBytes (n : Nat) where
  val : List Nat
  property : val.length = n
  deriving DecidableEq, Repr

/-- `common.Version`, four bytes. -/
abbrev Version := FixedBytes 4

/-- `math.U256`: an unsigned integer of 256 bits. -/
structure U256 where
  val : Nat
  property : val < 2 ^ 256
  deriving DecidableEq, Repr

/-- Errors of the payload header builder and of the block constructor.  `Wrapf msg inner` is
`fmt.Errorf(msg, inner)` for a message with `%w`, and `errors.Wrap(inner, msg)`. -/
inductive PayloadError where
  /-- `types.ErrForkVersionNotSupported`. -/
  | ErrForkVersionNotSupported
  /-- The error of the conversion of a big integer that does not fit 256 bits. -/
  | OverflowError
  /-- An error wrapped with context. -/
  | Wrapf (msg : String) (inner : PayloadError)
  deriving DecidableEq, Repr

/-- Modelled from the spec: `math.NewU256FromBigInt` is not among the sources.  It "converts a
big-integer base-fee into the node's fixed-width unsigned integer representation, failing with
an `OverflowError` if it cannot fit": the integers from `0` to `2 ^ 256 - 1` fit. -/
def NewU256FromBigInt (b : Int) : Except PayloadError U256 :=
  if h : 0 ≤ b ∧ b < 2 ^ 256 then
    .ok ⟨b.toNat, by
      have h2 : (b.toNat : Int) = b := Int.toNat_of_nonneg h.1
      have h3 : (b.toNat : Int) < ((2 ^ 256 : Nat) : Int) := by rw [h2]; exact_mod_cast h.2
      exact_mod_cast h3⟩
  else .error .OverflowError

/-- `engineprimitives.Withdrawal`. -/
structure Withdrawal where
  Index : Nat
  Validator : Nat
  Address : FixedBytes 20
  Amount : Nat
  deriving DecidableEq, Repr

/-- Modelled from the spec: `gethprimitives.ExecutableData` is declared outside the given
sources.  The design document treats the execution-layer block as "an opaque,
already-validated structure with the scalar/array fields" the builder reads; the fields are
those the builder reads, the hashes, the address and the logs bloom with their fixed lengths,
the base fee a big integer, the two blob-gas fields optional. -/
structure ExecutableData where
  ParentHash : Bytes32
  FeeRecipient : FixedBytes 20
  StateRoot : Bytes32
  ReceiptsRoot : Bytes32
  LogsBloom : FixedBytes 256
  Random : Bytes32
  Number : Nat
  GasLimit : Nat
  GasUsed : Nat
  Timestamp : Nat
  ExtraData : List Nat
  BaseFeePerGas : Int
  BlockHash : Bytes32
  Transactions : List (List Nat)
  Withdrawals : List Withdrawal
  BlobGasUsed : Option Nat
  ExcessBlobGas : Option Nat
  deriving DecidableEq, Repr

/-- `types.ExecutionPayloadHeader`, with the fields the builder fills in. -/
structure ExecutionPayloadHeader where
  Versionable : Version
  ParentHash : Bytes32
  FeeRecipient : FixedBytes 20
  StateRoot : Bytes32
  ReceiptsRoot : Bytes32
  LogsBloom : FixedBytes 256
  Random : Bytes32
  Number : Nat
  GasLimit : Nat
  GasUsed : Nat
  Timestamp : Nat
  ExtraData : List Nat
  BaseFeePerGas : U256
  BlockHash : Bytes32
  TransactionsRoot : Bytes32
  WithdrawalsRoot : Bytes32
  BlobGasUsed : Nat
  ExcessBlobGas : Nat
  deriving DecidableEq, Repr

/-- The constants and functions of other packages the builder uses: `version.Genesis()`,
`constants.ExtraDataLength`, and the hash tree roots of the transactions and of the
withdrawals. -/
structure PayloadEnv where
  Genesis : Version
  ExtraDataLength : Nat
  TransactionsRoot : List (List Nat) → Bytes32
  WithdrawalsRoot : List Withdrawal → Bytes32

/-- `executableDataToExecutionPayloadHeader`.  The header is `none` where the source returns
`nil`.  The third parameter of the source is unused. -/
def executableDataToExecutionPayloadHeader (env : PayloadEnv) (forkVersion : Version)
    (data : ExecutableData) (_maxWithdrawals : Nat) :
    Option ExecutionPayloadHeader × Option PayloadError :=
  if forkVersion = env.Genesis then
    let withdrawals := data.Withdrawals
    let extraData :=
      if data.ExtraData.length > env.ExtraDataLength then
        data.ExtraData.take env.ExtraDataLength
      else data.ExtraData
    let blobGasUsed := match data.BlobGasUsed with
      | some x => x
      | none => 0
    let excessBlobGas := match data.ExcessBlobGas with
      | some x => x
      | none => 0
    match NewU256FromBigInt data.BaseFeePerGas with
    | .error err => (none, some (.Wrapf "failed baseFeePerGas conversion: %w" err))
    | .ok baseFeePerGas =>
      (some
        { Versionable := forkVersion
          ParentHash := data.ParentHash
          FeeRecipient := data.FeeRecipient
          StateRoot := data.StateRoot
          ReceiptsRoot := data.ReceiptsRoot
          LogsBloom := data.LogsBloom
          Random := data.Random
          Number := data.Number
          GasLimit := data.GasLimit
          GasUsed := data.GasUsed
          Timestamp := data.Timestamp
          ExtraData := extraData
          BaseFeePerGas := baseFeePerGas
          BlockHash := data.BlockHash
          TransactionsRoot := env.TransactionsRoot data.Transactions
          WithdrawalsRoot := env.WithdrawalsRoot withdrawals
          BlobGasUsed := blobGasUsed
          ExcessBlobGas := excessBlobGas }, none)
  else (none, some .ErrForkVersionNotSupported)

/-- A byte array of length `n` filled with the byte `b`. -/
def constFixedBytes (n b : Nat) : FixedBytes n := ⟨List.replicate n b, by simp⟩

/-- An environment with the genesis version `4.0.0.0`, at most 32 bytes of extra data and
constant roots. -/
def examplePayloadEnv : PayloadEnv :=
  ⟨⟨[4, 0, 0, 0], rfl⟩, 32, fun _ => constBytes32 1, fun _ => constBytes32 2⟩

/-- An executable-data input with 40 bytes of extra data, the base fee `baseFee` and no
blob-gas fields. -/
def exampleExecutableData (baseFee : Int) : ExecutableData :=
  { ParentHash := constBytes32 1
    FeeRecipient := constFixedBytes 20 2
    StateRoot := constBytes32 3
    ReceiptsRoot := constBytes32 4
    LogsBloom := constFixedBytes 256 5
    Random := constBytes32 6
    Number := 7
    GasLimit := 30000000
    GasUsed := 21000
    Timestamp := 1700000000
    ExtraData := List.replicate 40 9
    BaseFeePerGas := baseFee
    BlockHash := constBytes32 8
    Transactions := []
    Withdrawals := []
    BlobGasUsed := none
    ExcessBlobGas := some 11 }

/-! ## `consensus-types`: building a block -/

/-- The zero value `BeaconBlockBody{}` on the fields of the body modelled here. -/
def BeaconBlockBody.zeroValue : BeaconBlockBody := ⟨constBytes96 0, 0⟩

/-- `errors.Is(e, target)`: `e` is `target`, or wraps an error for which this holds. -/
def PayloadError.Is : PayloadError → PayloadError → Bool
  | .Wrapf msg inner, target =>
    decide (PayloadError.Wrapf msg inner = target) || PayloadError.Is inner target
  | .ErrForkVersionNotSupported, target => decide (PayloadError.ErrForkVersionNotSupported = target)
  | .OverflowError, target => decide (PayloadError.OverflowError = target)

/-- `NewBeaconBlockWithVersion`.  `deneb` is the constant `version.Deneb`, which is declared
outside the given sources.  The pointer returned is `none` for nil.  `errors.Wrap(err, msg)` is
`Wrapf msg err`, with the message `fmt.Sprintf("fork %d", forkVersion)`. -/
def NewBeaconBlockWithVersion (deneb : Nat) (slot proposerIndex : Nat)
    (parentBlockRoot : Bytes32) (forkVersion : Nat) : Option BeaconBlock × Option PayloadError :=
  if forkVersion = deneb then
    (some
      { Slot := slot
        ProposerIndex := proposerIndex
        ParentRoot := parentBlockRoot
        StateRoot := zeroBytes32
        Body := BeaconBlockBody.zeroValue }, none)
  else
    let err := PayloadError.Wrapf ("fork " ++ toString forkVersion) .ErrForkVersionNotSupported
    (none, some err)

/-! ## `consensus-types`: the deposit message and its SSZ encoding -/

/-- Modelled from the spec: `types.DepositMessage` is declared outside the given sources, which
hold only its tests.  It has a 48-byte pubkey, 32-byte withdrawal credentials and an amount in
Gwei. -/
structure DepositMessage where
  Pubkey : BLSPubkey
  Credentials : Bytes32
  Amount : Nat
  deriving DecidableEq, Repr

/-- Errors of the SSZ codec. -/
inductive SSZError where
  /-- `io.ErrUnexpectedEOF`: the input ends before the object does. -/
  | ErrUnexpectedEOF
  /-- The input is longer than the object. -/
  | ErrObjectSlotSizeMismatch
  /-- The buffer to encode into is shorter than the object. -/
  | ErrBufferTooSmall
  deriving DecidableEq, Repr

/-- Modelled from the spec: `DepositMessage.SizeSSZ` is not among the sources.  The encoding has
the fixed size of its three fields, 48 + 32 + 8; the test of the size error speaks of a "size
less than 88". -/
def DepositMessage.SizeSSZ : Nat := 88

/-- The SSZ encoding of a deposit message: a container of fixed-size fields is the
concatenation of its fields, the amount as eight little-endian bytes. -/
def DepositMessage.encoding (m : DepositMessage) : List Nat :=
  m.Pubkey.val ++ m.Credentials.val ++ putUint64LE m.Amount

/-- Modelled from the spec: `DepositMessage.MarshalSSZTo` is not among the sources.  It encodes
the message into the buffer of the caller and returns that buffer; the test passes a buffer of
`ssz.Size(original)` bytes and decodes what comes back.  A buffer too short for the object is
an error. -/
def DepositMessage.MarshalSSZTo (m : DepositMessage) (buf : List Nat) :
    List Nat × Option SSZError :=
  if buf.length < DepositMessage.SizeSSZ then (buf, some .ErrBufferTooSmall)
  else (m.encoding ++ buf.drop DepositMessage.SizeSSZ, none)

/-- Modelled from the spec: `DepositMessage.MarshalSSZ` is not among the sources.  It encodes
the message into a fresh buffer of the size of the object. -/
def DepositMessage.MarshalSSZ (m : DepositMessage) : List Nat × Option SSZError :=
  m.MarshalSSZTo (List.replicate DepositMessage.SizeSSZ 0)

/-- Modelled from the spec: `DepositMessage.UnmarshalSSZ` is not among the sources.  It reads
the three fields back from an input of exactly the size of the object; the test expects
`io.ErrUnexpectedEOF` for an input of 10 bytes. -/
def DepositMessage.UnmarshalSSZ (buf : List Nat) : Except SSZError DepositMessage :=
  if h : buf.length = DepositMessage.SizeSSZ then
    .ok
      { Pubkey := ⟨buf.take 48, by
          rw [List.length_take, h]; decide⟩
        Credentials := ⟨(buf.drop 48).take 32, by
          rw [List.length_take, List.length_drop, h]; decide⟩
        Amount := littleEndianValue (buf.drop 80) }
  else if buf.length < DepositMessage.SizeSSZ then .error .ErrUnexpectedEOF
  else .error .ErrObjectSlotSizeMismatch

/-- The deposit message of the tests: zero pubkey, zero credentials, amount 1000. -/
def exampleDepositMessage : DepositMessage := ⟨constBytes48 0, constBytes32 0, 1000⟩

/-! ## `primitives/common`: a root from a hex string -/

/-- Errors of the conversion of a hex string to a root. -/
inductive HexError where
  /-- `hex.ErrEmptyString`. -/
  | ErrEmptyString
  /-- The string does not start with `0x`. -/
  | ErrMissingPrefix
  /-- An odd number of hex digits. -/
  | ErrOddLength
  /-- A character that is no hex digit. -/
  | ErrInvalidString
  /-- `bytes.ErrIncorrectLength`. -/
  | ErrIncorrectLength
  deriving DecidableEq, Repr

/-- `common.RootSize`. -/
def RootSize : Nat := 32

/-- The value of a hex digit, `0-9`, `a-f` or `A-F`. -/
def hexDigitValue (c : Char) : Option Nat :=
  if 48 ≤ c.toNat ∧ c.toNat ≤ 57 then some (c.toNat - 48)
  else if 97 ≤ c.toNat ∧ c.toNat ≤ 102 then some (c.toNat - 87)
  else if 65 ≤ c.toNat ∧ c.toNat ≤ 70 then some (c.toNat - 55)
  else none

/-- The bytes a string of hex digits stands for, two digits per byte. -/
def decodeHexDigits : List Char → Except HexError (List Nat)
  | [] => .ok []
  | [_] => .error .ErrOddLength
  | a :: b :: rest =>
    match hexDigitValue a, hexDigitValue b with
    | some x, some y =>
      match decodeHexDigits rest with
      | .ok bs => .ok ((16 * x + y) :: bs)
      | .error e => .error e
    | _, _ => .error .ErrInvalidString

/-- Modelled from the spec: `hex.ToBytes` is not among the sources.  It decodes a string of the
form `0x` followed by hex digits into bytes and fails with `hex.ErrEmptyString` for the empty
string. -/
def hex.ToBytes (input : String) : Except HexError (List Nat) :=
  match input.data with
  | [] => .error .ErrEmptyString
  | c0 :: c1 :: digits =>
    if c0.toNat = 48 ∧ (c1.toNat = 120 ∨ c1.toNat = 88) then decodeHexDigits digits
    else .error .ErrMissingPrefix
  | [_] => .error .ErrMissingPrefix

/-- Modelled from the spec: `common.NewRootFromHex` is not among the sources, which hold only its
tests.  It decodes the hex string and fails with `bytes.ErrIncorrectLength` unless the string
decodes to `RootSize` bytes. -/
def NewRootFromHex (input : String) : Except HexError Bytes32 :=
  match hex.ToBytes input with
  | .error e => .error e
  | .ok val =>
    if h : val.length = RootSize then .ok ⟨val, h⟩ else .error .ErrIncorrectLength

/-! ## `primitives/math`: Gwei to Wei -/

/-- Modelled from the spec: `math.NewU256` is not among the sources.  It is the 256-bit integer
with the value of a `uint64`. -/
def NewU256 (v : Nat) : U256 :=
  ⟨v % 2 ^ 64, lt_trans (Nat.mod_lt _ (by norm_num)) (by norm_num)⟩

/-- Modelled from the spec: `U256.Mul` is not among the sources.  The product of two 256-bit
integers in "the node's fixed-width unsigned integer representation", reduced modulo
`2 ^ 256`. -/
def U256.Mul (x y : U256) : U256 :=
  ⟨x.val * y.val % 2 ^ 256, Nat.mod_lt _ (by norm_num)⟩

/-- `Gwei.ToWei`. -/
def Gwei.ToWei (u : Nat) : U256 :=
  U256.Mul (NewU256 u) (NewU256 GWei)

/-! ### Applying a validator-set diff -/

/-- The map from pubkey to effective balance of a list of validators. -/
def balanceMap (vals : List Validator) : GweiMap :=
  vals.foldl (fun m v => m.set v.Pubkey.val v.EffectiveBalance) []

/-- Applies one update to a map from pubkey to effective balance: an update with balance `0`
deletes the pubkey, any other update sets the balance of the pubkey. -/
def applyValidatorUpdate (m : GweiMap) (u : ValidatorUpdate) : GweiMap :=
  if u.EffectiveBalance = 0 then m.delete u.Pubkey.val
  else m.set u.Pubkey.val u.EffectiveBalance

/-- Applies the updates of a diff in order. -/
def applyValidatorUpdates (m : GweiMap) (diff : List ValidatorUpdate) : GweiMap :=
  diff.foldl applyValidatorUpdate m

/-- The validator stored at index `i` has the exit epoch `n`. -/
def ExitEpochAt (st : BeaconState) (i n : Nat) : Prop :=
  ∃ v, st.Validators[i]? = some v ∧ v.ExitEpoch = n

/-! ### A concrete processor and state -/

/-- A validator with pubkey byte `pk` and effective balance `bal`, active from epoch `0` and
without an exit epoch. -/
def exampleValidator (pk bal : Nat) : Validator :=
  ⟨constBytes48 pk, constBytes32 0, bal, false, 0, 0, 2 ^ 64 - 1⟩

/-- A chain configuration with 32 slots per epoch, 8 randao mixes and a cap of 3 validators. -/
def exampleChainSpec : ChainSpec :=
  ⟨32, 8, 3, 32, 1, [7, 0, 0, 0], fun _ => [4, 0, 0, 0]⟩

/-- A processor whose verifier rejects every reveal that starts with the byte `9` and whose
hash maps a byte string to the chunk filled with its first byte. -/
def exampleProcessor : StateProcessor :=
  ⟨exampleChainSpec,
    fun _ _ sig => if sig.val.head? = some 9 then some (.SignatureInvalid 1) else none,
    fun _ root _ _ => root,
    fun l => constBytes32 (l.headD 0)⟩

/-- A state at slot 64 (epoch 2) with five validators of effective balances
`[32, 64, 16, 128, 48]` and eight randao mixes filled with the byte `5`. -/
def exampleState : BeaconState :=
  ⟨64, constBytes32 0,
    [exampleValidator 1 32, exampleValidator 2 64, exampleValidator 3 16,
      exampleValidator 4 128, exampleValidator 5 48],
    [(constBytes48 1, 0), (constBytes48 2, 1), (constBytes48 3, 2), (constBytes48 4, 3),
      (constBytes48 5, 4)],
    [32, 64, 16, 128, 48],
    List.replicate 8 (constBytes32 5)⟩

/-- A block of proposer `1` whose randao reveal is filled with the byte `b`. -/
def exampleBlock (b : Nat) : BeaconBlock :=
  ⟨64, 1, constBytes32 0, constBytes32 0, ⟨constBytes96 b, 0⟩⟩

/-- A block of proposer `proposer` whose randao reveal is filled with the byte `b`. -/
def exampleBlockBy (proposer b : Nat) : BeaconBlock :=
  ⟨64, proposer, constBytes32 0, constBytes32 0, ⟨constBytes96 b, 0⟩⟩

/-- The example processor with the validator-set cap `cap`. -/
def exampleProcessorWithCap (cap : Nat) : StateProcessor :=
  { exampleProcessor with cs := { exampleChainSpec with ValidatorSetCap := cap } }

/-- The example state with the mix at index `2` filled with the byte `7`. -/
def exampleStateMixed : BeaconState :=
  { exampleState with
    RandaoMixes := (List.replicate 8 (constBytes32 5)).set 2 (constBytes32 7) }

/-- The example state with the entry of the pubkey `1...` missing from the pubkey index. -/
def exampleStateBrokenIndex : BeaconState :=
  { exampleState with
    PubkeyIndex := [(constBytes48 2, 1), (constBytes48 3, 2), (constBytes48 4, 3),
      (constBytes48 5, 4)] }

/-- A state at slot 64 (epoch 2) for the registry updates: a validator not yet eligible with
balance 32, a validator queued since epoch 1, and an active validator with balance 10. -/
def exampleRegistryState : BeaconState :=
  ⟨64, constBytes32 0,
    [⟨constBytes48 1, constBytes32 0, 32, false, FarFutureEpoch, FarFutureEpoch, FarFutureEpoch⟩,
      ⟨constBytes48 2, constBytes32 0, 32, false, 1, FarFutureEpoch, FarFutureEpoch⟩,
      ⟨constBytes48 3, constBytes32 0, 10, false, 0, 0, FarFutureEpoch⟩],
    [(constBytes48 1, 0), (constBytes48 2, 1), (constBytes48 3, 2)],
    [32, 32, 10],
    List.replicate 8 (constBytes32 5)⟩

/-- The example state with the pubkey `3...`, of the validator with the lowest stake, mapped to
the index `7`, which holds no validator. -/
def exampleStateDanglingIndex : BeaconState :=
  { exampleState with
    PubkeyIndex := [(constBytes48 1, 0), (constBytes48 2, 1), (constBytes48 3, 7),
      (constBytes48 4, 3), (constBytes48 5, 4)] }

/-- The example processor with one slot per epoch. -/
def exampleProcessorSingleSlot : StateProcessor :=
  { exampleProcessor with cs := { exampleChainSpec with SlotsPerEpoch := 1 } }

/-- A state at the last slot, `2 ^ 64 - 1`, with one validator that is neither queued nor
activated and has the minimum activation balance. -/
def exampleStateLastSlot : BeaconState :=
  ⟨2 ^ 64 - 1, constBytes32 0,
    [⟨constBytes48 1, constBytes32 0, 32, false, FarFutureEpoch, FarFutureEpoch, FarFutureEpoch⟩],
    [(constBytes48 1, 0)],
    [32],
    List.replicate 8 (constBytes32 5)⟩

/-! # Theorems -/

/-! ## Powers of two -/

theorem iLog2CeilAux_eq_clog (fuel k u : Nat) (hk : k ≤ Nat.clog 2 u)
    (hf : Nat.clog 2 u ≤ k + fuel) : iLog2CeilAux fuel k u = Nat.clog 2 u := by
  induction fuel generalizing k with
  | zero => simp only [iLog2CeilAux]; omega
  | succ f ih =>
    simp only [iLog2CeilAux]
    split
    · next h =>
      have := (Nat.le_pow_iff_clog_le (by decide : 1 < 2)).1 h
      omega
    · next h =>
      have : ¬ Nat.clog 2 u ≤ k := fun h' => h ((Nat.le_pow_iff_clog_le (by decide : 1 < 2)).2 h')
      exact ih (k + 1) (by omega) (by omega)

theorem nextPowerOfTwoAux_eq (fuel k u : Nat) (hk : k ≤ Nat.clog 2 u)
    (hf : Nat.clog 2 u ≤ k + fuel) :
    nextPowerOfTwoAux fuel (2 ^ k) u = 2 ^ Nat.clog 2 u := by
  induction fuel generalizing k with
  | zero =>
    simp only [nextPowerOfTwoAux]
    have : k = Nat.clog 2 u := by omega
    rw [this]
  | succ f ih =>
    simp only [nextPowerOfTwoAux]
    split
    · next h =>
      have := (Nat.le_pow_iff_clog_le (by decide : 1 < 2)).1 h
      have : k = Nat.clog 2 u := by omega
      rw [this]
    · next h =>
      have : ¬ Nat.clog 2 u ≤ k := fun h' => h ((Nat.le_pow_iff_clog_le (by decide : 1 < 2)).2 h')
      have h2 : 2 * 2 ^ k = 2 ^ (k + 1) := by rw [pow_succ]; ring
      rw [h2]
      exact ih (k + 1) (by omega) (by omega)

theorem clog_le_of_le_two_pow {u m : Nat} (h : u ≤ 2 ^ m) : Nat.clog 2 u ≤ m :=
  (Nat.le_pow_iff_clog_le (by decide : 1 < 2)).1 h

theorem NextPowerOfTwo_eq {u : Nat} (h : u ≤ 2 ^ 63) : NextPowerOfTwo u = 2 ^ Nat.clog 2 u := by
  have hc : Nat.clog 2 u ≤ 63 := clog_le_of_le_two_pow h
  unfold NextPowerOfTwo
  have := nextPowerOfTwoAux_eq 64 0 u (Nat.zero_le _) (by omega)
  rw [pow_zero] at this
  rw [this]
  apply Nat.mod_eq_of_lt
  exact Nat.pow_lt_pow_right (by decide) (by omega)

theorem ILog2Ceil_eq {u : Nat} (h : u ≤ 2 ^ 64) : ILog2Ceil u = Nat.clog 2 u := by
  have hc : Nat.clog 2 u ≤ 64 := clog_le_of_le_two_pow h
  exact iLog2CeilAux_eq_clog 64 0 u (Nat.zero_le _) (by omega)

/-- The depth `NewRootWithMaxLeaves` derives from a count or limit is the ceiling of its binary
logarithm. -/
theorem depth_eq_clog {u : Nat} (h : u ≤ 2 ^ 63) :
    ILog2Ceil (NextPowerOfTwo u) = Nat.clog 2 u := by
  have hc : Nat.clog 2 u ≤ 63 := clog_le_of_le_two_pow h
  rw [NextPowerOfTwo_eq h, ILog2Ceil_eq, Nat.clog_pow 2 _ (by decide)]
  exact Nat.pow_le_pow_right (by decide) (by omega)

/-! ## Pair hashing -/

section Merkle

variable {R : Type}

theorem pairUp_length (C : R → R → R) : ∀ xs : List R, (pairUp C xs).length = xs.length / 2
  | [] => by simp [pairUp]
  | [_] => by simp [pairUp]
  | _ :: _ :: rest => by
    simp only [pairUp, List.length_cons, pairUp_length C rest]
    omega

theorem pairUp_append (C : R → R → R) :
    ∀ (xs ys : List R), xs.length % 2 = 0 → pairUp C (xs ++ ys) = pairUp C xs ++ pairUp C ys
  | [], ys, _ => by simp [pairUp]
  | [_], _, h => by simp at h
  | a :: b :: rest, ys, h => by
    have h2 : rest.length % 2 = 0 := by simp only [List.length_cons] at h; omega
    have ih := pairUp_append C rest ys h2
    show pairUp C (a :: b :: (rest ++ ys)) = pairUp C (a :: b :: rest) ++ pairUp C ys
    simp only [pairUp, ih, List.cons_append]

theorem pairUp_replicate (C : R → R → R) (z : R) :
    ∀ m : Nat, pairUp C (List.replicate (2 * m) z) = List.replicate m (C z z)
  | 0 => by simp [pairUp]
  | m + 1 => by
    have : 2 * (m + 1) = (2 * m + 1) + 1 := by ring
    rw [this, List.replicate_succ, List.replicate_succ]
    simp only [pairUp, pairUp_replicate C z m, List.replicate_succ]

theorem pairUp_take (C : R → R → R) :
    ∀ (k : Nat) (xs : List R), (pairUp C xs).take k = pairUp C (xs.take (2 * k))
  | 0, xs => by simp [pairUp]
  | k + 1, [] => by simp [pairUp]
  | k + 1, [a] => by simp [pairUp]
  | k + 1, a :: b :: rest => by
    have : 2 * (k + 1) = (2 * k + 1) + 1 := by ring
    rw [this]
    simp only [pairUp, List.take_succ_cons, pairUp_take C k rest]

theorem pairUp_drop (C : R → R → R) :
    ∀ (k : Nat) (xs : List R), (pairUp C xs).drop k = pairUp C (xs.drop (2 * k))
  | 0, xs => by simp
  | k + 1, [] => by simp [pairUp]
  | k + 1, [a] => by simp [pairUp]
  | k + 1, a :: b :: rest => by
    have : 2 * (k + 1) = (2 * k + 1) + 1 := by ring
    rw [this]
    simp only [pairUp, List.drop_succ_cons, pairUp_drop C k rest]

theorem pairUp_getElem? (C : R → R → R) :
    ∀ (xs : List R) (i : Nat) (h : i < xs.length / 2),
      (pairUp C xs)[i]? = some (C (xs.get ⟨2 * i, by omega⟩) (xs.get ⟨2 * i + 1, by omega⟩))
  | [], i, h => by simp at h
  | [a], i, h => by
    exfalso
    have h0 : [a].length / 2 = 0 := by simp
    omega
  | a :: b :: rest, 0, _ => by simp [pairUp]
  | a :: b :: rest, i + 1, h => by
    have h2 : i < rest.length / 2 := by simp only [List.length_cons] at h; omega
    have ih := pairUp_getElem? C rest i h2
    simp only [pairUp, List.getElem?_cons_succ, ih]
    have e1 : 2 * (i + 1) = (2 * i) + 1 + 1 := by ring
    have e2 : 2 * (i + 1) + 1 = (2 * i + 1) + 1 + 1 := by ring
    simp only [List.get_eq_getElem, e1, e2, List.getElem_cons_succ]

/-- Under its contract, `rootHashFn` called in place on an even layer leaves the pair hashes in
the first half of the slice. -/
theorem rootHashFn_inplace (rh : RootHasher R) (hc : RootHashFnContract rh) (inp : List R)
    (he : inp.length % 2 = 0) :
    ∃ res, rh.rootHashFn inp inp = .ok res ∧ res.take (inp.length / 2) = pairUp rh.Combi inp := by
  obtain ⟨res, hres, hlen, hget⟩ := hc inp inp he (Nat.div_le_self _ _)
  refine ⟨res, hres, ?_⟩
  apply List.ext_getElem?
  intro i
  by_cases hi : i < inp.length / 2
  · rw [List.getElem?_take_of_lt hi, hget i hi, pairUp_getElem? rh.Combi inp i hi]
  · have h1 : (res.take (inp.length / 2)).length ≤ i := by
      rw [List.length_take]; omega
    have h2 : (pairUp rh.Combi inp).length ≤ i := by
      rw [pairUp_length]; omega
    rw [List.getElem?_eq_none h1, List.getElem?_eq_none h2]

/-! ## Top-down and bottom-up roots agree -/

/-- On a full layer of `2 ^ (d + 1)` nodes the top-down root is the top-down root of the layer
of pair hashes. -/
theorem completeTreeRoot_pairUp (C : R → R → R) (z : R) :
    ∀ (d : Nat) (xs : List R), xs.length = 2 ^ (d + 1) →
      completeTreeRoot C z (d + 1) xs = completeTreeRoot C z d (pairUp C xs)
  | 0, xs, h => by
    match xs, h with
    | [a, b], _ => rfl
  | d + 1, xs, h => by
    have hp : 2 ^ (d + 1 + 1) = 2 ^ (d + 1) + 2 ^ (d + 1) := by rw [pow_succ]; ring
    have ht : (xs.take (2 ^ (d + 1))).length = 2 ^ (d + 1) := by
      rw [List.length_take]; omega
    have hd : (xs.drop (2 ^ (d + 1))).length = 2 ^ (d + 1) := by
      rw [List.length_drop]; omega
    have e : 2 * 2 ^ d = 2 ^ (d + 1) := by rw [pow_succ]; ring
    rw [completeTreeRoot, completeTreeRoot_pairUp C z d _ ht, completeTreeRoot_pairUp C z d _ hd]
    conv_rhs => rw [completeTreeRoot, pairUp_take, pairUp_drop, e]

theorem layerStep_length (C : R → R → R) (Z : Nat → R) (i : Nat) (xs : List R) :
    (layerStep C Z i xs).length = (xs.length + 1) / 2 := by
  unfold layerStep
  rw [pairUp_length]
  split
  · rw [List.length_append, List.length_singleton]
  · omega

/-- Pair hashing the zero-padded layer gives the zero-padded next layer. -/
theorem pairUp_paddedLeaves (C : R → R → R) (Z : Nat → R) (hZ : ZeroHashesContract C Z)
    (i d : Nat) (xs : List R) (h : xs.length ≤ 2 ^ (d + 1)) :
    pairUp C (paddedLeaves (Z i) (d + 1) xs) = paddedLeaves (Z (i + 1)) d (layerStep C Z i xs) := by
  have hp : 2 ^ (d + 1) = 2 * 2 ^ d := by rw [pow_succ]; ring
  unfold paddedLeaves
  rw [layerStep_length]
  unfold layerStep
  by_cases ho : xs.length % 2 = 1
  · rw [if_pos ho]
    obtain ⟨m, hm⟩ : ∃ m, 2 ^ (d + 1) - xs.length = 2 * m + 1 := ⟨(2 ^ (d + 1) - xs.length) / 2, by omega⟩
    have e1 : 2 ^ d - (xs.length + 1) / 2 = m := by omega
    rw [hm, e1, List.replicate_succ, List.append_cons]
    rw [pairUp_append C _ _ (by rw [List.length_append, List.length_singleton]; omega),
      pairUp_replicate, hZ i]
  · rw [if_neg ho]
    obtain ⟨m, hm⟩ : ∃ m, 2 ^ (d + 1) - xs.length = 2 * m := ⟨(2 ^ (d + 1) - xs.length) / 2, by omega⟩
    have e1 : 2 ^ d - (xs.length + 1) / 2 = m := by omega
    rw [hm, e1, pairUp_append C _ _ (by omega), pairUp_replicate, hZ i]

theorem paddedLeaves_length (z : R) (d : Nat) (xs : List R) (h : xs.length ≤ 2 ^ d) :
    (paddedLeaves z d xs).length = 2 ^ d := by
  unfold paddedLeaves
  rw [List.length_append, List.length_replicate]
  omega

/-- The top-down root of the zero-padded tree is what remains after `d` bottom-up layers. -/
theorem completeTreeRoot_layerSteps (C : R → R → R) (Z : Nat → R) (hZ : ZeroHashesContract C Z)
    (z : R) : ∀ (d i : Nat) (xs : List R), xs.length ≤ 2 ^ d →
      completeTreeRoot C z d (paddedLeaves (Z i) d xs)
        = (layerSteps C Z d i xs).headD (Z (i + d))
  | 0, i, xs, h => by
    match xs, h with
    | [], _ => simp [completeTreeRoot, paddedLeaves, layerSteps]
    | [a], _ => simp [completeTreeRoot, paddedLeaves, layerSteps]
  | d + 1, i, xs, h => by
    have hl : (layerStep C Z i xs).length ≤ 2 ^ d := by
      rw [layerStep_length]
      have hp : 2 ^ (d + 1) = 2 * 2 ^ d := by rw [pow_succ]; ring
      omega
    rw [completeTreeRoot_pairUp C z d _ (paddedLeaves_length _ _ _ h),
      pairUp_paddedLeaves C Z hZ i d xs h, completeTreeRoot_layerSteps C Z hZ z d (i + 1) _ hl,
      layerSteps]
    congr 2
    omega

/-! ## The loops of `NewRootWithDepth` -/

theorem layerSteps_nil (C : R → R → R) (Z : Nat → R) :
    ∀ (n i : Nat), layerSteps C Z n i [] = []
  | 0, _ => rfl
  | n + 1, i => by
    have : layerStep C Z i [] = [] := by simp [layerStep, pairUp]
    rw [layerSteps, this, layerSteps_nil C Z n (i + 1)]

theorem layerSteps_add (C : R → R → R) (Z : Nat → R) :
    ∀ (a b i : Nat) (xs : List R),
      layerSteps C Z (a + b) i xs = layerSteps C Z b (i + a) (layerSteps C Z a i xs)
  | 0, b, i, xs => by simp [layerSteps]
  | a + 1, b, i, xs => by
    have e : a + 1 + b = (a + b) + 1 := by omega
    have e2 : i + (a + 1) = i + 1 + a := by omega
    rw [e, layerSteps, layerSteps, layerSteps_add C Z a b (i + 1), e2]

/-- After `n` layers a non-empty layer of at most `2 ^ n` nodes has shrunk to one node. -/
theorem layerSteps_length_one (C : R → R → R) (Z : Nat → R) :
    ∀ (n i : Nat) (xs : List R), 1 ≤ xs.length → xs.length ≤ 2 ^ n →
      (layerSteps C Z n i xs).length = 1
  | 0, _, xs, h1, h2 => by
    simp only [pow_zero] at h2
    simp only [layerSteps]; omega
  | n + 1, i, xs, h1, h2 => by
    have hp : 2 ^ (n + 1) = 2 * 2 ^ n := by rw [pow_succ]; ring
    rw [layerSteps]
    apply layerSteps_length_one C Z n (i + 1)
    · rw [layerStep_length]; omega
    · rw [layerStep_length]; omega

/-- Under the contract of `rootHashFn` the first loop never fails, computes the bottom-up
layers and invokes `rootHashFn` once per layer. -/
theorem hashLayers_eq (rh : RootHasher R) (hc : RootHashFnContract rh) (Z : Nat → R) :
    ∀ (n i : Nat) (xs : List R) (c : Nat),
      hashLayers rh Z n i xs c = (.ok (layerSteps rh.Combi Z n i xs), c + n)
  | 0, _, _, _ => rfl
  | n + 1, i, xs, c => by
    have hev : (if xs.length % 2 = 1 then xs ++ [Z i] else xs).length % 2 = 0 := by
      split
      · rw [List.length_append, List.length_singleton]; omega
      · omega
    have hlen : (if xs.length % 2 = 1 then xs ++ [Z i] else xs).length / 2
        = (xs.length + 1) / 2 := by
      split
      · rw [List.length_append, List.length_singleton]
      · omega
    obtain ⟨res, hres, htake⟩ := rootHashFn_inplace rh hc _ hev
    rw [hlen] at htake
    simp only [hashLayers, hres, htake]
    rw [hashLayers_eq rh hc Z n (i + 1), layerSteps]
    simp only [layerStep]
    congr 1
    omega

/-- The second loop performs the bottom-up layers on a single node and invokes `Combi` once
per layer. -/
theorem combiLoop_eq (rh : RootHasher R) (Z : Nat → R) :
    ∀ (n j : Nat) (h : R) (c : Nat),
      layerSteps rh.Combi Z n j [h] = [(combiLoop rh Z n j h c).1]
        ∧ (combiLoop rh Z n j h c).2 = c + n
  | 0, _, _, _ => ⟨rfl, rfl⟩
  | n + 1, j, h, c => by
    have hs : layerStep rh.Combi Z j [h] = [rh.Combi h (Z j)] := by
      simp [layerStep, pairUp]
    obtain ⟨h1, h2⟩ := combiLoop_eq rh Z n (j + 1) (rh.Combi h (Z j)) (c + 1)
    refine ⟨?_, ?_⟩
    · rw [layerSteps, hs, h1, combiLoop]
    · rw [combiLoop, h2]; omega

/-- What `NewRootWithDepth` returns for `depth ≤ limitDepth` and at most `2 ^ depth` leaves. -/
theorem NewRootWithDepth_eq (rh : RootHasher R) (hc : RootHashFnContract rh) (Z : Nat → R)
    (hZ : ZeroHashesContract rh.Combi Z) (leaves : List R) (d D : Nat) (hd : d ≤ D)
    (hl : leaves.length ≤ 2 ^ d) :
    (NewRootWithDepth rh Z leaves d D).err = none ∧
      (NewRootWithDepth rh Z leaves d D).root = paddedMerkleRoot rh.Combi (Z 0) D leaves := by
  have hD : leaves.length ≤ 2 ^ D := le_trans hl (Nat.pow_le_pow_right (by decide) hd)
  have hroot := completeTreeRoot_layerSteps rh.Combi Z hZ (Z 0) D 0 leaves hD
  rw [Nat.zero_add] at hroot
  unfold paddedMerkleRoot
  rw [hroot]
  unfold NewRootWithDepth
  by_cases h0 : leaves.length = 0
  · rw [if_pos h0]
    have : leaves = [] := List.length_eq_zero.1 h0
    subst this
    simp [layerSteps_nil]
  · rw [if_neg h0, hashLayers_eq rh hc Z]
    have h1 := layerSteps_length_one rh.Combi Z d 0 leaves (by omega) hl
    obtain ⟨h, hh⟩ := List.length_eq_one.1 h1
    have hsplit : layerSteps rh.Combi Z D 0 leaves
        = layerSteps rh.Combi Z (D - d) d [h] := by
      have e : D = d + (D - d) := by omega
      conv_lhs => rw [e, layerSteps_add, hh, Nat.zero_add]
    rw [hh, hsplit, (combiLoop_eq rh Z (D - d) d h (0 + d)).1]
    simp

/-- The layer hash `pairwiseRootHashFn` meets the contract of `rootHashFn`. -/
theorem pairwiseRootHashFn_contract (C : R → R → R) :
    RootHashFnContract ⟨C, pairwiseRootHashFn C⟩ := by
  intro out inp he hl
  refine ⟨pairUp C inp ++ out.drop (inp.length / 2), ?_, ?_, ?_⟩
  · simp only [pairwiseRootHashFn]
    rw [if_pos ⟨he, hl⟩]
  · rw [List.length_append, pairUp_length, List.length_drop]
    omega
  · intro i hi
    rw [List.getElem?_append_left (by rw [pairUp_length]; exact hi)]
    exact pairUp_getElem? C inp i hi

theorem toyZeroHashes_contract : ZeroHashesContract toyHasher.Combi toyZeroHashes :=
  fun _ => rfl

/-! ## Properties of `NewRootWithMaxLeaves` -/

/-- C1: for `1 ≤ limit ≤ 2 ^ 63` and at most `limit` leaves, with a `rootHashFn` that writes
`out[i] = Combi(in[2i], in[2i+1])` and a zero-hash table with
`Hashes[k+1] = Combi(Hashes[k], Hashes[k])`, `NewRootWithMaxLeaves` returns a nil error and the
root of the complete binary Merkle tree with `2 ^ ⌈log2 limit⌉` leaves whose first leaves are
`leaves` and whose remaining leaves are the zero chunk `Hashes[0]`. -/
theorem NewRootWithMaxLeaves_padded_root (rh : RootHasher R) (Z : Nat → R) (leaves : List R)
    (limit : Nat) (hc : RootHashFnContract rh) (hZ : ZeroHashesContract rh.Combi Z)
    (h1 : 1 ≤ limit) (h2 : limit ≤ 2 ^ 63) (h3 : leaves.length ≤ limit) :
    (NewRootWithMaxLeaves rh Z leaves limit).err = none ∧
      (NewRootWithMaxLeaves rh Z leaves limit).root
        = paddedMerkleRoot rh.Combi (Z 0) (Nat.clog 2 limit) leaves := by
  unfold NewRootWithMaxLeaves
  rw [if_neg (by omega), if_neg (by omega)]
  split
  · next h =>
    obtain ⟨hlim, hlen⟩ := h
    obtain ⟨x, hx⟩ := List.length_eq_one.1 hlen
    subst hx
    subst hlim
    refine ⟨rfl, ?_⟩
    simp [paddedMerkleRoot, paddedLeaves, completeTreeRoot]
  · rw [depth_eq_clog (le_trans h3 h2), depth_eq_clog h2]
    exact NewRootWithDepth_eq rh hc Z hZ leaves _ _ (Nat.clog_mono_right 2 h3)
      (Nat.le_pow_clog (by decide) _)

/-- C1 at three leaves under limit 8, with the toy hasher. -/
theorem NewRootWithMaxLeaves_padded_root_witness :
    (NewRootWithMaxLeaves toyHasher toyZeroHashes
        [constBytes32 1, constBytes32 2, constBytes32 3] 8).err = none ∧
      (NewRootWithMaxLeaves toyHasher toyZeroHashes
        [constBytes32 1, constBytes32 2, constBytes32 3] 8).root
        = paddedMerkleRoot toyHasher.Combi (toyZeroHashes 0) (Nat.clog 2 8)
            [constBytes32 1, constBytes32 2, constBytes32 3] :=
  NewRootWithMaxLeaves_padded_root toyHasher toyZeroHashes
    [constBytes32 1, constBytes32 2, constBytes32 3] 8
    (pairwiseRootHashFn_contract toyCombi) toyZeroHashes_contract
    (by decide) (by norm_num) (by decide)

/-- C2: with more leaves than `limit`, `NewRootWithMaxLeaves` returns the error "number of
leaves exceeds limit" next to the placeholder value `Hashes[0]`; the value is no root of a
truncated leaf sequence, and neither `rootHashFn` nor `Combi` is invoked. -/
theorem NewRootWithMaxLeaves_exceeds_limit (rh : RootHasher R) (Z : Nat → R) (leaves : List R)
    (limit : Nat) (h : limit < leaves.length) :
    NewRootWithMaxLeaves rh Z leaves limit = ⟨Z 0, some .LeavesExceedLimit, 0⟩ := by
  unfold NewRootWithMaxLeaves
  rw [if_pos h]

/-- C2 at three leaves under limit 2. -/
theorem NewRootWithMaxLeaves_exceeds_limit_witness :
    2 < [constBytes32 1, constBytes32 2, constBytes32 3].length ∧
      NewRootWithMaxLeaves toyHasher toyZeroHashes
          [constBytes32 1, constBytes32 2, constBytes32 3] 2
        = ⟨toyZeroHashes 0, some .LeavesExceedLimit, 0⟩ :=
  ⟨by decide, NewRootWithMaxLeaves_exceeds_limit toyHasher toyZeroHashes
    [constBytes32 1, constBytes32 2, constBytes32 3] 2 (by decide)⟩

/-- C8, as stated, fails: with `limit = 0` and one leaf the error is not nil. -/
theorem NewRootWithMaxLeaves_limit_zero_counterexample :
    (NewRootWithMaxLeaves toyHasher toyZeroHashes [constBytes32 1] 0).err
      = some .LeavesExceedLimit := by
  rfl

/-- C8, amended: with `limit = 0` the value returned is `Hashes[0]` whatever the leaves are and
no hash function is invoked; the error is nil exactly when there are no leaves, and "number of
leaves exceeds limit" otherwise. -/
theorem NewRootWithMaxLeaves_limit_zero (rh : RootHasher R) (Z : Nat → R) (leaves : List R) :
    (NewRootWithMaxLeaves rh Z leaves 0).root = Z 0 ∧
      (NewRootWithMaxLeaves rh Z leaves 0).hashCalls = 0 ∧
      (NewRootWithMaxLeaves rh Z leaves 0).err
        = if leaves.length = 0 then none else some MerkleError.LeavesExceedLimit := by
  unfold NewRootWithMaxLeaves
  cases leaves with
  | nil => simp
  | cons x xs => simp

/-- C9: for `1 ≤ limit ≤ 2 ^ 63`, `NewRootWithMaxLeaves` on no leaves returns
`Hashes[⌈log2 limit⌉]` with a nil error and invokes no hash function. -/
theorem NewRootWithMaxLeaves_empty (rh : RootHasher R) (Z : Nat → R) (limit : Nat)
    (h1 : 1 ≤ limit) (h2 : limit ≤ 2 ^ 63) :
    NewRootWithMaxLeaves rh Z [] limit = ⟨Z (Nat.clog 2 limit), none, 0⟩ := by
  unfold NewRootWithMaxLeaves
  rw [if_neg (by simp), if_neg (by omega), dif_neg (by simp), depth_eq_clog h2]
  simp [NewRootWithDepth]

/-- C9 at limit 5: the result is `Hashes[3]`. -/
theorem NewRootWithMaxLeaves_empty_witness :
    1 ≤ 5 ∧ 5 ≤ 2 ^ 63 ∧
      NewRootWithMaxLeaves toyHasher toyZeroHashes [] 5 = ⟨toyZeroHashes 3, none, 0⟩ :=
  ⟨by decide, by norm_num, by
    have h := NewRootWithMaxLeaves_empty toyHasher toyZeroHashes 5 (by decide) (by norm_num)
    have e : Nat.clog 2 5 = 3 := by
      apply le_antisymm
      · exact clog_le_of_le_two_pow (by norm_num)
      · exact (Nat.pow_lt_iff_lt_clog (by decide)).1 (by norm_num)
    rw [e] at h
    exact h⟩

/-- C10: `NewRootWithMaxLeaves([x], 1)` returns `x` itself with a nil error and invokes neither
`rootHashFn` nor `Combi`. -/
theorem NewRootWithMaxLeaves_single (rh : RootHasher R) (Z : Nat → R) (x : R) :
    NewRootWithMaxLeaves rh Z [x] 1 = ⟨x, none, 0⟩ := by
  unfold NewRootWithMaxLeaves
  simp

end Merkle

/-! ## Randao processing -/

/-- C3: whenever `processRandaoReveal` succeeds, the mix stored afterwards at index
`epoch mod EpochsPerHistoricalVector` is the byte-wise XOR of the mix stored there before with
the SHA-256 hash of the reveal of the block, and the mix at every other index is unchanged. -/
theorem processRandaoReveal_mix (sp : StateProcessor) (verifyRandao : Bool) (st : BeaconState)
    (blk : BeaconBlock) (h : (sp.processRandaoReveal verifyRandao st blk).2 = none) :
    ∃ prevMix newMix : Bytes32,
      GetRandaoMixAtIndex st (GetEpoch sp.cs st % sp.cs.EpochsPerHistoricalVector) = .ok prevMix ∧
      GetRandaoMixAtIndex (sp.processRandaoReveal verifyRandao st blk).1
        (GetEpoch sp.cs st % sp.cs.EpochsPerHistoricalVector) = .ok newMix ∧
      newMix.val
        = List.zipWith Nat.xor prevMix.val (sp.sha256Hash blk.Body.RandaoReveal.val).val ∧
      ∀ j, j ≠ GetEpoch sp.cs st % sp.cs.EpochsPerHistoricalVector →
        GetRandaoMixAtIndex (sp.processRandaoReveal verifyRandao st blk).1 j
          = GetRandaoMixAtIndex st j := by
  unfold StateProcessor.processRandaoReveal at h ⊢
  cases hp : ValidatorByIndex st blk.GetProposerIndex with
  | error e => simp [hp] at h
  | ok proposer =>
    simp only [hp] at h ⊢
    split at h
    · cases h
    · next hv =>
      by_cases hN : sp.cs.EpochsPerHistoricalVector = 0
      · simp [hN] at h
      · simp only [hN, if_false] at h ⊢
        cases hg : GetRandaoMixAtIndex st (GetEpoch sp.cs st % sp.cs.EpochsPerHistoricalVector) with
        | error e => simp [hg] at h
        | ok prevMix =>
          simp only [hg] at h ⊢
          by_cases hi : GetEpoch sp.cs st % sp.cs.EpochsPerHistoricalVector < st.RandaoMixes.length
          · refine ⟨prevMix, sp.buildRandaoMix prevMix blk.GetBody.RandaoReveal, rfl, ?_, rfl, ?_⟩
            · simp [UpdateRandaoMixAtIndex, hi, GetRandaoMixAtIndex]
            · intro j hj
              simp [UpdateRandaoMixAtIndex, hi, GetRandaoMixAtIndex, List.getElem?_set_ne (Ne.symm hj)]
          · simp [UpdateRandaoMixAtIndex, hi] at h

/-- C3 on the example state: the reveal filled with `3` turns the mix `5...` at index 2 into
`6...`. -/
theorem processRandaoReveal_mix_witness :
    (exampleProcessor.processRandaoReveal true exampleState (exampleBlock 3)).2 = none ∧
    ∃ prevMix newMix : Bytes32,
      GetRandaoMixAtIndex exampleState
        (GetEpoch exampleProcessor.cs exampleState
          % exampleProcessor.cs.EpochsPerHistoricalVector) = .ok prevMix ∧
      GetRandaoMixAtIndex (exampleProcessor.processRandaoReveal true exampleState (exampleBlock 3)).1
        (GetEpoch exampleProcessor.cs exampleState
          % exampleProcessor.cs.EpochsPerHistoricalVector) = .ok newMix ∧
      newMix.val = List.zipWith Nat.xor prevMix.val
        (exampleProcessor.sha256Hash (exampleBlock 3).Body.RandaoReveal.val).val ∧
      ∀ j, j ≠ GetEpoch exampleProcessor.cs exampleState
            % exampleProcessor.cs.EpochsPerHistoricalVector →
        GetRandaoMixAtIndex
            (exampleProcessor.processRandaoReveal true exampleState (exampleBlock 3)).1 j
          = GetRandaoMixAtIndex exampleState j :=
  ⟨by decide, processRandaoReveal_mix exampleProcessor true exampleState (exampleBlock 3)
    (by decide)⟩

/-- C4: with randao verification enabled, when the signature verifier returns an error for the
pubkey of the proposer, the randao signing root and the reveal of the block,
`processRandaoReveal` returns that error wrapped and leaves the state, hence every randao mix,
as it was. -/
theorem processRandaoReveal_invalid_signature (sp : StateProcessor) (st : BeaconState)
    (blk : BeaconBlock) (proposer : Validator) (err : Error)
    (hp : ValidatorByIndex st blk.GetProposerIndex = .ok proposer)
    (hv : sp.VerifySignature proposer.Pubkey
      (sp.ComputeRandaoSigningRoot (sp.cs.ActiveForkVersionForTimestamp blk.GetTimestamp)
        st.GenesisValidatorsRoot sp.cs.DomainTypeRandao (GetEpoch sp.cs st)).val
      blk.GetBody.RandaoReveal = some err) :
    (sp.processRandaoReveal true st blk).2
        = some (.Wrapf "state processor failed randao checks: %w" none err) ∧
      (sp.processRandaoReveal true st blk).1 = st := by
  unfold StateProcessor.processRandaoReveal
  simp [hp, hv]

/-- C4 on the example state: the reveal filled with `9` is rejected and nothing is written. -/
theorem processRandaoReveal_invalid_signature_witness :
    ValidatorByIndex exampleState (exampleBlock 9).GetProposerIndex
        = .ok (exampleValidator 2 64) ∧
      (exampleProcessor.processRandaoReveal true exampleState (exampleBlock 9)).2
        = some (.Wrapf "state processor failed randao checks: %w" none (.SignatureInvalid 1)) ∧
      (exampleProcessor.processRandaoReveal true exampleState (exampleBlock 9)).1
        = exampleState :=
  ⟨rfl, processRandaoReveal_invalid_signature exampleProcessor exampleState
    (exampleBlock 9) (exampleValidator 2 64) (.SignatureInvalid 1) rfl rfl⟩

/-! ## The map of previous balances -/

theorem Bytes48.val_injective : Function.Injective Bytes48.val := by
  intro a b h
  cases a; cases b; cases h; rfl

theorem decide_true_of {p : Prop} (inst : Decidable p) (h : p) : @decide p inst = true := by
  cases inst with
  | isTrue _ => rfl
  | isFalse hn => exact absurd h hn

theorem decide_false_of {p : Prop} (inst : Decidable p) (h : ¬ p) : @decide p inst = false := by
  cases inst with
  | isTrue hp => exact absurd hp h
  | isFalse _ => rfl

theorem GweiMap.get_eq_none_iff (m : GweiMap) (k : List Nat) :
    m.get k = none ↔ ∀ e ∈ m, e.1 ≠ k := by
  simp [GweiMap.get, List.find?_eq_none]

theorem GweiMap.delete_of_get_none (m : GweiMap) (k : List Nat) (h : m.get k = none) :
    m.delete k = m := by
  rw [GweiMap.get_eq_none_iff] at h
  unfold GweiMap.delete
  rw [List.filter_eq_self]
  intro e he
  simpa using h e he

theorem GweiMap.get_delete_ne (m : GweiMap) (k k' : List Nat) (h : k' ≠ k) :
    (m.delete k).get k' = m.get k' := by
  unfold GweiMap.get GweiMap.delete
  rw [List.find?_filter]
  congr 2
  funext a
  by_cases h2 : a.1 = k'
  · have h1 : a.1 ≠ k := fun h' => h (h2.symm.trans h')
    simp [h1]
  · simp [h2]

/-- In a map with distinct keys, `get` finds exactly the entries of the map. -/
theorem GweiMap.get_eq_some_iff (m : GweiMap) (hm : (m.map (fun e => e.1)).Nodup)
    (k : List Nat) (b : Nat) : m.get k = some b ↔ (k, b) ∈ m := by
  unfold GweiMap.get
  induction m with
  | nil => simp
  | cons e m ih =>
    rw [List.map_cons, List.nodup_cons] at hm
    by_cases h1 : e.1 = k
    · have hk : ∀ b', (k, b') ∉ m := by
        intro b' hb'
        apply hm.1
        rw [h1]
        exact List.mem_map.2 ⟨(k, b'), hb', rfl⟩
      simp only [List.find?_cons, h1, decide_True, Option.map_some', Option.some.injEq,
        List.mem_cons, hk, or_false]
      constructor
      · intro h; rw [← h, ← h1]
      · intro h; rw [← h]
    · have hne : (k, b) ≠ e := fun h => h1 (by rw [← h])
      simp only [List.find?_cons, h1, decide_False, List.mem_cons, hne, false_or]
      exact ih hm.2

/-- With distinct pubkeys, filling the map from the previous validators stores one entry per
validator. -/
theorem foldl_set_eq (prev : List Validator) :
    ∀ (m : GweiMap), (prev.map (fun v => v.Pubkey.val)).Nodup →
      (∀ v ∈ prev, m.get v.Pubkey.val = none) →
      prev.foldl (fun m v => m.set v.Pubkey.val v.EffectiveBalance) m
        = m ++ prev.map (fun v => (v.Pubkey.val, v.EffectiveBalance)) := by
  induction prev with
  | nil => intro m _ _; simp
  | cons v rest ih =>
    intro m hn hm
    rw [List.map_cons, List.nodup_cons] at hn
    have h0 : m.set v.Pubkey.val v.EffectiveBalance = m ++ [(v.Pubkey.val, v.EffectiveBalance)] := by
      unfold GweiMap.set
      rw [GweiMap.delete_of_get_none m _ (hm v (List.mem_cons_self _ _))]
    rw [List.foldl_cons, h0, ih _ hn.2]
    · simp
    · intro w hw
      rw [GweiMap.get_eq_none_iff]
      intro e he
      rcases List.mem_append.1 he with he | he
      · exact (GweiMap.get_eq_none_iff m _).1 (hm w (List.mem_cons_of_mem _ hw)) e he
      · have : e = (v.Pubkey.val, v.EffectiveBalance) := by simpa using he
        rw [this]
        intro hvw
        apply hn.1
        simp only at hvw
        rw [hvw]
        exact List.mem_map.2 ⟨w, hw, rfl⟩

/-- With distinct pubkeys, the loop over the current validators appends the new and the changed
ones to `res` and leaves in the map the entries of the pubkeys it has not met. -/
theorem foldl_diffStep_eq (cur : List ValidatorUpdate) :
    ∀ (res : List ValidatorUpdate) (m : GweiMap),
      (cur.map (fun u => u.Pubkey.val)).Nodup →
      cur.foldl diffStep (res, m)
        = (res ++ cur.filter (fun u => decide (m.get u.Pubkey.val ≠ some u.EffectiveBalance)),
            m.filter (fun e => decide (e.1 ∉ cur.map (fun u => u.Pubkey.val)))) := by
  induction cur with
  | nil => intro res m _; simp
  | cons u rest ih =>
    intro res m hn
    rw [List.map_cons, List.nodup_cons] at hn
    rw [List.foldl_cons]
    cases hg : m.get u.Pubkey.val with
    | none =>
      have hstep : diffStep (res, m) u = (res ++ [u], m) := by simp [diffStep, hg]
      rw [hstep, ih _ _ hn.2]
      have hk := (GweiMap.get_eq_none_iff m _).1 hg
      congr 1
      · simp [List.filter_cons, hg]
      · apply List.filter_congr
        intro e he
        have := hk e he
        simp [this]
    | some old =>
      have hrest : ∀ w ∈ rest, (m.delete u.Pubkey.val).get w.Pubkey.val = m.get w.Pubkey.val := by
        intro w hw
        apply GweiMap.get_delete_ne
        intro hwu
        apply hn.1
        rw [← hwu]
        exact List.mem_map.2 ⟨w, hw, rfl⟩
      have hf : rest.filter (fun w => decide ((m.delete u.Pubkey.val).get w.Pubkey.val
            ≠ some w.EffectiveBalance))
          = rest.filter (fun w => decide (m.get w.Pubkey.val ≠ some w.EffectiveBalance)) := by
        apply List.filter_congr
        intro w hw
        rw [hrest w hw]
      have hm : (m.delete u.Pubkey.val).filter
            (fun e => decide (e.1 ∉ rest.map (fun u => u.Pubkey.val)))
          = m.filter (fun e => decide (e.1 ∉ (u :: rest).map (fun u => u.Pubkey.val))) := by
        unfold GweiMap.delete
        rw [List.filter_filter]
        apply List.filter_congr
        intro e _
        simp only [List.map_cons, List.mem_cons, not_or, Bool.decide_and, ne_eq]
        rw [Bool.and_comm]
      by_cases hb : old = u.EffectiveBalance
      · have hstep : diffStep (res, m) u = (res, m.delete u.Pubkey.val) := by
          simp [diffStep, hg, hb]
        rw [hstep, ih _ _ hn.2, hf, hm]
        congr 1
        simp [List.filter_cons, hg, hb]
      · have hstep : diffStep (res, m) u = (res ++ [u], m.delete u.Pubkey.val) := by
          simp [diffStep, hg, hb]
        rw [hstep, ih _ _ hn.2, hf, hm]
        congr 1
        simp [List.filter_cons, hg, hb]

theorem ToBytes48_val (pk : BLSPubkey) : (ToBytes48 pk.val).1 = pk := by
  unfold ToBytes48
  rw [dif_pos pk.property]

/-- The closed form of `validatorSetsDiffs` for validator lists with distinct pubkeys. -/
theorem validatorSetsDiffs_eq (prev curr : List Validator)
    (hp : (prev.map (fun v => v.Pubkey)).Nodup) (hc : (curr.map (fun v => v.Pubkey)).Nodup) :
    validatorSetsDiffs prev curr
      = ((curr.filter (fun v => decide (∀ w ∈ prev, w.Pubkey = v.Pubkey →
              w.EffectiveBalance ≠ v.EffectiveBalance))).map
            (fun v => (⟨v.Pubkey, v.EffectiveBalance⟩ : ValidatorUpdate)))
        ++ ((prev.filter (fun w => decide (∀ v ∈ curr, v.Pubkey ≠ w.Pubkey))).map
            (fun w => (⟨w.Pubkey, 0⟩ : ValidatorUpdate))) := by
  have hp' : (prev.map (fun v => v.Pubkey.val)).Nodup := by
    have := hp.map (f := Bytes48.val) Bytes48.val_injective
    simpa [List.map_map] using this
  have hc' : ((curr.map (fun v => (⟨v.Pubkey, v.EffectiveBalance⟩ : ValidatorUpdate))).map
      (fun u => u.Pubkey.val)).Nodup := by
    have := hc.map (f := Bytes48.val) Bytes48.val_injective
    simpa [List.map_map] using this
  have hkeys : ((prev.map (fun v => (v.Pubkey.val, v.EffectiveBalance))).map (fun e => e.1)).Nodup := by
    simpa [List.map_map] using hp'
  have hget : ∀ (k : List Nat) (b : Nat),
      GweiMap.get (prev.map (fun v => (v.Pubkey.val, v.EffectiveBalance))) k = some b
        ↔ ∃ w ∈ prev, w.Pubkey.val = k ∧ w.EffectiveBalance = b := by
    intro k b
    rw [GweiMap.get_eq_some_iff _ hkeys]
    simp [List.mem_map]
  unfold validatorSetsDiffs
  simp only
  rw [foldl_set_eq prev [] hp' (fun _ _ => rfl), List.nil_append, foldl_diffStep_eq _ _ _ hc',
    List.nil_append]
  dsimp only
  congr 1
  · rw [List.filter_map]
    congr 1
    apply List.filter_congr
    intro v hv
    simp only [Function.comp]
    by_cases hx : ∀ w ∈ prev, w.Pubkey = v.Pubkey → w.EffectiveBalance ≠ v.EffectiveBalance
    · have : GweiMap.get (prev.map (fun v => (v.Pubkey.val, v.EffectiveBalance))) v.Pubkey.val
          ≠ some v.EffectiveBalance := by
        intro hsome
        obtain ⟨w, hw, hk, hb⟩ := (hget _ _).1 hsome
        exact hx w hw (Bytes48.val_injective hk) hb
      rw [decide_eq_true this]
      symm
      exact decide_true_of _ hx
    · have : GweiMap.get (prev.map (fun v => (v.Pubkey.val, v.EffectiveBalance))) v.Pubkey.val
          = some v.EffectiveBalance := by
        push_neg at hx
        obtain ⟨w, hw, hk, hb⟩ := hx
        exact (hget _ _).2 ⟨w, hw, by rw [hk], hb⟩
      rw [decide_eq_false (not_not.2 this)]
      symm
      exact decide_false_of _ hx
  · rw [List.filter_map, List.map_map]
    have hfun : ((fun e : List Nat × Nat => (⟨(ToBytes48 e.1).1, 0⟩ : ValidatorUpdate))
        ∘ fun v : Validator => (v.Pubkey.val, v.EffectiveBalance))
        = fun w => (⟨w.Pubkey, 0⟩ : ValidatorUpdate) := by
      funext w
      simp [Function.comp, ToBytes48_val]
    rw [hfun]
    congr 1
    apply List.filter_congr
    intro w hw
    simp only [Function.comp, List.map_map, List.mem_map, not_exists, not_and]
    apply decide_eq_decide.2
    constructor
    · intro h v hv hvw
      exact h v hv (by rw [hvw])
    · intro h v hv hvw
      exact h v hv (Bytes48.val_injective hvw)

theorem eq_of_pubkey_eq {vals : List Validator} (h : (vals.map (fun v => v.Pubkey)).Nodup)
    {v w : Validator} (hv : v ∈ vals) (hw : w ∈ vals) (hvw : v.Pubkey = w.Pubkey) : v = w :=
  List.inj_on_of_nodup_map h hv hw hvw

/-- C7: for validator lists with pairwise-distinct pubkeys, `(pk, b)` is an entry of
`validatorSetsDiffs(prev, curr)` exactly when either `curr` holds a validator with pubkey `pk`
and effective balance `b` while `prev` holds none with pubkey `pk` or one with another effective
balance, or `b = 0` and `pk` is the pubkey of a validator of `prev` that `curr` lacks; a
validator present in both lists with the same effective balance produces no entry. -/
theorem validatorSetsDiffs_entries (prev curr : List Validator)
    (hp : (prev.map (fun v => v.Pubkey)).Nodup) (hc : (curr.map (fun v => v.Pubkey)).Nodup)
    (pk : BLSPubkey) (b : Nat) :
    ((⟨pk, b⟩ : ValidatorUpdate) ∈ validatorSetsDiffs prev curr ↔
      ((∃ v ∈ curr, v.Pubkey = pk ∧ v.EffectiveBalance = b) ∧
          ((∀ w ∈ prev, w.Pubkey ≠ pk) ∨ ∃ w ∈ prev, w.Pubkey = pk ∧ w.EffectiveBalance ≠ b))
        ∨ (b = 0 ∧ (∃ w ∈ prev, w.Pubkey = pk) ∧ ∀ v ∈ curr, v.Pubkey ≠ pk))
    ∧ ((∃ v ∈ curr, v.Pubkey = pk ∧ v.EffectiveBalance = b) →
        (∃ w ∈ prev, w.Pubkey = pk ∧ w.EffectiveBalance = b) →
        ∀ u ∈ validatorSetsDiffs prev curr, u.Pubkey ≠ pk) := by
  rw [validatorSetsDiffs_eq prev curr hp hc]
  constructor
  · rw [List.mem_append, List.mem_map, List.mem_map]
    constructor
    · rintro (⟨v, hv, he⟩ | ⟨w, hw, he⟩)
      · rw [List.mem_filter, decide_eq_true_iff] at hv
        obtain ⟨hvc, hvp⟩ := hv
        have h1 : v.Pubkey = pk := congrArg ValidatorUpdate.Pubkey he
        have h2 : v.EffectiveBalance = b := congrArg ValidatorUpdate.EffectiveBalance he
        left
        refine ⟨⟨v, hvc, h1, h2⟩, ?_⟩
        by_cases hex : ∃ w ∈ prev, w.Pubkey = pk
        · obtain ⟨w, hw, hwpk⟩ := hex
          right
          exact ⟨w, hw, hwpk, by rw [← h2]; exact hvp w hw (hwpk.trans h1.symm)⟩
        · left
          intro w hw hwpk
          exact hex ⟨w, hw, hwpk⟩
      · rw [List.mem_filter, decide_eq_true_iff] at hw
        obtain ⟨hwp, hwc⟩ := hw
        have h1 : w.Pubkey = pk := congrArg ValidatorUpdate.Pubkey he
        have h2 : 0 = b := congrArg ValidatorUpdate.EffectiveBalance he
        right
        exact ⟨h2.symm, ⟨w, hwp, h1⟩, fun v hv hvpk => hwc v hv (hvpk.trans h1.symm)⟩
    · rintro (⟨⟨v, hvc, h1, h2⟩, hprev⟩ | ⟨hb, ⟨w, hwp, h1⟩, hcur⟩)
      · left
        refine ⟨v, ?_, by rw [h1, h2]⟩
        rw [List.mem_filter, decide_eq_true_iff]
        refine ⟨hvc, ?_⟩
        intro w hw hwv
        rcases hprev with hno | ⟨w0, hw0, hw0pk, hw0b⟩
        · exact absurd (hwv.trans h1) (hno w hw)
        · have : w = w0 := eq_of_pubkey_eq hp hw hw0 (hwv.trans (h1.trans hw0pk.symm))
          rw [this, h2]
          exact hw0b
      · right
        refine ⟨w, ?_, by rw [h1, hb]⟩
        rw [List.mem_filter, decide_eq_true_iff]
        exact ⟨hwp, fun v hv hvw => hcur v hv (hvw.trans h1)⟩
  · rintro ⟨v, hvc, h1, h2⟩ ⟨w, hwp, h3, h4⟩ u hu
    rw [List.mem_append, List.mem_map, List.mem_map] at hu
    rcases hu with ⟨v', hv', he⟩ | ⟨w', hw', he⟩
    · rw [List.mem_filter, decide_eq_true_iff] at hv'
      obtain ⟨hv'c, hv'p⟩ := hv'
      intro hupk
      have h5 : v'.Pubkey = pk := by rw [← hupk, ← he]
      have : v' = v := eq_of_pubkey_eq hc hv'c hvc (h5.trans h1.symm)
      subst this
      exact hv'p w hwp (h3.trans h1.symm) (h4.trans h2.symm)
    · rw [List.mem_filter, decide_eq_true_iff] at hw'
      obtain ⟨_, hw'c⟩ := hw'
      intro hupk
      have h5 : w'.Pubkey = pk := by rw [← hupk, ← he]
      exact hw'c v hvc (h1.trans h5.symm)

/-- C7 on three previous and three current validators: the validator with pubkey byte `3`,
whose balance changes from `16` to `20`, is reported with balance `20`. -/
theorem validatorSetsDiffs_entries_witness :
    (([exampleValidator 1 32, exampleValidator 2 64, exampleValidator 3 16].map
        (fun v => v.Pubkey)).Nodup) ∧
    (([exampleValidator 2 64, exampleValidator 3 20, exampleValidator 4 7].map
        (fun v => v.Pubkey)).Nodup) ∧
    (((⟨constBytes48 3, 20⟩ : ValidatorUpdate) ∈ validatorSetsDiffs
        [exampleValidator 1 32, exampleValidator 2 64, exampleValidator 3 16]
        [exampleValidator 2 64, exampleValidator 3 20, exampleValidator 4 7] ↔
      ((∃ v ∈ [exampleValidator 2 64, exampleValidator 3 20, exampleValidator 4 7],
          v.Pubkey = constBytes48 3 ∧ v.EffectiveBalance = 20) ∧
          ((∀ w ∈ [exampleValidator 1 32, exampleValidator 2 64, exampleValidator 3 16],
              w.Pubkey ≠ constBytes48 3) ∨
            ∃ w ∈ [exampleValidator 1 32, exampleValidator 2 64, exampleValidator 3 16],
              w.Pubkey = constBytes48 3 ∧ w.EffectiveBalance ≠ 20))
        ∨ (20 = 0 ∧ (∃ w ∈ [exampleValidator 1 32, exampleValidator 2 64, exampleValidator 3 16],
              w.Pubkey = constBytes48 3) ∧
            ∀ v ∈ [exampleValidator 2 64, exampleValidator 3 20, exampleValidator 4 7],
              v.Pubkey ≠ constBytes48 3))
    ∧ ((∃ v ∈ [exampleValidator 2 64, exampleValidator 3 20, exampleValidator 4 7],
          v.Pubkey = constBytes48 3 ∧ v.EffectiveBalance = 20) →
        (∃ w ∈ [exampleValidator 1 32, exampleValidator 2 64, exampleValidator 3 16],
          w.Pubkey = constBytes48 3 ∧ w.EffectiveBalance = 20) →
        ∀ u ∈ validatorSetsDiffs
            [exampleValidator 1 32, exampleValidator 2 64, exampleValidator 3 16]
            [exampleValidator 2 64, exampleValidator 3 20, exampleValidator 4 7],
          u.Pubkey ≠ constBytes48 3)) :=
  ⟨by decide, by decide, validatorSetsDiffs_entries
    [exampleValidator 1 32, exampleValidator 2 64, exampleValidator 3 16]
    [exampleValidator 2 64, exampleValidator 3 20, exampleValidator 4 7]
    (by decide) (by decide) (constBytes48 3) 20⟩

/-! ## The order used by the validator-set cap -/

theorem bytesCompare_lt_zero_iff : ∀ (a b : List Nat), bytesCompare a b < 0 ↔ a < b
  | [], [] => by simp [bytesCompare]
  | [], b :: bs => by simp [bytesCompare, List.nil_lt_cons]
  | a :: as, [] => by
    simp only [bytesCompare]
    constructor
    · intro h; omega
    · intro h; exact absurd h (List.Lex.not_nil_right _ _)
  | a :: as, b :: bs => by
    simp only [bytesCompare]
    by_cases h1 : a < b
    · rw [if_pos h1]
      constructor
      · intro _; exact List.Lex.rel h1
      · intro _; omega
    · rw [if_neg h1]
      by_cases h2 : b < a
      · rw [if_pos h2]
        constructor
        · intro h; omega
        · intro h
          cases h with
          | cons _ => omega
          | rel h' => omega
      · rw [if_neg h2]
        have hab : a = b := by omega
        subst hab
        rw [bytesCompare_lt_zero_iff as bs]
        exact (List.Lex.cons_iff (r := (· < ·))).symm

theorem bytesCompare_eq_zero_iff : ∀ (a b : List Nat), bytesCompare a b = 0 ↔ a = b
  | [], [] => by simp [bytesCompare]
  | [], b :: bs => by simp [bytesCompare]
  | a :: as, [] => by simp [bytesCompare]
  | a :: as, b :: bs => by
    simp only [bytesCompare]
    by_cases h1 : a < b
    · rw [if_pos h1]
      constructor
      · intro h; omega
      · intro h; injection h with h _; omega
    · rw [if_neg h1]
      by_cases h2 : b < a
      · rw [if_pos h2]
        constructor
        · intro h; omega
        · intro h; injection h with h _; omega
      · rw [if_neg h2]
        have hab : a = b := by omega
        subst hab
        rw [bytesCompare_eq_zero_iff as bs]
        constructor
        · intro h; rw [h]
        · intro h; injection h

theorem bytesCompare_ge_neg_one : ∀ (a b : List Nat), -1 ≤ bytesCompare a b
  | [], [] => by simp [bytesCompare]
  | [], b :: bs => by simp [bytesCompare]
  | a :: as, [] => by simp [bytesCompare]
  | a :: as, b :: bs => by
    simp only [bytesCompare]
    split
    · omega
    · split
      · omega
      · exact bytesCompare_ge_neg_one as bs

theorem bytesCompare_le_zero_iff (a b : List Nat) : bytesCompare a b ≤ 0 ↔ a ≤ b := by
  rw [le_iff_lt_or_eq, le_iff_lt_or_eq, bytesCompare_lt_zero_iff, bytesCompare_eq_zero_iff]

/-- The comparison function sorts by the lexicographic key of balance and pubkey. -/
theorem validatorCmp_le_zero_iff (v w : Validator) :
    validatorCmp v w ≤ 0 ↔ rankKey v ≤ rankKey w := by
  unfold validatorCmp rankKey
  rw [Prod.Lex.le_iff]
  simp only
  by_cases h1 : v.EffectiveBalance < w.EffectiveBalance
  · simp [h1]
  · by_cases h2 : v.EffectiveBalance > w.EffectiveBalance
    · have h3 : v.EffectiveBalance ≠ w.EffectiveBalance := by omega
      simp [h1, h2, h3]
    · have h3 : v.EffectiveBalance = w.EffectiveBalance := by omega
      simp only [h1, h2, if_false, h3, true_and, false_or, lt_self_iff_false]
      exact bytesCompare_le_zero_iff _ _

theorem rankLt_iff (v w : Validator) : rankLt v w ↔ rankKey v < rankKey w := by
  unfold rankLt rankKey
  rw [Prod.Lex.lt_iff]

theorem sortFunc_validatorCmp_perm (l : List Validator) : (sortFunc validatorCmp l).Perm l :=
  List.perm_insertionSort _ l

theorem sortFunc_validatorCmp_sorted (l : List Validator) :
    (sortFunc validatorCmp l).Sorted (fun a b => validatorCmp a b ≤ 0) := by
  haveI : IsTotal Validator (fun a b => validatorCmp a b ≤ 0) :=
    ⟨fun a b => by simp only [validatorCmp_le_zero_iff]; exact le_total _ _⟩
  haveI : IsTrans Validator (fun a b => validatorCmp a b ≤ 0) :=
    ⟨fun a b c => by simp only [validatorCmp_le_zero_iff]; exact le_trans⟩
  exact List.sorted_insertionSort _ l

/-- Validators with distinct pubkeys that are sorted by the comparison function are strictly
ascending in rank. -/
theorem sorted_rankLt_of_sorted_cmp (l : List Validator)
    (hs : l.Sorted (fun a b => validatorCmp a b ≤ 0)) (hn : (l.map (fun v => v.Pubkey)).Nodup) :
    l.Sorted rankLt := by
  have hn' : l.Pairwise (fun a b => a.Pubkey ≠ b.Pubkey) := by
    rw [List.Nodup, List.pairwise_map] at hn
    exact hn
  have := List.Pairwise.and hs hn'
  refine this.imp ?_
  intro a b h
  obtain ⟨h1, h2⟩ := h
  rw [rankLt_iff]
  rw [validatorCmp_le_zero_iff] at h1
  refine lt_of_le_of_ne h1 ?_
  intro he
  apply h2
  apply Bytes48.val_injective
  have := congrArg (fun k => (ofLex k).2) he
  simpa [rankKey] using this

/-! ## The validator-set cap -/

theorem ValidatorByIndex_of_getElem? (st : BeaconState) (i : Nat) (v : Validator)
    (h : st.Validators[i]? = some v) : ValidatorByIndex st i = .ok v := by
  unfold ValidatorByIndex
  rw [h]

/-- Initiating the exit of the validator stored at index `i` overwrites that validator with its
exit epoch set to the next epoch. -/
theorem InitiateValidatorExit_eq (sp : StateProcessor) (st : BeaconState) (i : Nat)
    (v : Validator) (h : st.Validators[i]? = some v) :
    sp.InitiateValidatorExit st i
      = ({ st with Validators :=
            st.Validators.set i (withExitEpoch ((GetEpoch sp.cs st + 1) % 2 ^ 64) v) }, none) := by
  have hi : i < st.Validators.length := by
    rcases Nat.lt_or_ge i st.Validators.length with h' | h'
    · exact h'
    · rw [List.getElem?_eq_none h'] at h; cases h
  unfold StateProcessor.InitiateValidatorExit
  rw [ValidatorByIndex_of_getElem? st i v h]
  simp only [UpdateValidatorAtIndex, if_pos hi]
  rfl

theorem eq_of_getElem?_pubkey_eq {st : BeaconState} (hwf : PubkeyIndexConsistent st)
    {i j : Nat} {v w : Validator} (hv : st.Validators[i]? = some v)
    (hw : st.Validators[j]? = some w) (h : v.Pubkey = w.Pubkey) : i = j := by
  have h1 := hwf i v hv
  have h2 := hwf j w hw
  rw [h, h2] at h1
  injection h1 with h1
  exact h1.symm

/-- A consistent pubkey index makes the pubkeys of the state pairwise distinct. -/
theorem pubkeys_nodup_of_consistent {st : BeaconState} (hwf : PubkeyIndexConsistent st) :
    (st.Validators.map (fun v => v.Pubkey)).Nodup := by
  rw [List.nodup_iff_getElem?_ne_getElem?]
  intro i j hij hj
  rw [List.length_map] at hj
  have hi : i < st.Validators.length := by omega
  rw [List.getElem?_map, List.getElem?_map, List.getElem?_eq_getElem hi,
    List.getElem?_eq_getElem hj]
  intro he
  have he' : st.Validators[i].Pubkey = st.Validators[j].Pubkey := by
    simpa using he
  have := eq_of_getElem?_pubkey_eq hwf (List.getElem?_eq_getElem hi)
    (List.getElem?_eq_getElem hj) he'
  omega

/-- The ejection loop, run on distinct validators of a state with a consistent pubkey index,
succeeds and sets the exit epoch of exactly these validators. -/
theorem ejectLoop_eq (sp : StateProcessor) :
    ∀ (E : List Validator) (li : Nat) (st : BeaconState),
      PubkeyIndexConsistent st → (∀ v ∈ E, v ∈ st.Validators) → E.Nodup →
      sp.ejectLoop E li st
        = ({ st with Validators := st.Validators.map (fun v =>
              if v ∈ E then withExitEpoch ((GetEpoch sp.cs st + 1) % 2 ^ 64) v else v) }, none)
  | [], li, st, _, _, _ => by
    simp [StateProcessor.ejectLoop]
  | v :: E, li, st, hwf, hmem, hnd => by
    rw [List.nodup_cons] at hnd
    obtain ⟨hvE, hE⟩ := hnd
    have hpk := pubkeys_nodup_of_consistent hwf
    obtain ⟨i, hi⟩ := List.mem_iff_getElem?.1 (hmem v (List.mem_cons_self _ _))
    have hilt : i < st.Validators.length := by
      rcases Nat.lt_or_ge i st.Validators.length with h' | h'
      · exact h'
      · rw [List.getElem?_eq_none h'] at hi; cases hi
    rw [StateProcessor.ejectLoop, hwf i v hi]
    simp only [InitiateValidatorExit_eq sp st i v hi]
    -- the state after the first ejection
    have hwf1 : PubkeyIndexConsistent ({ st with
        Validators := st.Validators.set i (withExitEpoch ((GetEpoch sp.cs st + 1) % 2 ^ 64) v) }) := by
      intro j w hw
      simp only at hw
      by_cases hji : i = j
      · subst hji
        rw [List.getElem?_set_self hilt] at hw
        injection hw with hw
        subst hw
        exact hwf i v hi
      · rw [List.getElem?_set_ne hji] at hw
        exact hwf j w hw
    have hmem1 : ∀ w ∈ E, w ∈ ({ st with
        Validators := st.Validators.set i (withExitEpoch ((GetEpoch sp.cs st + 1) % 2 ^ 64) v) }).Validators := by
      intro w hw
      obtain ⟨j, hj⟩ := List.mem_iff_getElem?.1 (hmem w (List.mem_cons_of_mem _ hw))
      have hji : i ≠ j := by
        intro hij
        subst hij
        rw [hi] at hj
        injection hj with hj
        subst hj
        exact hvE hw
      apply List.mem_iff_getElem?.2
      exact ⟨j, by simp only; rw [List.getElem?_set_ne hji]; exact hj⟩
    rw [ejectLoop_eq sp E (li + 1) _ hwf1 hmem1 hE]
    have hep : GetEpoch sp.cs ({ st with
        Validators := st.Validators.set i (withExitEpoch ((GetEpoch sp.cs st + 1) % 2 ^ 64) v) })
        = GetEpoch sp.cs st := rfl
    rw [hep]
    congr 2
    -- the two validator lists agree index by index
    apply List.ext_getElem?
    intro j
    simp only [List.getElem?_map]
    by_cases hji : i = j
    · subst hji
      rw [List.getElem?_set_self hilt, hi]
      simp only [Option.map_some', List.mem_cons, true_or, if_true]
      have hnot : withExitEpoch ((GetEpoch sp.cs st + 1) % 2 ^ 64) v ∉ E := by
        intro hin
        have hin' := hmem _ (List.mem_cons_of_mem _ hin)
        have : withExitEpoch ((GetEpoch sp.cs st + 1) % 2 ^ 64) v = v :=
          eq_of_pubkey_eq hpk hin' (hmem v (List.mem_cons_self _ _)) rfl
        rw [this] at hin
        exact hvE hin
      rw [if_neg hnot]
    · rw [List.getElem?_set_ne hji]
      cases hj : st.Validators[j]? with
      | none => rfl
      | some w =>
        have hwv : w ≠ v := by
          intro hwv
          subst hwv
          exact hji (eq_of_getElem?_pubkey_eq hwf hi hj rfl)
        simp only [Option.map_some', List.mem_cons, hwv, false_or]

theorem getActiveVals_sublist (st : BeaconState) (epoch : Nat) :
    (getActiveVals st epoch).Sublist st.Validators :=
  List.filter_sublist _

/-- What `processValidatorSetCap` does above the cap: it succeeds and sets the exit epoch of
the first `N - C` validators of the sorted list of validators active next epoch. -/
theorem processValidatorSetCap_eq (sp : StateProcessor) (st : BeaconState)
    (hwf : PubkeyIndexConsistent st)
    (hcap : sp.cs.ValidatorSetCap
      < (getActiveVals st ((GetEpoch sp.cs st + 1) % 2 ^ 64)).length) :
    sp.processValidatorSetCap st
      = ({ st with Validators := st.Validators.map (fun v =>
            if v ∈ (sortFunc validatorCmp
                (getActiveVals st ((GetEpoch sp.cs st + 1) % 2 ^ 64))).take
                  ((getActiveVals st ((GetEpoch sp.cs st + 1) % 2 ^ 64)).length
                    - sp.cs.ValidatorSetCap)
            then withExitEpoch ((GetEpoch sp.cs st + 1) % 2 ^ 64) v else v) }, none) := by
  have hpk := pubkeys_nodup_of_consistent hwf
  have hvn : st.Validators.Nodup := List.Nodup.of_map _ hpk
  have hperm := sortFunc_validatorCmp_perm (getActiveVals st ((GetEpoch sp.cs st + 1) % 2 ^ 64))
  have han : (getActiveVals st ((GetEpoch sp.cs st + 1) % 2 ^ 64)).Nodup :=
    hvn.sublist (getActiveVals_sublist st _)
  have hsn : (sortFunc validatorCmp
      (getActiveVals st ((GetEpoch sp.cs st + 1) % 2 ^ 64))).Nodup := hperm.nodup_iff.2 han
  unfold StateProcessor.processValidatorSetCap
  simp only
  rw [if_neg (by omega)]
  apply ejectLoop_eq sp _ 0 st hwf
  · intro v hv
    exact (getActiveVals_sublist st _).subset (hperm.subset (List.mem_of_mem_take hv))
  · exact hsn.sublist (List.take_sublist _ _)

/-- C5: in a state whose pubkeys are pairwise distinct and whose pubkey lookups resolve every
validator to its index, with `N` validators active at epoch `current + 1` and a cap `C < N`,
`processValidatorSetCap` succeeds and initiates the exit of exactly `N - C` validators: the
first `N - C` of the validators active at `current + 1` when these are sorted ascending by
effective balance with ties broken by the byte-lexicographic order of the pubkeys.  Every other
validator, and every other field of the state, is left as it was. -/
theorem processValidatorSetCap_ejects_lowest (sp : StateProcessor) (st : BeaconState)
    (hdistinct : (st.Validators.map (fun v => v.Pubkey)).Nodup)
    (hlookup : PubkeyIndexConsistent st)
    (hcap : sp.cs.ValidatorSetCap
      < (getActiveVals st ((GetEpoch sp.cs st + 1) % 2 ^ 64)).length) :
    ∃ ranked : List Validator,
      ranked.Perm (getActiveVals st ((GetEpoch sp.cs st + 1) % 2 ^ 64)) ∧
      ranked.Sorted rankLt ∧
      (ranked.take ((getActiveVals st ((GetEpoch sp.cs st + 1) % 2 ^ 64)).length
          - sp.cs.ValidatorSetCap)).Nodup ∧
      (ranked.take ((getActiveVals st ((GetEpoch sp.cs st + 1) % 2 ^ 64)).length
          - sp.cs.ValidatorSetCap)).length
        = (getActiveVals st ((GetEpoch sp.cs st + 1) % 2 ^ 64)).length
          - sp.cs.ValidatorSetCap ∧
      (sp.processValidatorSetCap st).2 = none ∧
      (sp.processValidatorSetCap st).1
        = { st with Validators := st.Validators.map (fun v =>
              if v ∈ ranked.take ((getActiveVals st ((GetEpoch sp.cs st + 1) % 2 ^ 64)).length
                  - sp.cs.ValidatorSetCap)
              then withExitEpoch ((GetEpoch sp.cs st + 1) % 2 ^ 64) v else v) } := by
  have hperm := sortFunc_validatorCmp_perm (getActiveVals st ((GetEpoch sp.cs st + 1) % 2 ^ 64))
  have hvn : st.Validators.Nodup := List.Nodup.of_map _ hdistinct
  have han : ((getActiveVals st ((GetEpoch sp.cs st + 1) % 2 ^ 64)).map
      (fun v => v.Pubkey)).Nodup :=
    hdistinct.sublist ((getActiveVals_sublist st _).map _)
  have hsn : ((sortFunc validatorCmp
      (getActiveVals st ((GetEpoch sp.cs st + 1) % 2 ^ 64))).map (fun v => v.Pubkey)).Nodup :=
    (hperm.map _).nodup_iff.2 han
  refine ⟨sortFunc validatorCmp (getActiveVals st ((GetEpoch sp.cs st + 1) % 2 ^ 64)),
    hperm, ?_, ?_, ?_, ?_, ?_⟩
  · exact sorted_rankLt_of_sorted_cmp _ (sortFunc_validatorCmp_sorted _) hsn
  · exact (List.Nodup.of_map _ hsn).sublist (List.take_sublist _ _)
  · rw [List.length_take, hperm.length_eq]
    omega
  · rw [processValidatorSetCap_eq sp st hlookup hcap]
  · rw [processValidatorSetCap_eq sp st hlookup hcap]

theorem exampleState_consistent : PubkeyIndexConsistent exampleState := by
  intro i v h
  rcases i with _ | _ | _ | _ | _ | i
  · simp [exampleState] at h; subst h; rfl
  · simp [exampleState] at h; subst h; rfl
  · simp [exampleState] at h; subst h; rfl
  · simp [exampleState] at h; subst h; rfl
  · simp [exampleState] at h; subst h; rfl
  · simp [exampleState] at h

/-- C5 on the example state: five validators active at epoch 3 and a cap of 3. -/
theorem processValidatorSetCap_ejects_lowest_witness :
    (exampleState.Validators.map (fun v => v.Pubkey)).Nodup ∧
    PubkeyIndexConsistent exampleState ∧
    exampleProcessor.cs.ValidatorSetCap
      < (getActiveVals exampleState
          ((GetEpoch exampleProcessor.cs exampleState + 1) % 2 ^ 64)).length ∧
    ∃ ranked : List Validator,
      ranked.Perm (getActiveVals exampleState
        ((GetEpoch exampleProcessor.cs exampleState + 1) % 2 ^ 64)) ∧
      ranked.Sorted rankLt ∧
      (ranked.take ((getActiveVals exampleState
          ((GetEpoch exampleProcessor.cs exampleState + 1) % 2 ^ 64)).length
          - exampleProcessor.cs.ValidatorSetCap)).Nodup ∧
      (ranked.take ((getActiveVals exampleState
          ((GetEpoch exampleProcessor.cs exampleState + 1) % 2 ^ 64)).length
          - exampleProcessor.cs.ValidatorSetCap)).length
        = (getActiveVals exampleState
            ((GetEpoch exampleProcessor.cs exampleState + 1) % 2 ^ 64)).length
          - exampleProcessor.cs.ValidatorSetCap ∧
      (exampleProcessor.processValidatorSetCap exampleState).2 = none ∧
      (exampleProcessor.processValidatorSetCap exampleState).1
        = { exampleState with Validators := exampleState.Validators.map (fun v =>
              if v ∈ ranked.take ((getActiveVals exampleState
                  ((GetEpoch exampleProcessor.cs exampleState + 1) % 2 ^ 64)).length
                  - exampleProcessor.cs.ValidatorSetCap)
              then withExitEpoch ((GetEpoch exampleProcessor.cs exampleState + 1) % 2 ^ 64) v
              else v) } :=
  ⟨by decide, exampleState_consistent, by decide,
    processValidatorSetCap_ejects_lowest exampleProcessor exampleState (by decide)
      exampleState_consistent (by decide)⟩

/-- A validator whose exit has been initiated for an epoch is not active at that epoch. -/
theorem withExitEpoch_not_active (e : Nat) (v : Validator) :
    (withExitEpoch e v).IsActive e = false := by
  simp [withExitEpoch, Validator.IsActive]

/-- After ejecting the first `n` validators of a list `S` that is a permutation of the active
validators, at most `S.length - n` validators are active. -/
theorem length_active_after_eject (vals S : List Validator) (e n : Nat)
    (hperm : S.Perm (vals.filter (fun v => v.IsActive e))) :
    ((vals.map (fun v => if v ∈ S.take n then withExitEpoch e v else v)).filter
        (fun v => v.IsActive e)).length ≤ S.length - n := by
  rw [List.filter_map, List.length_map, ← List.countP_eq_length_filter]
  have h1 : List.countP ((fun v => v.IsActive e) ∘
        (fun v => if v ∈ S.take n then withExitEpoch e v else v)) vals
      ≤ List.countP (fun v => v.IsActive e && decide (v ∉ S.take n)) vals := by
    apply List.countP_mono_left
    intro v _ hv
    simp only [Function.comp] at hv
    by_cases hin : v ∈ S.take n
    · rw [if_pos hin, withExitEpoch_not_active] at hv
      cases hv
    · rw [if_neg hin] at hv
      simp [hv, hin]
  have h2 : List.countP (fun v => v.IsActive e && decide (v ∉ S.take n)) vals
      = ((vals.filter (fun v => v.IsActive e)).filter (fun v => decide (v ∉ S.take n))).length := by
    rw [List.filter_filter, List.countP_eq_length_filter]
    congr 2
    funext v
    rw [Bool.and_comm]
  have h3 : ((vals.filter (fun v => v.IsActive e)).filter
        (fun v => decide (v ∉ S.take n))).length
      = (S.filter (fun v => decide (v ∉ S.take n))).length :=
    (hperm.filter _).length_eq.symm
  have h4 : (S.filter (fun v => decide (v ∉ S.take n))).length ≤ S.length - n := by
    conv_lhs => rw [← List.take_append_drop n S]
    rw [List.filter_append]
    have h5 : (S.take n).filter (fun v => decide (v ∉ (S.take n ++ S.drop n).take n)) = [] := by
      rw [List.filter_eq_nil_iff]
      intro v hv
      rw [List.take_append_drop]
      simp [hv]
    rw [h5, List.nil_append]
    calc ((S.drop n).filter _).length ≤ (S.drop n).length := List.length_filter_le _ _
      _ = S.length - n := List.length_drop _ _
  omega

/-- C6: in a state whose pubkey lookups resolve every validator to its index (which makes the
pubkeys pairwise distinct), whenever `processValidatorSetCap` returns without error, at most
`ValidatorSetCap` validators are active at epoch `current + 1` in the resulting state. -/
theorem processValidatorSetCap_enforces_cap (sp : StateProcessor) (st : BeaconState)
    (hlookup : PubkeyIndexConsistent st)
    (_hok : (sp.processValidatorSetCap st).2 = none) :
    (getActiveVals (sp.processValidatorSetCap st).1
        ((GetEpoch sp.cs (sp.processValidatorSetCap st).1 + 1) % 2 ^ 64)).length
      ≤ sp.cs.ValidatorSetCap := by
  by_cases hcap : (getActiveVals st ((GetEpoch sp.cs st + 1) % 2 ^ 64)).length
      ≤ sp.cs.ValidatorSetCap
  · have : sp.processValidatorSetCap st = (st, none) := by
      unfold StateProcessor.processValidatorSetCap
      simp only
      rw [if_pos hcap]
    rw [this]
    exact hcap
  · rw [processValidatorSetCap_eq sp st hlookup (by omega)]
    have hperm := sortFunc_validatorCmp_perm
      (getActiveVals st ((GetEpoch sp.cs st + 1) % 2 ^ 64))
    have := length_active_after_eject st.Validators
      (sortFunc validatorCmp (getActiveVals st ((GetEpoch sp.cs st + 1) % 2 ^ 64)))
      ((GetEpoch sp.cs st + 1) % 2 ^ 64)
      ((getActiveVals st ((GetEpoch sp.cs st + 1) % 2 ^ 64)).length - sp.cs.ValidatorSetCap)
      hperm
    rw [hperm.length_eq] at this
    have hlen : (getActiveVals st ((GetEpoch sp.cs st + 1) % 2 ^ 64)).length
        - ((getActiveVals st ((GetEpoch sp.cs st + 1) % 2 ^ 64)).length
          - sp.cs.ValidatorSetCap) = sp.cs.ValidatorSetCap := by omega
    rw [hlen] at this
    exact this

/-- C6 on the example state: after the cap is enforced at most three validators are active at
epoch 3. -/
theorem processValidatorSetCap_enforces_cap_witness :
    PubkeyIndexConsistent exampleState ∧
    (exampleProcessor.processValidatorSetCap exampleState).2 = none ∧
    (getActiveVals (exampleProcessor.processValidatorSetCap exampleState).1
        ((GetEpoch exampleProcessor.cs
          (exampleProcessor.processValidatorSetCap exampleState).1 + 1) % 2 ^ 64)).length
      ≤ exampleProcessor.cs.ValidatorSetCap :=
  ⟨exampleState_consistent, by decide,
    processValidatorSetCap_enforces_cap exampleProcessor exampleState
      exampleState_consistent (by decide)⟩

/-! ## Roots under two limits -/

section Extension

variable {R : Type}

theorem combiLoop_fst_eq_foldl (rh : RootHasher R) (Z : Nat → R) :
    ∀ (n j : Nat) (h : R) (c : Nat),
      (combiLoop rh Z n j h c).1
        = (List.range' j n).foldl (fun acc k => rh.Combi acc (Z k)) h
  | 0, _, _, _ => rfl
  | n + 1, j, h, c => by
    rw [combiLoop, combiLoop_fst_eq_foldl rh Z n (j + 1), List.range'_succ, List.foldl_cons]

theorem foldl_range'_add (C : R → R → R) (Z : Nat → R) (j a b : Nat) (h : R) :
    (List.range' j (a + b)).foldl (fun acc k => C acc (Z k)) h
      = (List.range' (j + a) b).foldl (fun acc k => C acc (Z k))
          ((List.range' j a).foldl (fun acc k => C acc (Z k)) h) := by
  rw [Nat.add_comm a b, ← List.range'_append_1, List.foldl_append]

/-- Extending a zero hash with zero hashes climbs the table. -/
theorem zeroExtend_zero (C : R → R → R) (Z : Nat → R) (hZ : ZeroHashesContract C Z) :
    ∀ (n j : Nat), (List.range' j n).foldl (fun acc k => C acc (Z k)) (Z j) = Z (j + n)
  | 0, _ => rfl
  | n + 1, j => by
    rw [List.range'_succ, List.foldl_cons, ← hZ j, zeroExtend_zero C Z hZ n (j + 1)]
    congr 1
    omega

/-- `NewRootWithDepth` under a larger limit depth extends the root under the smaller one with
zero hashes, and returns the same error. -/
theorem NewRootWithDepth_extend (rh : RootHasher R) (Z : Nat → R)
    (hZ : ZeroHashesContract rh.Combi Z) (leaves : List R) (d D1 D2 : Nat) (hd : d ≤ D1)
    (hD : D1 ≤ D2) :
    (NewRootWithDepth rh Z leaves d D2).root
        = zeroExtend rh.Combi Z D1 D2 (NewRootWithDepth rh Z leaves d D1).root ∧
      (NewRootWithDepth rh Z leaves d D2).err = (NewRootWithDepth rh Z leaves d D1).err := by
  have hz : zeroExtend rh.Combi Z D1 D2 (Z D1) = Z D2 := by
    unfold zeroExtend
    rw [zeroExtend_zero rh.Combi Z hZ]
    congr 1
    omega
  unfold NewRootWithDepth
  by_cases h0 : leaves.length = 0
  · simp only [if_pos h0]
    exact ⟨hz.symm, trivial⟩
  · simp only [if_neg h0]
    rcases hres : hashLayers rh Z d 0 leaves 0 with ⟨res, calls⟩
    cases res with
    | error e => exact ⟨hz.symm, rfl⟩
    | ok out =>
      match out with
      | [] => exact ⟨hz.symm, rfl⟩
      | [h] =>
        refine ⟨?_, rfl⟩
        simp only [zeroExtend]
        rw [combiLoop_fst_eq_foldl, combiLoop_fst_eq_foldl]
        have e1 : D2 - d = (D1 - d) + (D2 - D1) := by omega
        have e2 : d + (D1 - d) = D1 := by omega
        rw [e1, foldl_range'_add, e2]
      | _ :: _ :: _ => exact ⟨hz.symm, rfl⟩

/-- C11: for limits `1 ≤ l1 ≤ l2 ≤ 2 ^ 63` and at most `l1` leaves, with a zero-hash table
satisfying `Hashes[k+1] = Combi(Hashes[k], Hashes[k])`, the value `NewRootWithMaxLeaves`
returns under `l2` is obtained from the value it returns under `l1` by successively applying
`h := Combi(h, Hashes[j])` for `j = ⌈log2 l1⌉, ..., ⌈log2 l2⌉ - 1`; both calls return the same
error. -/
theorem NewRootWithMaxLeaves_extend (rh : RootHasher R) (Z : Nat → R) (leaves : List R)
    (l1 l2 : Nat) (hZ : ZeroHashesContract rh.Combi Z) (h1 : 1 ≤ l1) (h12 : l1 ≤ l2)
    (h2 : l2 ≤ 2 ^ 63) (hlen : leaves.length ≤ l1) :
    (NewRootWithMaxLeaves rh Z leaves l2).root
        = zeroExtend rh.Combi Z (Nat.clog 2 l1) (Nat.clog 2 l2)
            (NewRootWithMaxLeaves rh Z leaves l1).root ∧
      (NewRootWithMaxLeaves rh Z leaves l2).err = (NewRootWithMaxLeaves rh Z leaves l1).err := by
  have hl1 : l1 ≤ 2 ^ 63 := le_trans h12 h2
  have hD : Nat.clog 2 l1 ≤ Nat.clog 2 l2 := Nat.clog_mono_right 2 h12
  have hd : Nat.clog 2 leaves.length ≤ Nat.clog 2 l1 := Nat.clog_mono_right 2 hlen
  have hgen2 : l2 ≠ 1 ∨ leaves.length ≠ 1 →
      NewRootWithMaxLeaves rh Z leaves l2
        = NewRootWithDepth rh Z leaves (Nat.clog 2 leaves.length) (Nat.clog 2 l2) := by
    intro h
    unfold NewRootWithMaxLeaves
    rw [if_neg (by omega), if_neg (by omega), dif_neg (by omega),
      depth_eq_clog (le_trans hlen hl1), depth_eq_clog h2]
  have hgen1 : l1 ≠ 1 ∨ leaves.length ≠ 1 →
      NewRootWithMaxLeaves rh Z leaves l1
        = NewRootWithDepth rh Z leaves (Nat.clog 2 leaves.length) (Nat.clog 2 l1) := by
    intro h
    unfold NewRootWithMaxLeaves
    rw [if_neg (by omega), if_neg (by omega), dif_neg (by omega),
      depth_eq_clog (le_trans hlen hl1), depth_eq_clog hl1]
  by_cases hs : l1 = 1 ∧ leaves.length = 1
  · obtain ⟨hl, hc⟩ := hs
    obtain ⟨x, hx⟩ := List.length_eq_one.1 hc
    subst hx
    subst hl
    have hone : NewRootWithMaxLeaves rh Z [x] 1 = ⟨x, none, 0⟩ := by
      unfold NewRootWithMaxLeaves
      simp
    have hc0 : Nat.clog 2 1 = 0 := Nat.clog_one_right 2
    by_cases hl2 : l2 = 1
    · subst hl2
      rw [hone]
      simp [zeroExtend]
    · rw [hgen2 (Or.inl hl2), hone]
      have hdepth : NewRootWithDepth rh Z [x] (Nat.clog 2 [x].length) (Nat.clog 2 l2)
          = ⟨(combiLoop rh Z (Nat.clog 2 l2) 0 x 0).1, none,
              (combiLoop rh Z (Nat.clog 2 l2) 0 x 0).2⟩ := by
        simp [NewRootWithDepth, hashLayers, hc0]
      rw [hdepth, hc0]
      refine ⟨?_, rfl⟩
      simp only [zeroExtend, Nat.sub_zero]
      exact combiLoop_fst_eq_foldl rh Z _ 0 x 0
  · have hs1 : l1 ≠ 1 ∨ leaves.length ≠ 1 := by
      by_contra hcon
      push_neg at hcon
      exact hs hcon
    have hs2 : l2 ≠ 1 ∨ leaves.length ≠ 1 := by
      rcases hs1 with h | h
      · left; omega
      · right; exact h
    rw [hgen1 hs1, hgen2 hs2]
    exact NewRootWithDepth_extend rh Z hZ leaves _ _ _ hd hD

/-- C11 at three leaves: the root under limit 8 is `Combi(root under limit 4, Hashes[2])`. -/
theorem NewRootWithMaxLeaves_extend_witness :
    ZeroHashesContract toyHasher.Combi toyZeroHashes ∧ 1 ≤ 4 ∧ 4 ≤ 8 ∧ 8 ≤ 2 ^ 63 ∧
      [constBytes32 1, constBytes32 2, constBytes32 3].length ≤ 4 ∧
      (NewRootWithMaxLeaves toyHasher toyZeroHashes
          [constBytes32 1, constBytes32 2, constBytes32 3] 8).root
        = zeroExtend toyHasher.Combi toyZeroHashes (Nat.clog 2 4) (Nat.clog 2 8)
            (NewRootWithMaxLeaves toyHasher toyZeroHashes
              [constBytes32 1, constBytes32 2, constBytes32 3] 4).root ∧
      (NewRootWithMaxLeaves toyHasher toyZeroHashes
          [constBytes32 1, constBytes32 2, constBytes32 3] 8).err
        = (NewRootWithMaxLeaves toyHasher toyZeroHashes
          [constBytes32 1, constBytes32 2, constBytes32 3] 4).err :=
  ⟨toyZeroHashes_contract, by decide, by decide, by norm_num, by decide,
    NewRootWithMaxLeaves_extend toyHasher toyZeroHashes
      [constBytes32 1, constBytes32 2, constBytes32 3] 4 8 toyZeroHashes_contract
      (by decide) (by decide) (by norm_num) (by decide)⟩

end Extension

/-! ## Randao processing: the proposer and the reset -/

/-- C12: when the proposer index of the block does not resolve to a validator,
`processRandaoReveal` returns the error of `ValidatorByIndex` and leaves the state as it was,
with randao verification enabled or not. -/
theorem processRandaoReveal_unknown_proposer (sp : StateProcessor) (verifyRandao : Bool)
    (st : BeaconState) (blk : BeaconBlock) (err : Error)
    (h : ValidatorByIndex st blk.GetProposerIndex = .error err) :
    sp.processRandaoReveal verifyRandao st blk = (st, some err) := by
  unfold StateProcessor.processRandaoReveal
  simp only [h]

/-- C12 on the example state: proposer index 7 is out of range, with and without
verification. -/
theorem processRandaoReveal_unknown_proposer_witness :
    ValidatorByIndex exampleState (exampleBlockBy 7 3).GetProposerIndex
        = .error .IndexOutOfRange ∧
      exampleProcessor.processRandaoReveal true exampleState (exampleBlockBy 7 3)
        = (exampleState, some .IndexOutOfRange) ∧
      exampleProcessor.processRandaoReveal false exampleState (exampleBlockBy 7 3)
        = (exampleState, some .IndexOutOfRange) :=
  ⟨rfl,
    processRandaoReveal_unknown_proposer exampleProcessor true exampleState
      (exampleBlockBy 7 3) .IndexOutOfRange rfl,
    processRandaoReveal_unknown_proposer exampleProcessor false exampleState
      (exampleBlockBy 7 3) .IndexOutOfRange rfl⟩

/-- C13: whenever `processRandaoMixesReset` succeeds, the mix stored afterwards at the index of
epoch `epoch + 1` (the 64-bit sum, reduced modulo `EpochsPerHistoricalVector`) is the mix that
was stored at index `epoch mod EpochsPerHistoricalVector` before, and the mix at every other
index is unchanged. -/
theorem processRandaoMixesReset_mix (sp : StateProcessor) (st : BeaconState)
    (h : (sp.processRandaoMixesReset st).2 = none) :
    ∃ mix : Bytes32,
      GetRandaoMixAtIndex st (GetEpoch sp.cs st % sp.cs.EpochsPerHistoricalVector) = .ok mix ∧
      GetRandaoMixAtIndex (sp.processRandaoMixesReset st).1
        ((GetEpoch sp.cs st + 1) % 2 ^ 64 % sp.cs.EpochsPerHistoricalVector) = .ok mix ∧
      ∀ j, j ≠ (GetEpoch sp.cs st + 1) % 2 ^ 64 % sp.cs.EpochsPerHistoricalVector →
        GetRandaoMixAtIndex (sp.processRandaoMixesReset st).1 j = GetRandaoMixAtIndex st j := by
  unfold StateProcessor.processRandaoMixesReset at h ⊢
  by_cases hN : sp.cs.EpochsPerHistoricalVector = 0
  · simp [hN] at h
  · simp only [hN, if_false] at h ⊢
    cases hg : GetRandaoMixAtIndex st (GetEpoch sp.cs st % sp.cs.EpochsPerHistoricalVector) with
    | error e => simp [hg] at h
    | ok mix =>
      simp only [hg] at h ⊢
      generalize (GetEpoch sp.cs st + 1) % 2 ^ 64 % sp.cs.EpochsPerHistoricalVector = idx at h ⊢
      by_cases hi : idx < st.RandaoMixes.length
      · refine ⟨mix, rfl, ?_, ?_⟩
        · simp [UpdateRandaoMixAtIndex, hi, GetRandaoMixAtIndex]
        · intro j hj
          simp [UpdateRandaoMixAtIndex, hi, GetRandaoMixAtIndex,
            List.getElem?_set_ne (Ne.symm hj)]
      · simp [UpdateRandaoMixAtIndex, hi] at h

/-- C13 on a state at epoch 2 whose mix at index 2 is `7...`: the reset copies it to index 3. -/
theorem processRandaoMixesReset_mix_witness :
    (exampleProcessor.processRandaoMixesReset exampleStateMixed).2 = none ∧
    ∃ mix : Bytes32,
      GetRandaoMixAtIndex exampleStateMixed
        (GetEpoch exampleProcessor.cs exampleStateMixed
          % exampleProcessor.cs.EpochsPerHistoricalVector) = .ok mix ∧
      GetRandaoMixAtIndex (exampleProcessor.processRandaoMixesReset exampleStateMixed).1
        ((GetEpoch exampleProcessor.cs exampleStateMixed + 1) % 2 ^ 64
          % exampleProcessor.cs.EpochsPerHistoricalVector) = .ok mix ∧
      ∀ j, j ≠ (GetEpoch exampleProcessor.cs exampleStateMixed + 1) % 2 ^ 64
            % exampleProcessor.cs.EpochsPerHistoricalVector →
        GetRandaoMixAtIndex (exampleProcessor.processRandaoMixesReset exampleStateMixed).1 j
          = GetRandaoMixAtIndex exampleStateMixed j :=
  ⟨by decide, processRandaoMixesReset_mix exampleProcessor exampleStateMixed (by decide)⟩

/-! ## The validator-set cap: no-op, idempotence, frame -/

/-- C14: when at most `ValidatorSetCap` validators are active at epoch `current + 1`,
`processValidatorSetCap` returns nil and leaves the state as it was. -/
theorem processValidatorSetCap_noop (sp : StateProcessor) (st : BeaconState)
    (h : (getActiveVals st ((GetEpoch sp.cs st + 1) % 2 ^ 64)).length
      ≤ sp.cs.ValidatorSetCap) :
    sp.processValidatorSetCap st = (st, none) := by
  unfold StateProcessor.processValidatorSetCap
  simp only
  rw [if_pos h]

/-- C14 on the example state under a cap of 5. -/
theorem processValidatorSetCap_noop_witness :
    (getActiveVals exampleState
        ((GetEpoch (exampleProcessorWithCap 5).cs exampleState + 1) % 2 ^ 64)).length
      ≤ (exampleProcessorWithCap 5).cs.ValidatorSetCap ∧
    (exampleProcessorWithCap 5).processValidatorSetCap exampleState = (exampleState, none) :=
  ⟨by decide, processValidatorSetCap_noop (exampleProcessorWithCap 5) exampleState (by decide)⟩

/-- Above the cap, in a state with a consistent pubkey index, at most `ValidatorSetCap`
validators are active next epoch in the state `processValidatorSetCap` leaves behind. -/
theorem processValidatorSetCap_active_le (sp : StateProcessor) (st : BeaconState)
    (hlookup : PubkeyIndexConsistent st)
    (hcap : sp.cs.ValidatorSetCap
      < (getActiveVals st ((GetEpoch sp.cs st + 1) % 2 ^ 64)).length) :
    (getActiveVals (sp.processValidatorSetCap st).1
        ((GetEpoch sp.cs st + 1) % 2 ^ 64)).length ≤ sp.cs.ValidatorSetCap := by
  rw [processValidatorSetCap_eq sp st hlookup hcap]
  have hperm := sortFunc_validatorCmp_perm
    (getActiveVals st ((GetEpoch sp.cs st + 1) % 2 ^ 64))
  have := length_active_after_eject st.Validators
    (sortFunc validatorCmp (getActiveVals st ((GetEpoch sp.cs st + 1) % 2 ^ 64)))
    ((GetEpoch sp.cs st + 1) % 2 ^ 64)
    ((getActiveVals st ((GetEpoch sp.cs st + 1) % 2 ^ 64)).length - sp.cs.ValidatorSetCap)
    hperm
  rw [hperm.length_eq] at this
  have hlen : (getActiveVals st ((GetEpoch sp.cs st + 1) % 2 ^ 64)).length
      - ((getActiveVals st ((GetEpoch sp.cs st + 1) % 2 ^ 64)).length
        - sp.cs.ValidatorSetCap) = sp.cs.ValidatorSetCap := by omega
  rw [hlen] at this
  exact this

/-- Above the cap, in a state with a consistent pubkey index, `processValidatorSetCap` keeps
the epoch of the state. -/
theorem processValidatorSetCap_epoch (sp : StateProcessor) (st : BeaconState)
    (hlookup : PubkeyIndexConsistent st)
    (hcap : sp.cs.ValidatorSetCap
      < (getActiveVals st ((GetEpoch sp.cs st + 1) % 2 ^ 64)).length) :
    GetEpoch sp.cs (sp.processValidatorSetCap st).1 = GetEpoch sp.cs st := by
  rw [processValidatorSetCap_eq sp st hlookup hcap]
  rfl

/-- C15: in a state whose pubkey lookups resolve every validator to its index, when
`processValidatorSetCap` succeeds, running it again on the resulting state succeeds and
changes nothing. -/
theorem processValidatorSetCap_idempotent (sp : StateProcessor) (st : BeaconState)
    (hlookup : PubkeyIndexConsistent st)
    (_hok : (sp.processValidatorSetCap st).2 = none) :
    sp.processValidatorSetCap (sp.processValidatorSetCap st).1
      = ((sp.processValidatorSetCap st).1, none) := by
  by_cases hcap : (getActiveVals st ((GetEpoch sp.cs st + 1) % 2 ^ 64)).length
      ≤ sp.cs.ValidatorSetCap
  · have h1 : sp.processValidatorSetCap st = (st, none) := by
      unfold StateProcessor.processValidatorSetCap
      simp only
      rw [if_pos hcap]
    rw [h1]
    exact h1
  · have hcap' : sp.cs.ValidatorSetCap
        < (getActiveVals st ((GetEpoch sp.cs st + 1) % 2 ^ 64)).length := by omega
    have hle := processValidatorSetCap_active_le sp st hlookup hcap'
    have hep := processValidatorSetCap_epoch sp st hlookup hcap'
    generalize sp.processValidatorSetCap st = r at hle hep ⊢
    unfold StateProcessor.processValidatorSetCap
    simp only
    rw [hep, if_pos hle]

/-- C15 on the example state. -/
theorem processValidatorSetCap_idempotent_witness :
    PubkeyIndexConsistent exampleState ∧
    (exampleProcessor.processValidatorSetCap exampleState).2 = none ∧
    exampleProcessor.processValidatorSetCap
        (exampleProcessor.processValidatorSetCap exampleState).1
      = ((exampleProcessor.processValidatorSetCap exampleState).1, none) :=
  ⟨exampleState_consistent, by decide,
    processValidatorSetCap_idempotent exampleProcessor exampleState exampleState_consistent
      (by decide)⟩

/-- C16: in a state whose pubkey lookups resolve every validator to its index, with `N`
validators active at epoch `current + 1` and a cap `C < N`, every validator that is not among
the `N - C` lowest-ranked validators active at `current + 1` (in particular every validator
that is not active then) is stored unchanged at its index after `processValidatorSetCap`. -/
theorem processValidatorSetCap_frame (sp : StateProcessor) (st : BeaconState)
    (hlookup : PubkeyIndexConsistent st)
    (hcap : sp.cs.ValidatorSetCap
      < (getActiveVals st ((GetEpoch sp.cs st + 1) % 2 ^ 64)).length) :
    ∃ ranked : List Validator,
      ranked.Perm (getActiveVals st ((GetEpoch sp.cs st + 1) % 2 ^ 64)) ∧
      ranked.Sorted rankLt ∧
      (sp.processValidatorSetCap st).2 = none ∧
      (sp.processValidatorSetCap st).1.Validators.length = st.Validators.length ∧
      ∀ (i : Nat) (v : Validator), st.Validators[i]? = some v →
        v ∉ ranked.take ((getActiveVals st ((GetEpoch sp.cs st + 1) % 2 ^ 64)).length
          - sp.cs.ValidatorSetCap) →
        (sp.processValidatorSetCap st).1.Validators[i]? = some v := by
  have hpk := pubkeys_nodup_of_consistent hlookup
  have hperm := sortFunc_validatorCmp_perm (getActiveVals st ((GetEpoch sp.cs st + 1) % 2 ^ 64))
  have han : ((getActiveVals st ((GetEpoch sp.cs st + 1) % 2 ^ 64)).map
      (fun v => v.Pubkey)).Nodup :=
    hpk.sublist ((getActiveVals_sublist st _).map _)
  have hsn : ((sortFunc validatorCmp
      (getActiveVals st ((GetEpoch sp.cs st + 1) % 2 ^ 64))).map (fun v => v.Pubkey)).Nodup :=
    (hperm.map _).nodup_iff.2 han
  refine ⟨sortFunc validatorCmp (getActiveVals st ((GetEpoch sp.cs st + 1) % 2 ^ 64)),
    hperm, sorted_rankLt_of_sorted_cmp _ (sortFunc_validatorCmp_sorted _) hsn, ?_, ?_, ?_⟩
  · rw [processValidatorSetCap_eq sp st hlookup hcap]
  · rw [processValidatorSetCap_eq sp st hlookup hcap]
    simp
  · intro i v hv hnot
    rw [processValidatorSetCap_eq sp st hlookup hcap]
    simp only [List.getElem?_map, hv, Option.map_some', if_neg hnot]

/-- C16 on the example state, balances `[32, 64, 16, 128, 48]` under a cap of 3: the
validators with balances 64, 128 and 48 are untouched, those with 16 and 32 get the exit
epoch 3. -/
theorem processValidatorSetCap_frame_witness :
    (PubkeyIndexConsistent exampleState ∧
    exampleProcessor.cs.ValidatorSetCap
      < (getActiveVals exampleState
          ((GetEpoch exampleProcessor.cs exampleState + 1) % 2 ^ 64)).length ∧
    ∃ ranked : List Validator,
      ranked.Perm (getActiveVals exampleState
        ((GetEpoch exampleProcessor.cs exampleState + 1) % 2 ^ 64)) ∧
      ranked.Sorted rankLt ∧
      (exampleProcessor.processValidatorSetCap exampleState).2 = none ∧
      (exampleProcessor.processValidatorSetCap exampleState).1.Validators.length
        = exampleState.Validators.length ∧
      ∀ (i : Nat) (v : Validator), exampleState.Validators[i]? = some v →
        v ∉ ranked.take ((getActiveVals exampleState
            ((GetEpoch exampleProcessor.cs exampleState + 1) % 2 ^ 64)).length
          - exampleProcessor.cs.ValidatorSetCap) →
        (exampleProcessor.processValidatorSetCap exampleState).1.Validators[i]? = some v) ∧
    (exampleProcessor.processValidatorSetCap exampleState).1.Validators
      = [withExitEpoch 3 (exampleValidator 1 32), exampleValidator 2 64,
          withExitEpoch 3 (exampleValidator 3 16), exampleValidator 4 128,
          exampleValidator 5 48] :=
  ⟨⟨exampleState_consistent, by decide,
    processValidatorSetCap_frame exampleProcessor exampleState exampleState_consistent
      (by decide)⟩, by decide⟩

/-! ## The validator-set cap: failure -/

/-- An exit initiation that fails writes nothing. -/
theorem InitiateValidatorExit_error_state (sp : StateProcessor) (st : BeaconState) (idx : Nat)
    (err : Error) (h : (sp.InitiateValidatorExit st idx).2 = some err) :
    (sp.InitiateValidatorExit st idx).1 = st := by
  unfold StateProcessor.InitiateValidatorExit at h ⊢
  cases hv : ValidatorByIndex st idx with
  | error e => rfl
  | ok v =>
    simp only [hv] at h ⊢
    unfold UpdateValidatorAtIndex at h ⊢
    by_cases hi : idx < st.Validators.length
    · simp [hi] at h
    · simp [hi]

/-- When the ejection loop fails, the state it leaves behind is the state after the successful
ejection of the validators that precede the failing one. -/
theorem ejectLoop_error_prefix (sp : StateProcessor) :
    ∀ (E : List Validator) (li : Nat) (st : BeaconState) (err : Error),
      (sp.ejectLoop E li st).2 = some err →
      ∃ k, k < E.length ∧ (sp.ejectLoop (E.take k) li st).2 = none ∧
        (sp.ejectLoop E li st).1 = (sp.ejectLoop (E.take k) li st).1
  | [], li, st, err, h => by
    simp [StateProcessor.ejectLoop] at h
  | v :: E, li, st, err, h => by
    rw [StateProcessor.ejectLoop] at h ⊢
    cases hl : ValidatorIndexByPubkey st v.Pubkey with
    | error e =>
      exact ⟨0, by simp, by simp [StateProcessor.ejectLoop], by simp [StateProcessor.ejectLoop]⟩
    | ok idx =>
      simp only [hl] at h ⊢
      rcases hx : sp.InitiateValidatorExit st idx with ⟨st1, oerr⟩
      cases oerr with
      | some e =>
        have hs := InitiateValidatorExit_error_state sp st idx e (by rw [hx])
        rw [hx] at hs
        simp only at hs
        subst hs
        exact ⟨0, by simp, by simp [StateProcessor.ejectLoop], by simp [StateProcessor.ejectLoop]⟩
      | none =>
        simp only [hx] at h ⊢
        obtain ⟨k, hk, h1, h2⟩ := ejectLoop_error_prefix sp E (li + 1) st1 err h
        refine ⟨k + 1, by simp; omega, ?_, ?_⟩
        · rw [List.take_succ_cons, StateProcessor.ejectLoop]
          simp only [hl, hx]
          exact h1
        · rw [List.take_succ_cons, StateProcessor.ejectLoop]
          simp only [hl, hx]
          exact h2

/-- A successful exit initiation overwrites the validator stored at the index with that
validator, its exit epoch set to the next epoch, and writes nothing else. -/
theorem InitiateValidatorExit_ok (sp : StateProcessor) (st st1 : BeaconState) (idx : Nat)
    (h : sp.InitiateValidatorExit st idx = (st1, none)) :
    ∃ v, st.Validators[idx]? = some v ∧ st1.PubkeyIndex = st.PubkeyIndex ∧ st1.Slot = st.Slot ∧
      st1.Validators
        = st.Validators.set idx (withExitEpoch ((GetEpoch sp.cs st + 1) % 2 ^ 64) v) := by
  cases hv : st.Validators[idx]? with
  | none =>
    have hne : (sp.InitiateValidatorExit st idx).2 ≠ none := by
      unfold StateProcessor.InitiateValidatorExit ValidatorByIndex
      rw [hv]
      simp
    rw [h] at hne
    exact absurd rfl hne
  | some v =>
    rw [InitiateValidatorExit_eq sp st idx v hv] at h
    have h1 := (Prod.mk.inj h).1
    refine ⟨v, rfl, ?_, ?_, ?_⟩ <;> rw [← h1]

/-- The reverse lookup reads the pubkey index only. -/
theorem ValidatorIndexByPubkey_congr {st st1 : BeaconState}
    (h : st1.PubkeyIndex = st.PubkeyIndex) (pk : BLSPubkey) :
    ValidatorIndexByPubkey st1 pk = ValidatorIndexByPubkey st pk := by
  unfold ValidatorIndexByPubkey
  rw [h]

theorem GetEpoch_congr (cs : ChainSpec) {st st1 : BeaconState} (h : st1.Slot = st.Slot) :
    GetEpoch cs st1 = GetEpoch cs st := by
  unfold GetEpoch
  rw [h]

/-- Overwriting one validator with a validator of exit epoch `n` keeps every exit epoch that
was `n`. -/
theorem ExitEpochAt_set (st st1 : BeaconState) (idx n : Nat) (v : Validator)
    (hv : st.Validators[idx]? = some v)
    (h1 : st1.Validators = st.Validators.set idx (withExitEpoch n v)) :
    ExitEpochAt st1 idx n ∧ ∀ i, ExitEpochAt st i n → ExitEpochAt st1 i n := by
  have hlt : idx < st.Validators.length := by
    rcases Nat.lt_or_ge idx st.Validators.length with h' | h'
    · exact h'
    · rw [List.getElem?_eq_none h'] at hv; cases hv
  have hidx : ExitEpochAt st1 idx n :=
    ⟨withExitEpoch n v, by rw [h1, List.getElem?_set_self hlt], rfl⟩
  refine ⟨hidx, ?_⟩
  intro i hi
  by_cases hii : idx = i
  · subst hii
    exact hidx
  · obtain ⟨w, hw, hwn⟩ := hi
    exact ⟨w, by rw [h1, List.getElem?_set_ne hii]; exact hw, hwn⟩

/-- The ejection loop, whether it succeeds or fails, keeps the pubkey index and the slot, and
never takes back an exit epoch it or an earlier iteration has set. -/
theorem ejectLoop_keeps_exits (sp : StateProcessor) :
    ∀ (E : List Validator) (li : Nat) (st : BeaconState),
      (sp.ejectLoop E li st).1.PubkeyIndex = st.PubkeyIndex ∧
        (sp.ejectLoop E li st).1.Slot = st.Slot ∧
        ∀ i, ExitEpochAt st i ((GetEpoch sp.cs st + 1) % 2 ^ 64) →
          ExitEpochAt (sp.ejectLoop E li st).1 i ((GetEpoch sp.cs st + 1) % 2 ^ 64)
  | [], _, _ => ⟨rfl, rfl, fun _ h => h⟩
  | v :: E, li, st => by
    rw [StateProcessor.ejectLoop]
    cases hl : ValidatorIndexByPubkey st v.Pubkey with
    | error e => exact ⟨rfl, rfl, fun _ h => h⟩
    | ok idx =>
      simp only
      rcases hx : sp.InitiateValidatorExit st idx with ⟨st1, oerr⟩
      cases oerr with
      | some e =>
        have hs := InitiateValidatorExit_error_state sp st idx e (by rw [hx])
        rw [hx] at hs
        simp only at hs
        subst hs
        exact ⟨rfl, rfl, fun _ h => h⟩
      | none =>
        simp only
        obtain ⟨v0, hv0, hpi, hslot, hvals⟩ := InitiateValidatorExit_ok sp st st1 idx hx
        obtain ⟨h1, h2, h3⟩ := ejectLoop_keeps_exits sp E (li + 1) st1
        rw [GetEpoch_congr sp.cs hslot] at h3
        refine ⟨h1.trans hpi, h2.trans hslot, ?_⟩
        intro i hi
        exact h3 i ((ExitEpochAt_set st st1 idx _ v0 hv0 hvals).2 i hi)

/-- When the ejection loop fails, it fails at one validator `E[k]`: the `k` validators before it
have been ejected with success and their exit epochs are set in the state left behind, which is
the state after these `k` ejections; in that state the lookup or the exit initiation for `E[k]`
fails, and the error returned is the error of that step. -/
theorem ejectLoop_error_at (sp : StateProcessor) :
    ∀ (E : List Validator) (li : Nat) (st : BeaconState) (err : Error),
      (sp.ejectLoop E li st).2 = some err →
      ∃ (k : Nat) (v : Validator), E[k]? = some v ∧
        (sp.ejectLoop (E.take k) li st).2 = none ∧
        (sp.ejectLoop E li st).1 = (sp.ejectLoop (E.take k) li st).1 ∧
        ((∃ e, ValidatorIndexByPubkey (sp.ejectLoop E li st).1 v.Pubkey = .error e ∧
            err = .Wrapf "validators cap, failed loading validator index: %w" none e)
          ∨ (∃ idx e, ValidatorIndexByPubkey (sp.ejectLoop E li st).1 v.Pubkey = .ok idx ∧
              sp.InitiateValidatorExit (sp.ejectLoop E li st).1 idx
                = ((sp.ejectLoop E li st).1, some e) ∧
              err = .Wrapf "validator cap, failed ejecting validator idx %d: %w"
                (some (li + k)) e)) ∧
        (∀ (j : Nat) (w : Validator), j < k → E[j]? = some w →
          ∃ idx, ValidatorIndexByPubkey st w.Pubkey = .ok idx ∧
            ExitEpochAt (sp.ejectLoop E li st).1 idx ((GetEpoch sp.cs st + 1) % 2 ^ 64))
  | [], li, st, err, h => by
    simp [StateProcessor.ejectLoop] at h
  | v :: E, li, st, err, h => by
    cases hl : ValidatorIndexByPubkey st v.Pubkey with
    | error e =>
      have hfull : sp.ejectLoop (v :: E) li st
          = (st, some (.Wrapf "validators cap, failed loading validator index: %w" none e)) := by
        rw [StateProcessor.ejectLoop]
        simp only [hl]
      rw [hfull] at h ⊢
      have herr : err = .Wrapf "validators cap, failed loading validator index: %w" none e :=
        (Option.some.inj h).symm
      refine ⟨0, v, List.getElem?_cons_zero, rfl, rfl, Or.inl ⟨e, hl, herr⟩, ?_⟩
      intro j w hj
      exact absurd hj (Nat.not_lt_zero j)
    | ok idx =>
      rcases hx : sp.InitiateValidatorExit st idx with ⟨st1, oerr⟩
      cases oerr with
      | some e =>
        have hs := InitiateValidatorExit_error_state sp st idx e (by rw [hx])
        rw [hx] at hs
        simp only at hs
        subst hs
        have hfull : sp.ejectLoop (v :: E) li st1
            = (st1, some (.Wrapf "validator cap, failed ejecting validator idx %d: %w"
                (some li) e)) := by
          rw [StateProcessor.ejectLoop]
          simp only [hl, hx]
        rw [hfull] at h ⊢
        have herr : err = .Wrapf "validator cap, failed ejecting validator idx %d: %w"
            (some li) e := (Option.some.inj h).symm
        refine ⟨0, v, List.getElem?_cons_zero, rfl, rfl, Or.inr ⟨idx, e, hl, hx, herr⟩, ?_⟩
        intro j w hj
        exact absurd hj (Nat.not_lt_zero j)
      | none =>
        have hfull : ∀ E1 : List Validator,
            sp.ejectLoop (v :: E1) li st = sp.ejectLoop E1 (li + 1) st1 := by
          intro E1
          rw [StateProcessor.ejectLoop]
          simp only [hl, hx]
        rw [hfull] at h ⊢
        obtain ⟨v0, hv0, hpi, hslot, hvals⟩ := InitiateValidatorExit_ok sp st st1 idx hx
        obtain ⟨k, vk, hk, h1, h2, h3, h4⟩ := ejectLoop_error_at sp E (li + 1) st1 err h
        obtain ⟨_, _, hkeep⟩ := ejectLoop_keeps_exits sp E (li + 1) st1
        rw [GetEpoch_congr sp.cs hslot] at h4 hkeep
        refine ⟨k + 1, vk, ?_, ?_, ?_, ?_, ?_⟩
        · rw [List.getElem?_cons_succ]
          exact hk
        · rw [List.take_succ_cons, hfull]
          exact h1
        · rw [List.take_succ_cons, hfull]
          exact h2
        · have hli : li + 1 + k = li + (k + 1) := by omega
          rw [hli] at h3
          exact h3
        · intro j w hj hw
          rcases j with _ | j
          · rw [List.getElem?_cons_zero] at hw
            have hwv : v = w := Option.some.inj hw
            subst hwv
            exact ⟨idx, hl, hkeep idx (ExitEpochAt_set st st1 idx _ v0 hv0 hvals).1⟩
          · rw [List.getElem?_cons_succ] at hw
            obtain ⟨idx1, hidx1, hex⟩ := h4 j w (by omega) hw
            rw [ValidatorIndexByPubkey_congr hpi] at hidx1
            exact ⟨idx1, hidx1, hex⟩

/-- C17, as stated, fails: in a state whose pubkey index misses the second validator to eject,
`processValidatorSetCap` returns the lookup error after it has initiated the exit of the
first one. -/
theorem processValidatorSetCap_partial_counterexample :
    (exampleProcessor.processValidatorSetCap exampleStateBrokenIndex).2
        = some (.Wrapf "validators cap, failed loading validator index: %w" none
            .PubkeyNotFound) ∧
      (exampleProcessor.processValidatorSetCap exampleStateBrokenIndex).1.Validators
        = [exampleValidator 1 32, exampleValidator 2 64,
            withExitEpoch 3 (exampleValidator 3 16), exampleValidator 4 128,
            exampleValidator 5 48] ∧
      (exampleProcessor.processValidatorSetCap exampleStateBrokenIndex).1.Validators
        ≠ exampleStateBrokenIndex.Validators := by
  decide

/-- C17, amended: when `processValidatorSetCap` returns an error, it fails at one validator, the
one at position `k < N - C` of the ejection order.  The `k` validators before it have had their
exit initiated and stay so: each of them resolved to an index whose validator has the exit epoch
`current + 1` in the state left behind, and that state is exactly the state after these `k`
successful ejections.  The failing iteration writes nothing: in the state left behind the lookup
of the failing validator fails, or its exit initiation does, and the error returned wraps the
error of that step. -/
theorem processValidatorSetCap_error_prefix (sp : StateProcessor) (st : BeaconState)
    (err : Error) (h : (sp.processValidatorSetCap st).2 = some err) :
    ∃ (k : Nat) (v : Validator),
      k < (getActiveVals st ((GetEpoch sp.cs st + 1) % 2 ^ 64)).length
          - sp.cs.ValidatorSetCap ∧
      (sortFunc validatorCmp (getActiveVals st ((GetEpoch sp.cs st + 1) % 2 ^ 64)))[k]?
        = some v ∧
      (sp.ejectLoop ((sortFunc validatorCmp
          (getActiveVals st ((GetEpoch sp.cs st + 1) % 2 ^ 64))).take k) 0 st).2 = none ∧
      (sp.processValidatorSetCap st).1
        = (sp.ejectLoop ((sortFunc validatorCmp
            (getActiveVals st ((GetEpoch sp.cs st + 1) % 2 ^ 64))).take k) 0 st).1 ∧
      ((∃ e, ValidatorIndexByPubkey (sp.processValidatorSetCap st).1 v.Pubkey = .error e ∧
          err = .Wrapf "validators cap, failed loading validator index: %w" none e)
        ∨ (∃ idx e, ValidatorIndexByPubkey (sp.processValidatorSetCap st).1 v.Pubkey = .ok idx ∧
            sp.InitiateValidatorExit (sp.processValidatorSetCap st).1 idx
              = ((sp.processValidatorSetCap st).1, some e) ∧
            err = .Wrapf "validator cap, failed ejecting validator idx %d: %w" (some k) e)) ∧
      (∀ (j : Nat) (w : Validator), j < k →
        (sortFunc validatorCmp (getActiveVals st ((GetEpoch sp.cs st + 1) % 2 ^ 64)))[j]?
          = some w →
        ∃ idx, ValidatorIndexByPubkey st w.Pubkey = .ok idx ∧
          ExitEpochAt (sp.processValidatorSetCap st).1 idx
            ((GetEpoch sp.cs st + 1) % 2 ^ 64)) := by
  unfold StateProcessor.processValidatorSetCap at h ⊢
  simp only at h ⊢
  by_cases hcap : (getActiveVals st ((GetEpoch sp.cs st + 1) % 2 ^ 64)).length
      ≤ sp.cs.ValidatorSetCap
  · rw [if_pos hcap] at h
    cases h
  · rw [if_neg hcap] at h ⊢
    obtain ⟨k, v, hk, h1, h2, h3, h4⟩ := ejectLoop_error_at sp _ 0 st err h
    have hklt : k < ((sortFunc validatorCmp
        (getActiveVals st ((GetEpoch sp.cs st + 1) % 2 ^ 64))).take
          ((getActiveVals st ((GetEpoch sp.cs st + 1) % 2 ^ 64)).length
            - sp.cs.ValidatorSetCap)).length := by
      rcases Nat.lt_or_ge k ((sortFunc validatorCmp
          (getActiveVals st ((GetEpoch sp.cs st + 1) % 2 ^ 64))).take
            ((getActiveVals st ((GetEpoch sp.cs st + 1) % 2 ^ 64)).length
              - sp.cs.ValidatorSetCap)).length with h' | h'
      · exact h'
      · rw [List.getElem?_eq_none h'] at hk; cases hk
    have hk' : k < (getActiveVals st ((GetEpoch sp.cs st + 1) % 2 ^ 64)).length
        - sp.cs.ValidatorSetCap := by
      rw [List.length_take] at hklt
      omega
    have hmin : min k ((getActiveVals st ((GetEpoch sp.cs st + 1) % 2 ^ 64)).length
        - sp.cs.ValidatorSetCap) = k := by omega
    rw [List.take_take, hmin] at h1 h2
    rw [List.getElem?_take_of_lt hk'] at hk
    rw [Nat.zero_add] at h3
    refine ⟨k, v, hk', hk, h1, h2, h3, ?_⟩
    intro j w hj hw
    exact h4 j w hj (by rw [List.getElem?_take_of_lt (by omega)]; exact hw)

/-- C17, amended, on the state with the broken pubkey index. -/
theorem processValidatorSetCap_error_prefix_witness :
    (exampleProcessor.processValidatorSetCap exampleStateBrokenIndex).2
        = some (.Wrapf "validators cap, failed loading validator index: %w" none
            .PubkeyNotFound) ∧
    ∃ (k : Nat) (v : Validator),
      k < (getActiveVals exampleStateBrokenIndex
            ((GetEpoch exampleProcessor.cs exampleStateBrokenIndex + 1) % 2 ^ 64)).length
          - exampleProcessor.cs.ValidatorSetCap ∧
      (sortFunc validatorCmp (getActiveVals exampleStateBrokenIndex
          ((GetEpoch exampleProcessor.cs exampleStateBrokenIndex + 1) % 2 ^ 64)))[k]?
        = some v ∧
      (exampleProcessor.ejectLoop ((sortFunc validatorCmp
          (getActiveVals exampleStateBrokenIndex
            ((GetEpoch exampleProcessor.cs exampleStateBrokenIndex + 1) % 2 ^ 64))).take k)
          0 exampleStateBrokenIndex).2 = none ∧
      (exampleProcessor.processValidatorSetCap exampleStateBrokenIndex).1
        = (exampleProcessor.ejectLoop ((sortFunc validatorCmp
            (getActiveVals exampleStateBrokenIndex
              ((GetEpoch exampleProcessor.cs exampleStateBrokenIndex + 1) % 2 ^ 64))).take k)
            0 exampleStateBrokenIndex).1 ∧
      ((∃ e, ValidatorIndexByPubkey
            (exampleProcessor.processValidatorSetCap exampleStateBrokenIndex).1 v.Pubkey
              = .error e ∧
          Error.Wrapf "validators cap, failed loading validator index: %w" none .PubkeyNotFound
            = .Wrapf "validators cap, failed loading validator index: %w" none e)
        ∨ (∃ idx e, ValidatorIndexByPubkey
              (exampleProcessor.processValidatorSetCap exampleStateBrokenIndex).1 v.Pubkey
                = .ok idx ∧
            exampleProcessor.InitiateValidatorExit
                (exampleProcessor.processValidatorSetCap exampleStateBrokenIndex).1 idx
              = ((exampleProcessor.processValidatorSetCap exampleStateBrokenIndex).1, some e) ∧
            Error.Wrapf "validators cap, failed loading validator index: %w" none
                .PubkeyNotFound
              = .Wrapf "validator cap, failed ejecting validator idx %d: %w" (some k) e)) ∧
      (∀ (j : Nat) (w : Validator), j < k →
        (sortFunc validatorCmp (getActiveVals exampleStateBrokenIndex
            ((GetEpoch exampleProcessor.cs exampleStateBrokenIndex + 1) % 2 ^ 64)))[j]?
          = some w →
        ∃ idx, ValidatorIndexByPubkey exampleStateBrokenIndex w.Pubkey = .ok idx ∧
          ExitEpochAt (exampleProcessor.processValidatorSetCap exampleStateBrokenIndex).1 idx
            ((GetEpoch exampleProcessor.cs exampleStateBrokenIndex + 1) % 2 ^ 64)) :=
  ⟨by decide, processValidatorSetCap_error_prefix exampleProcessor exampleStateBrokenIndex
    (.Wrapf "validators cap, failed loading validator index: %w" none .PubkeyNotFound)
    (by decide)⟩

/-! ## The validator-set diff: identity, single changes, order -/

theorem filter_eq_singleton {α : Type} (p : α → Bool) :
    ∀ (l : List α) (a : α), l.Nodup → a ∈ l → p a = true →
      (∀ b ∈ l, p b = true → b = a) → l.filter p = [a]
  | [], a, _, ha, _, _ => by cases ha
  | x :: l, a, hn, ha, hpa, hp => by
    rw [List.nodup_cons] at hn
    by_cases hx : x = a
    · subst hx
      rw [List.filter_cons, if_pos hpa]
      congr 1
      rw [List.filter_eq_nil_iff]
      intro b hb hpb
      have := hp b (List.mem_cons_of_mem _ hb) hpb
      subst this
      exact hn.1 hb
    · have hpx : p x ≠ true := fun h => hx (hp x (List.mem_cons_self _ _) h)
      rw [List.filter_cons, if_neg hpx]
      have ha' : a ∈ l := by
        rcases List.mem_cons.1 ha with h | h
        · exact absurd h.symm hx
        · exact h
      exact filter_eq_singleton p l a hn.2 ha' hpa
        (fun b hb hpb => hp b (List.mem_cons_of_mem _ hb) hpb)

/-- C18: for a validator list with pairwise-distinct pubkeys, the diff of the list with itself
is empty. -/
theorem validatorSetsDiffs_self (vals : List Validator)
    (h : (vals.map (fun v => v.Pubkey)).Nodup) : validatorSetsDiffs vals vals = [] := by
  rw [validatorSetsDiffs_eq vals vals h h]
  have h1 : vals.filter (fun v => decide (∀ w ∈ vals, w.Pubkey = v.Pubkey →
      w.EffectiveBalance ≠ v.EffectiveBalance)) = [] := by
    rw [List.filter_eq_nil_iff]
    intro v hv hd
    rw [decide_eq_true_iff] at hd
    exact hd v hv rfl rfl
  have h2 : vals.filter (fun w => decide (∀ v ∈ vals, v.Pubkey ≠ w.Pubkey)) = [] := by
    rw [List.filter_eq_nil_iff]
    intro w hw hd
    rw [decide_eq_true_iff] at hd
    exact hd w hw rfl
  rw [h1, h2]
  rfl

/-- C18 on three validators. -/
theorem validatorSetsDiffs_self_witness :
    (([exampleValidator 1 32, exampleValidator 2 64, exampleValidator 3 16].map
        (fun v => v.Pubkey)).Nodup) ∧
      validatorSetsDiffs [exampleValidator 1 32, exampleValidator 2 64, exampleValidator 3 16]
        [exampleValidator 1 32, exampleValidator 2 64, exampleValidator 3 16] = [] :=
  ⟨by decide, validatorSetsDiffs_self
    [exampleValidator 1 32, exampleValidator 2 64, exampleValidator 3 16] (by decide)⟩

/-- C19: for a validator list `prev` with pairwise-distinct pubkeys: if `curr` is `prev` with
its validator `v` removed, the diff is exactly `[(pubkey of v, 0)]`; if `curr` is `prev` with a
validator `v` of a new pubkey added, the diff is exactly `[(pubkey of v, balance of v)]`.  The
order in which `curr` lists the validators does not matter. -/
theorem validatorSetsDiffs_remove_add (prev curr : List Validator) (v : Validator)
    (hp : (prev.map (fun x => x.Pubkey)).Nodup) :
    (v ∈ prev → curr.Perm (prev.erase v) →
        validatorSetsDiffs prev curr = [⟨v.Pubkey, 0⟩]) ∧
      ((∀ x ∈ prev, x.Pubkey ≠ v.Pubkey) → curr.Perm (v :: prev) →
        validatorSetsDiffs prev curr = [⟨v.Pubkey, v.EffectiveBalance⟩]) := by
  have hpn : prev.Nodup := List.Nodup.of_map _ hp
  constructor
  · intro hv hperm
    have hmem : ∀ c, c ∈ curr ↔ c ∈ prev ∧ c ≠ v := by
      intro c
      rw [hperm.mem_iff, hpn.mem_erase_iff]
      exact and_comm
    have hc : (curr.map (fun x => x.Pubkey)).Nodup :=
      (hperm.map _).nodup_iff.2 (hp.sublist ((List.erase_sublist v prev).map _))
    rw [validatorSetsDiffs_eq prev curr hp hc]
    have h1 : curr.filter (fun c => decide (∀ w ∈ prev, w.Pubkey = c.Pubkey →
        w.EffectiveBalance ≠ c.EffectiveBalance)) = [] := by
      rw [List.filter_eq_nil_iff]
      intro c hcm hd
      rw [decide_eq_true_iff] at hd
      exact hd c ((hmem c).1 hcm).1 rfl rfl
    have h2 : prev.filter (fun w => decide (∀ c ∈ curr, c.Pubkey ≠ w.Pubkey)) = [v] := by
      apply filter_eq_singleton _ prev v hpn hv
      · rw [decide_eq_true_iff]
        intro c hcm hpk
        obtain ⟨hcp, hcv⟩ := (hmem c).1 hcm
        exact hcv (eq_of_pubkey_eq hp hcp hv hpk)
      · intro b hb hd
        rw [decide_eq_true_iff] at hd
        by_contra hbv
        exact hd b ((hmem b).2 ⟨hb, hbv⟩) rfl
    rw [h1, h2]
    rfl
  · intro hnew hperm
    have hvp : ((v :: prev).map (fun x => x.Pubkey)).Nodup := by
      rw [List.map_cons, List.nodup_cons]
      refine ⟨?_, hp⟩
      intro hin
      obtain ⟨x, hx, hxv⟩ := List.mem_map.1 hin
      exact hnew x hx hxv
    have hc : (curr.map (fun x => x.Pubkey)).Nodup := (hperm.map _).nodup_iff.2 hvp
    have hcn : curr.Nodup := List.Nodup.of_map _ hc
    have hmem : ∀ c, c ∈ curr ↔ c = v ∨ c ∈ prev := by
      intro c
      rw [hperm.mem_iff, List.mem_cons]
    rw [validatorSetsDiffs_eq prev curr hp hc]
    have h1 : curr.filter (fun c => decide (∀ w ∈ prev, w.Pubkey = c.Pubkey →
        w.EffectiveBalance ≠ c.EffectiveBalance)) = [v] := by
      apply filter_eq_singleton _ curr v hcn ((hmem v).2 (Or.inl rfl))
      · rw [decide_eq_true_iff]
        intro w hw hpk
        exact absurd hpk (hnew w hw)
      · intro b hb hd
        rw [decide_eq_true_iff] at hd
        rcases (hmem b).1 hb with h | h
        · exact h
        · exact absurd rfl (hd b h rfl)
    have h2 : prev.filter (fun w => decide (∀ c ∈ curr, c.Pubkey ≠ w.Pubkey)) = [] := by
      rw [List.filter_eq_nil_iff]
      intro w hw hd
      rw [decide_eq_true_iff] at hd
      exact hd w ((hmem w).2 (Or.inr hw)) rfl
    rw [h1, h2]
    rfl

/-- C19 on three validators: removing the validator with pubkey byte `2`, and adding a
validator with pubkey byte `4` and balance `7`. -/
theorem validatorSetsDiffs_remove_add_witness :
    (([exampleValidator 1 32, exampleValidator 2 64, exampleValidator 3 16].map
        (fun x => x.Pubkey)).Nodup) ∧
      exampleValidator 2 64
        ∈ [exampleValidator 1 32, exampleValidator 2 64, exampleValidator 3 16] ∧
      validatorSetsDiffs [exampleValidator 1 32, exampleValidator 2 64, exampleValidator 3 16]
          [exampleValidator 1 32, exampleValidator 3 16]
        = [⟨constBytes48 2, 0⟩] ∧
      (∀ x ∈ [exampleValidator 1 32, exampleValidator 2 64, exampleValidator 3 16],
        x.Pubkey ≠ (exampleValidator 4 7).Pubkey) ∧
      validatorSetsDiffs [exampleValidator 1 32, exampleValidator 2 64, exampleValidator 3 16]
          [exampleValidator 1 32, exampleValidator 2 64, exampleValidator 3 16,
            exampleValidator 4 7]
        = [⟨constBytes48 4, 7⟩] :=
  ⟨by decide, by decide,
    (validatorSetsDiffs_remove_add
      [exampleValidator 1 32, exampleValidator 2 64, exampleValidator 3 16]
      [exampleValidator 1 32, exampleValidator 3 16] (exampleValidator 2 64) (by decide)).1
      (by decide) (by decide),
    by decide,
    (validatorSetsDiffs_remove_add
      [exampleValidator 1 32, exampleValidator 2 64, exampleValidator 3 16]
      [exampleValidator 1 32, exampleValidator 2 64, exampleValidator 3 16,
        exampleValidator 4 7] (exampleValidator 4 7) (by decide)).2
      (by decide) (by decide)⟩

/-- C20: `validatorSetsDiffs` is a total function, and for lists with pairwise-distinct
pubkeys its result depends on the order of the validators only up to order: on permutations of
`prev` and `curr` it returns a permutation of the diff of `prev` and `curr`, hence the same
update entries. -/
theorem validatorSetsDiffs_perm (prev curr prev' curr' : List Validator)
    (hp : (prev.map (fun v => v.Pubkey)).Nodup) (hc : (curr.map (fun v => v.Pubkey)).Nodup)
    (hpp : prev'.Perm prev) (hcc : curr'.Perm curr) :
    (validatorSetsDiffs prev' curr').Perm (validatorSetsDiffs prev curr) ∧
      ∀ u : ValidatorUpdate,
        u ∈ validatorSetsDiffs prev' curr' ↔ u ∈ validatorSetsDiffs prev curr := by
  have hp' : (prev'.map (fun v => v.Pubkey)).Nodup := (hpp.map _).nodup_iff.2 hp
  have hc' : (curr'.map (fun v => v.Pubkey)).Nodup := (hcc.map _).nodup_iff.2 hc
  have hperm : (validatorSetsDiffs prev' curr').Perm (validatorSetsDiffs prev curr) := by
    rw [validatorSetsDiffs_eq prev' curr' hp' hc', validatorSetsDiffs_eq prev curr hp hc]
    apply List.Perm.append
    · apply List.Perm.map
      have e : curr.filter (fun v => decide (∀ w ∈ prev', w.Pubkey = v.Pubkey →
            w.EffectiveBalance ≠ v.EffectiveBalance))
          = curr.filter (fun v => decide (∀ w ∈ prev, w.Pubkey = v.Pubkey →
            w.EffectiveBalance ≠ v.EffectiveBalance)) := by
        apply List.filter_congr
        intro v _
        apply decide_eq_decide.2
        constructor
        · intro h w hw; exact h w (hpp.mem_iff.2 hw)
        · intro h w hw; exact h w (hpp.mem_iff.1 hw)
      rw [← e]
      exact hcc.filter _
    · apply List.Perm.map
      have e : prev.filter (fun w => decide (∀ v ∈ curr', v.Pubkey ≠ w.Pubkey))
          = prev.filter (fun w => decide (∀ v ∈ curr, v.Pubkey ≠ w.Pubkey)) := by
        apply List.filter_congr
        intro w _
        apply decide_eq_decide.2
        constructor
        · intro h v hv; exact h v (hcc.mem_iff.2 hv)
        · intro h v hv; exact h v (hcc.mem_iff.1 hv)
      rw [← e]
      exact hpp.filter _
  exact ⟨hperm, fun u => hperm.mem_iff⟩

/-- C20 on three previous and three current validators listed in two orders. -/
theorem validatorSetsDiffs_perm_witness :
    (([exampleValidator 1 32, exampleValidator 2 64, exampleValidator 3 16].map
        (fun v => v.Pubkey)).Nodup) ∧
    (([exampleValidator 2 64, exampleValidator 3 20, exampleValidator 4 7].map
        (fun v => v.Pubkey)).Nodup) ∧
    [exampleValidator 3 16, exampleValidator 1 32, exampleValidator 2 64].Perm
      [exampleValidator 1 32, exampleValidator 2 64, exampleValidator 3 16] ∧
    [exampleValidator 4 7, exampleValidator 3 20, exampleValidator 2 64].Perm
      [exampleValidator 2 64, exampleValidator 3 20, exampleValidator 4 7] ∧
    ((validatorSetsDiffs [exampleValidator 3 16, exampleValidator 1 32, exampleValidator 2 64]
        [exampleValidator 4 7, exampleValidator 3 20, exampleValidator 2 64]).Perm
      (validatorSetsDiffs [exampleValidator 1 32, exampleValidator 2 64, exampleValidator 3 16]
        [exampleValidator 2 64, exampleValidator 3 20, exampleValidator 4 7]) ∧
      ∀ u : ValidatorUpdate,
        u ∈ validatorSetsDiffs
            [exampleValidator 3 16, exampleValidator 1 32, exampleValidator 2 64]
            [exampleValidator 4 7, exampleValidator 3 20, exampleValidator 2 64]
          ↔ u ∈ validatorSetsDiffs
            [exampleValidator 1 32, exampleValidator 2 64, exampleValidator 3 16]
            [exampleValidator 2 64, exampleValidator 3 20, exampleValidator 4 7]) :=
  ⟨by decide, by decide, by decide, by decide,
    validatorSetsDiffs_perm
      [exampleValidator 1 32, exampleValidator 2 64, exampleValidator 3 16]
      [exampleValidator 2 64, exampleValidator 3 20, exampleValidator 4 7]
      [exampleValidator 3 16, exampleValidator 1 32, exampleValidator 2 64]
      [exampleValidator 4 7, exampleValidator 3 20, exampleValidator 2 64]
      (by decide) (by decide) (by decide) (by decide)⟩

/-! ## Registry updates -/

theorem registryUpdatedValidator_pubkey (m c a : Nat) (v : Validator) :
    (registryUpdatedValidator m c a v).Pubkey = v.Pubkey := by
  unfold registryUpdatedValidator
  simp only
  split <;> split <;> rfl

theorem registryUpdatedValidator_frame (m c a : Nat) (v : Validator) :
    (registryUpdatedValidator m c a v).ExitEpoch = v.ExitEpoch ∧
      (registryUpdatedValidator m c a v).EffectiveBalance = v.EffectiveBalance ∧
      (registryUpdatedValidator m c a v).Slashed = v.Slashed ∧
      (registryUpdatedValidator m c a v).WithdrawalCredentials = v.WithdrawalCredentials := by
  unfold registryUpdatedValidator
  simp only
  split <;> split <;> exact ⟨rfl, rfl, rfl, rfl⟩

theorem registryUpdatedValidator_of_not_modified (m c a : Nat) (v : Validator)
    (h : registryValModified m c a v = false) : registryUpdatedValidator m c a v = v := by
  unfold registryValModified at h
  simp only [Bool.or_eq_false_iff] at h
  obtain ⟨h1, h2⟩ := h
  unfold registryUpdatedValidator
  simp only [h1, Bool.false_eq_true, if_false] at h2 ⊢
  simp [h2]

/-- Soundness of the pubkey index depends only on the index and on the pubkeys stored at the
indices. -/
theorem PubkeyIndexSound.of_eq {st st1 : BeaconState} (hs : PubkeyIndexSound st)
    (hidx : st1.PubkeyIndex = st.PubkeyIndex)
    (hpk : st1.Validators.map (fun v => v.Pubkey) = st.Validators.map (fun v => v.Pubkey)) :
    PubkeyIndexSound st1 := by
  intro i idx v hv hl
  have h1 : (st1.Validators.map (fun v => v.Pubkey))[i]? = some v.Pubkey := by
    rw [List.getElem?_map, hv]; rfl
  rw [hpk, List.getElem?_map] at h1
  cases hw : st.Validators[i]? with
  | none => rw [hw] at h1; cases h1
  | some w =>
    rw [hw] at h1
    have hwv : w.Pubkey = v.Pubkey := by simpa using h1
    apply hs i idx w hw
    unfold ValidatorIndexByPubkey at hl ⊢
    rw [hwv, ← hidx]
    exact hl

theorem PubkeyIndexSound.of_consistent {st : BeaconState} (h : PubkeyIndexConsistent st) :
    PubkeyIndexSound st := by
  intro i idx v hv hl
  rw [h i v hv] at hl
  injection hl with hl
  exact hl.symm

theorem set_append_length {α : Type} (pre rest : List α) (a b : α) :
    (pre ++ a :: rest).set pre.length b = pre ++ b :: rest := by
  induction pre with
  | nil => rfl
  | cons x pre ih => simp [ih]

/-- The loop of `processRegistryUpdates` on a state with a sound pubkey index: it rewrites a
prefix of the validators still to visit, in place, and all of them when it succeeds. -/
theorem registryLoop_spec (sp : StateProcessor) (c a : Nat) :
    ∀ (rest : List Validator) (si : Nat) (st : BeaconState) (logged : List BLSPubkey)
      (pre : List Validator),
      st.Validators = pre ++ rest → pre.length = si → PubkeyIndexSound st →
      ∃ k, k ≤ rest.length ∧
        (sp.registryLoop c a rest si st logged).state
          = { st with Validators := pre
                ++ (rest.take k).map (registryUpdatedValidator sp.cs.MinActivationBalance c a)
                ++ rest.drop k } ∧
        ((sp.registryLoop c a rest si st logged).err = none →
          k = rest.length ∧
          (sp.registryLoop c a rest si st logged).logged
            = logged ++ (rest.filter (registryLogsValidator sp.cs c)).map (fun v => v.Pubkey))
  | [], si, st, logged, pre, hv, _, _ => by
    refine ⟨0, le_refl _, ?_, fun _ => ⟨rfl, by simp [StateProcessor.registryLoop]⟩⟩
    simp only [StateProcessor.registryLoop, List.take_nil, List.map_nil, List.drop_nil,
      List.append_nil]
    rw [List.append_nil] at hv
    rw [← hv]
  | val :: rest, si, st, logged, pre, hv, hlen, hs => by
    have hget : st.Validators[si]? = some val := by
      rw [hv, ← hlen, List.getElem?_append_right (le_refl _), Nat.sub_self]
      simp
    have hlog : ∀ l : List BLSPubkey,
        (if registryLogsValidator sp.cs c val then l ++ [val.Pubkey] else l)
            ++ (rest.filter (registryLogsValidator sp.cs c)).map (fun v => v.Pubkey)
          = l ++ ((val :: rest).filter (registryLogsValidator sp.cs c)).map
              (fun v => v.Pubkey) := by
      intro l
      by_cases hl : registryLogsValidator sp.cs c val = true
      · simp [hl, List.filter_cons]
      · simp [hl, List.filter_cons]
    rw [StateProcessor.registryLoop]
    by_cases hm : registryValModified sp.cs.MinActivationBalance c a val = true
    · rw [if_pos hm]
      cases hl : ValidatorIndexByPubkey st
          (registryUpdatedValidator sp.cs.MinActivationBalance c a val).Pubkey with
      | error e =>
        refine ⟨0, Nat.zero_le _, ?_, ?_⟩
        · simp only [List.take_zero, List.map_nil, List.append_nil, List.drop_zero]
          rw [← hv]
        · intro h; cases h
      | ok idx =>
        have hidx : idx = si := by
          rw [registryUpdatedValidator_pubkey] at hl
          exact hs si idx val hget hl
        subst hidx
        have hlt : idx < st.Validators.length := by
          rw [hv, List.length_append, List.length_cons]; omega
        have hupd : UpdateValidatorAtIndex st idx
            (registryUpdatedValidator sp.cs.MinActivationBalance c a val)
            = .ok { st with Validators := (pre
                ++ [registryUpdatedValidator sp.cs.MinActivationBalance c a val]) ++ rest } := by
          unfold UpdateValidatorAtIndex
          rw [if_pos hlt, hv, ← hlen, set_append_length]
          simp
        simp only [hupd]
        have hs1 : PubkeyIndexSound { st with Validators := (pre
            ++ [registryUpdatedValidator sp.cs.MinActivationBalance c a val]) ++ rest } := by
          refine hs.of_eq ?_ ?_
          · rfl
          · simp only
            rw [hv]
            simp [registryUpdatedValidator_pubkey]
        obtain ⟨k, hk, hst, hok⟩ := registryLoop_spec sp c a rest (idx + 1) _
          (if registryLogsValidator sp.cs c val then logged ++ [val.Pubkey] else logged)
          (pre ++ [registryUpdatedValidator sp.cs.MinActivationBalance c a val]) rfl
          (by rw [List.length_append, List.length_singleton, hlen]) hs1
        refine ⟨k + 1, by simp; omega, ?_, ?_⟩
        · rw [hst]
          simp
        · intro h
          obtain ⟨h1, h2⟩ := hok h
          refine ⟨by simp [h1], ?_⟩
          rw [h2, hlog]
    · rw [if_neg hm]
      have hm' : registryValModified sp.cs.MinActivationBalance c a val = false := by
        simpa using hm
      have hsame := registryUpdatedValidator_of_not_modified _ c a val hm'
      obtain ⟨k, hk, hst, hok⟩ := registryLoop_spec sp c a rest (si + 1) st
        (if registryLogsValidator sp.cs c val then logged ++ [val.Pubkey] else logged)
        (pre ++ [val]) (by rw [hv]; simp)
        (by rw [List.length_append, List.length_singleton, hlen]) hs
      refine ⟨k + 1, by simp; omega, ?_, ?_⟩
      · rw [hst]
        simp [hsame]
      · intro h
        obtain ⟨h1, h2⟩ := hok h
        refine ⟨by simp [h1], ?_⟩
        rw [h2, hlog]

/-- What `processRegistryUpdates` leaves behind on a state with a sound pubkey index. -/
theorem processRegistryUpdates_spec (sp : StateProcessor) (st : BeaconState)
    (hs : PubkeyIndexSound st) :
    ∃ k, k ≤ st.Validators.length ∧
      (sp.processRegistryUpdates st).state
        = { st with Validators :=
              (st.Validators.take k).map (registryUpdatedValidator sp.cs.MinActivationBalance
                (GetEpoch sp.cs st) ((GetEpoch sp.cs st + 1) % 2 ^ 64))
              ++ st.Validators.drop k } ∧
      ((sp.processRegistryUpdates st).err = none →
        k = st.Validators.length ∧
        (sp.processRegistryUpdates st).logged
          = (st.Validators.filter (registryLogsValidator sp.cs (GetEpoch sp.cs st))).map
              (fun v => v.Pubkey)) := by
  obtain ⟨k, hk, h1, h2⟩ := registryLoop_spec sp (GetEpoch sp.cs st)
    ((GetEpoch sp.cs st + 1) % 2 ^ 64) st.Validators 0 st [] [] rfl rfl hs
  refine ⟨k, hk, ?_, ?_⟩
  · unfold StateProcessor.processRegistryUpdates GetValidators
    simp only
    rw [h1]
    simp
  · intro h
    unfold StateProcessor.processRegistryUpdates GetValidators at h ⊢
    simp only at h ⊢
    obtain ⟨h3, h4⟩ := h2 h
    exact ⟨h3, by rw [h4]; simp⟩

/-- After a successful `processRegistryUpdates` on a state with a sound pubkey index, every
index holds the updated form of the validator it held before. -/
theorem processRegistryUpdates_getElem? (sp : StateProcessor) (st : BeaconState)
    (hs : PubkeyIndexSound st) (hok : (sp.processRegistryUpdates st).err = none) (i : Nat)
    (v : Validator) (hv : st.Validators[i]? = some v) :
    (sp.processRegistryUpdates st).state.Validators[i]?
      = some (registryUpdatedValidator sp.cs.MinActivationBalance (GetEpoch sp.cs st)
          ((GetEpoch sp.cs st + 1) % 2 ^ 64) v) := by
  obtain ⟨k, _, h1, h2⟩ := processRegistryUpdates_spec sp st hs
  obtain ⟨hk, _⟩ := h2 hok
  rw [h1, hk]
  simp [hv]

theorem exampleRegistryState_consistent : PubkeyIndexConsistent exampleRegistryState := by
  intro i v h
  rcases i with _ | _ | _ | i
  · simp [exampleRegistryState] at h; subst h; rfl
  · simp [exampleRegistryState] at h; subst h; rfl
  · simp [exampleRegistryState] at h; subst h; rfl
  · simp [exampleRegistryState] at h

/-- C21: after a successful `processRegistryUpdates` on a state whose pubkey lookups resolve
validators to their index, every validator whose activation-eligibility epoch was the far-future
sentinel and whose effective balance was at least `MinActivationBalance` has the
activation-eligibility epoch `current + 1` (the 64-bit sum); the activation-eligibility epoch
of every other validator is unchanged. -/
theorem processRegistryUpdates_eligibility (sp : StateProcessor) (st : BeaconState)
    (hs : PubkeyIndexSound st) (hok : (sp.processRegistryUpdates st).err = none) (i : Nat)
    (v : Validator) (hv : st.Validators[i]? = some v) :
    ∃ v' : Validator, (sp.processRegistryUpdates st).state.Validators[i]? = some v' ∧
      v'.Pubkey = v.Pubkey ∧
      v'.ActivationEligibilityEpoch
        = if v.ActivationEligibilityEpoch = FarFutureEpoch
              ∧ sp.cs.MinActivationBalance ≤ v.EffectiveBalance
          then (GetEpoch sp.cs st + 1) % 2 ^ 64 else v.ActivationEligibilityEpoch := by
  refine ⟨_, processRegistryUpdates_getElem? sp st hs hok i v hv,
    registryUpdatedValidator_pubkey _ _ _ _, ?_⟩
  unfold registryUpdatedValidator Validator.IsEligibleForActivationQueue
    Validator.SetActivationEligibilityEpoch Validator.SetActivationEpoch
  simp only [Bool.and_eq_true, decide_eq_true_eq]
  by_cases hq : v.ActivationEligibilityEpoch = FarFutureEpoch
      ∧ sp.cs.MinActivationBalance ≤ v.EffectiveBalance
  · rw [if_pos hq, if_pos hq]
    split <;> rfl
  · rw [if_neg hq, if_neg hq]
    split <;> rfl

/-- C21 on the example registry state at epoch 2: the first validator becomes eligible at
epoch 3. -/
theorem processRegistryUpdates_eligibility_witness :
    PubkeyIndexSound exampleRegistryState ∧
    (exampleProcessor.processRegistryUpdates exampleRegistryState).err = none ∧
    ∃ v' : Validator,
      (exampleProcessor.processRegistryUpdates exampleRegistryState).state.Validators[0]?
        = some v' ∧
      v'.Pubkey = constBytes48 1 ∧
      v'.ActivationEligibilityEpoch = 3 :=
  ⟨PubkeyIndexSound.of_consistent exampleRegistryState_consistent, by decide,
    processRegistryUpdates_eligibility exampleProcessor exampleRegistryState
      (PubkeyIndexSound.of_consistent exampleRegistryState_consistent) (by decide) 0
      ⟨constBytes48 1, constBytes32 0, 32, false, FarFutureEpoch, FarFutureEpoch,
        FarFutureEpoch⟩ rfl⟩

/-- C22: after a successful `processRegistryUpdates` on a state whose pubkey lookups resolve
validators to their index, every validator that was queued for activation before the call
(activation-eligibility epoch at most the current epoch, activation epoch the far-future
sentinel) has the activation epoch `current + 1` (the 64-bit sum), however many validators
that is; the activation epoch of every other validator is unchanged. -/
theorem processRegistryUpdates_activation (sp : StateProcessor) (st : BeaconState)
    (hs : PubkeyIndexSound st) (hok : (sp.processRegistryUpdates st).err = none) (i : Nat)
    (v : Validator) (hv : st.Validators[i]? = some v) :
    ∃ v' : Validator, (sp.processRegistryUpdates st).state.Validators[i]? = some v' ∧
      v'.Pubkey = v.Pubkey ∧
      v'.ActivationEpoch
        = if v.ActivationEligibilityEpoch ≤ GetEpoch sp.cs st
              ∧ v.ActivationEpoch = FarFutureEpoch
          then (GetEpoch sp.cs st + 1) % 2 ^ 64 else v.ActivationEpoch := by
  refine ⟨_, processRegistryUpdates_getElem? sp st hs hok i v hv,
    registryUpdatedValidator_pubkey _ _ _ _, ?_⟩
  have hmod : (GetEpoch sp.cs st + 1) % 2 ^ 64 < 2 ^ 64 := Nat.mod_lt _ (by norm_num)
  have hsmall : GetEpoch sp.cs st + 1 < 2 ^ 64 →
      (GetEpoch sp.cs st + 1) % 2 ^ 64 = GetEpoch sp.cs st + 1 := Nat.mod_eq_of_lt
  unfold registryUpdatedValidator Validator.IsEligibleForActivationQueue
    Validator.IsEligibleForActivation Validator.SetActivationEligibilityEpoch
    Validator.SetActivationEpoch
  simp only [Bool.and_eq_true, decide_eq_true_eq]
  by_cases hq : v.ActivationEligibilityEpoch = FarFutureEpoch
      ∧ sp.cs.MinActivationBalance ≤ v.EffectiveBalance
  · rw [if_pos hq]
    simp only
    have hiff : ((GetEpoch sp.cs st + 1) % 2 ^ 64 ≤ GetEpoch sp.cs st)
        ↔ (v.ActivationEligibilityEpoch ≤ GetEpoch sp.cs st) := by
      rw [hq.1]
      unfold FarFutureEpoch
      constructor
      · intro h
        by_contra hc
        have := hsmall (by omega)
        omega
      · intro h
        omega
    by_cases hc : v.ActivationEligibilityEpoch ≤ GetEpoch sp.cs st
        ∧ v.ActivationEpoch = FarFutureEpoch
    · rw [if_pos hc, if_pos ⟨hiff.2 hc.1, hc.2⟩]
    · rw [if_neg hc, if_neg (fun h => hc ⟨hiff.1 h.1, h.2⟩)]
  · rw [if_neg hq]
    by_cases hc : v.ActivationEligibilityEpoch ≤ GetEpoch sp.cs st
        ∧ v.ActivationEpoch = FarFutureEpoch
    · rw [if_pos hc, if_pos hc]
    · rw [if_neg hc, if_neg hc]

/-- C22 on the example registry state at epoch 2: the second validator, queued since epoch 1,
is activated for epoch 3. -/
theorem processRegistryUpdates_activation_witness :
    PubkeyIndexSound exampleRegistryState ∧
    (exampleProcessor.processRegistryUpdates exampleRegistryState).err = none ∧
    ∃ v' : Validator,
      (exampleProcessor.processRegistryUpdates exampleRegistryState).state.Validators[1]?
        = some v' ∧
      v'.Pubkey = constBytes48 2 ∧
      v'.ActivationEpoch = 3 :=
  ⟨PubkeyIndexSound.of_consistent exampleRegistryState_consistent, by decide,
    processRegistryUpdates_activation exampleProcessor exampleRegistryState
      (PubkeyIndexSound.of_consistent exampleRegistryState_consistent) (by decide) 1
      ⟨constBytes48 2, constBytes32 0, 32, false, 1, FarFutureEpoch, FarFutureEpoch⟩ rfl⟩

/-- C23: on a state whose pubkey lookups resolve validators to their index,
`processRegistryUpdates`, whether it succeeds or fails, leaves the exit epoch, the effective
balance and the slashed flag of every validator as they were; when it succeeds, the validators
it has logged are exactly the validators active at the current epoch whose effective balance
is at most `MinActivationBalance - EffectiveBalanceIncrement`, and these are unchanged in the
three fields like all others. -/
theorem processRegistryUpdates_no_exit (sp : StateProcessor) (st : BeaconState)
    (hs : PubkeyIndexSound st) :
    (∀ (i : Nat) (v : Validator), st.Validators[i]? = some v →
      ∃ v' : Validator, (sp.processRegistryUpdates st).state.Validators[i]? = some v' ∧
        v'.Pubkey = v.Pubkey ∧ v'.ExitEpoch = v.ExitEpoch ∧
        v'.EffectiveBalance = v.EffectiveBalance ∧ v'.Slashed = v.Slashed) ∧
    ((sp.processRegistryUpdates st).err = none →
      (sp.processRegistryUpdates st).logged
        = (st.Validators.filter (fun v => v.IsActive (GetEpoch sp.cs st) &&
            decide (v.EffectiveBalance
              ≤ (sp.cs.MinActivationBalance + 2 ^ 64 - sp.cs.EffectiveBalanceIncrement % 2 ^ 64)
                % 2 ^ 64))).map (fun v => v.Pubkey)) := by
  obtain ⟨k, hk, h1, h2⟩ := processRegistryUpdates_spec sp st hs
  constructor
  · intro i v hv
    have hi : i < st.Validators.length := by
      rcases Nat.lt_or_ge i st.Validators.length with h | h
      · exact h
      · rw [List.getElem?_eq_none h] at hv; cases hv
    rw [h1]
    simp only
    by_cases hik : i < k
    · refine ⟨registryUpdatedValidator sp.cs.MinActivationBalance (GetEpoch sp.cs st)
        ((GetEpoch sp.cs st + 1) % 2 ^ 64) v, ?_, registryUpdatedValidator_pubkey _ _ _ _,
        (registryUpdatedValidator_frame _ _ _ _).1, (registryUpdatedValidator_frame _ _ _ _).2.1,
        (registryUpdatedValidator_frame _ _ _ _).2.2.1⟩
      rw [List.getElem?_append_left (by rw [List.length_map, List.length_take]; omega),
        List.getElem?_map, List.getElem?_take_of_lt hik, hv]
      rfl
    · refine ⟨v, ?_, rfl, rfl, rfl, rfl⟩
      rw [List.getElem?_append_right (by rw [List.length_map, List.length_take]; omega),
        List.length_map, List.length_take, List.getElem?_drop]
      have e : k + (i - min k st.Validators.length) = i := by omega
      rw [e, hv]
  · intro hok
    exact (h2 hok).2

/-- C23 on the example registry state: the third validator, active with balance 10, is logged
and keeps its exit epoch, balance and slashed flag. -/
theorem processRegistryUpdates_no_exit_witness :
    PubkeyIndexSound exampleRegistryState ∧
    ((∀ (i : Nat) (v : Validator), exampleRegistryState.Validators[i]? = some v →
      ∃ v' : Validator,
        (exampleProcessor.processRegistryUpdates exampleRegistryState).state.Validators[i]?
          = some v' ∧
        v'.Pubkey = v.Pubkey ∧ v'.ExitEpoch = v.ExitEpoch ∧
        v'.EffectiveBalance = v.EffectiveBalance ∧ v'.Slashed = v.Slashed) ∧
    ((exampleProcessor.processRegistryUpdates exampleRegistryState).err = none →
      (exampleProcessor.processRegistryUpdates exampleRegistryState).logged
        = (exampleRegistryState.Validators.filter (fun v =>
            v.IsActive (GetEpoch exampleProcessor.cs exampleRegistryState) &&
            decide (v.EffectiveBalance
              ≤ (exampleProcessor.cs.MinActivationBalance + 2 ^ 64
                  - exampleProcessor.cs.EffectiveBalanceIncrement % 2 ^ 64)
                % 2 ^ 64))).map (fun v => v.Pubkey))) ∧
    (exampleProcessor.processRegistryUpdates exampleRegistryState).logged = [constBytes48 3] :=
  ⟨PubkeyIndexSound.of_consistent exampleRegistryState_consistent,
    processRegistryUpdates_no_exit exampleProcessor exampleRegistryState
      (PubkeyIndexSound.of_consistent exampleRegistryState_consistent),
    by decide⟩

/-- An exit initiation keeps the pubkey stored at every index, the balances and the pubkey
index. -/
theorem InitiateValidatorExit_stable (sp : StateProcessor) (st : BeaconState) (idx : Nat) :
    (sp.InitiateValidatorExit st idx).1.Validators.map (fun v => v.Pubkey)
        = st.Validators.map (fun v => v.Pubkey) ∧
      (sp.InitiateValidatorExit st idx).1.Balances = st.Balances ∧
      (sp.InitiateValidatorExit st idx).1.PubkeyIndex = st.PubkeyIndex := by
  unfold StateProcessor.InitiateValidatorExit ValidatorByIndex
  cases hv : st.Validators[idx]? with
  | none => exact ⟨rfl, rfl, rfl⟩
  | some v =>
    simp only
    unfold UpdateValidatorAtIndex
    by_cases hi : idx < st.Validators.length
    · rw [if_pos hi]
      refine ⟨?_, rfl, rfl⟩
      simp only
      apply List.ext_getElem?
      intro j
      rw [List.getElem?_map, List.getElem?_map]
      by_cases hj : idx = j
      · subst hj
        rw [List.getElem?_set_self hi, hv]
        rfl
      · rw [List.getElem?_set_ne hj]
    · rw [if_neg hi]
      exact ⟨rfl, rfl, rfl⟩

/-- The ejection loop keeps the pubkey stored at every index, the balances and the pubkey
index, on every state and whether it succeeds or fails. -/
theorem ejectLoop_stable (sp : StateProcessor) :
    ∀ (E : List Validator) (li : Nat) (st : BeaconState),
      (sp.ejectLoop E li st).1.Validators.map (fun v => v.Pubkey)
          = st.Validators.map (fun v => v.Pubkey) ∧
        (sp.ejectLoop E li st).1.Balances = st.Balances ∧
        (sp.ejectLoop E li st).1.PubkeyIndex = st.PubkeyIndex
  | [], _, _ => ⟨rfl, rfl, rfl⟩
  | v :: E, li, st => by
    rw [StateProcessor.ejectLoop]
    cases hl : ValidatorIndexByPubkey st v.Pubkey with
    | error e => exact ⟨rfl, rfl, rfl⟩
    | ok idx =>
      simp only
      have hst := InitiateValidatorExit_stable sp st idx
      rcases hx : sp.InitiateValidatorExit st idx with ⟨st1, oerr⟩
      rw [hx] at hst
      cases oerr with
      | some e => exact hst
      | none =>
        simp only
        obtain ⟨h1, h2, h3⟩ := ejectLoop_stable sp E (li + 1) st1
        exact ⟨h1.trans hst.1, h2.trans hst.2.1, h3.trans hst.2.2⟩

/-- C24: on a state whose pubkey lookups resolve validators to their index, after
`processRegistryUpdates` and after `processValidatorSetCap`, whether they succeed or fail, the
validator list has the length it had and holds the same pubkey at every index, and the balances
list is unchanged, so that the lengths of the two lists stay equal when they were. -/
theorem registry_stable (sp : StateProcessor) (st : BeaconState) (hs : PubkeyIndexSound st) :
    ((sp.processRegistryUpdates st).state.Validators.length = st.Validators.length ∧
      (sp.processRegistryUpdates st).state.Validators.map (fun v => v.Pubkey)
        = st.Validators.map (fun v => v.Pubkey) ∧
      (sp.processRegistryUpdates st).state.Balances = st.Balances) ∧
    ((sp.processValidatorSetCap st).1.Validators.length = st.Validators.length ∧
      (sp.processValidatorSetCap st).1.Validators.map (fun v => v.Pubkey)
        = st.Validators.map (fun v => v.Pubkey) ∧
      (sp.processValidatorSetCap st).1.Balances = st.Balances) ∧
    (st.Balances.length = st.Validators.length →
      (sp.processRegistryUpdates st).state.Balances.length
          = (sp.processRegistryUpdates st).state.Validators.length ∧
        (sp.processValidatorSetCap st).1.Balances.length
          = (sp.processValidatorSetCap st).1.Validators.length) := by
  have hreg : (sp.processRegistryUpdates st).state.Validators.map (fun v => v.Pubkey)
        = st.Validators.map (fun v => v.Pubkey) ∧
      (sp.processRegistryUpdates st).state.Balances = st.Balances := by
    obtain ⟨k, _, h1, _⟩ := processRegistryUpdates_spec sp st hs
    rw [h1]
    refine ⟨?_, rfl⟩
    simp only [List.map_append, List.map_map]
    have hf : ((fun v : Validator => v.Pubkey) ∘ registryUpdatedValidator
        sp.cs.MinActivationBalance (GetEpoch sp.cs st) ((GetEpoch sp.cs st + 1) % 2 ^ 64))
        = fun v => v.Pubkey := by
      funext v
      exact registryUpdatedValidator_pubkey _ _ _ v
    rw [hf, ← List.map_append, List.take_append_drop]
  have hcap : (sp.processValidatorSetCap st).1.Validators.map (fun v => v.Pubkey)
        = st.Validators.map (fun v => v.Pubkey) ∧
      (sp.processValidatorSetCap st).1.Balances = st.Balances := by
    unfold StateProcessor.processValidatorSetCap
    simp only
    split
    · exact ⟨rfl, rfl⟩
    · exact ⟨(ejectLoop_stable sp _ 0 st).1, (ejectLoop_stable sp _ 0 st).2.1⟩
  have hlen1 : (sp.processRegistryUpdates st).state.Validators.length
      = st.Validators.length := by
    have := congrArg List.length hreg.1
    simpa using this
  have hlen2 : (sp.processValidatorSetCap st).1.Validators.length = st.Validators.length := by
    have := congrArg List.length hcap.1
    simpa using this
  refine ⟨⟨hlen1, hreg⟩, ⟨hlen2, hcap⟩, ?_⟩
  intro hb
  rw [hreg.2, hcap.2, hlen1, hlen2]
  exact ⟨hb, hb⟩

theorem exampleStateBrokenIndex_sound : PubkeyIndexSound exampleStateBrokenIndex := by
  intro i idx v hv hl
  rcases i with _ | _ | _ | _ | _ | i
  · simp [exampleStateBrokenIndex, exampleState] at hv; subst hv; cases hl
  · simp [exampleStateBrokenIndex, exampleState] at hv; subst hv
    injection hl with hl; exact hl.symm
  · simp [exampleStateBrokenIndex, exampleState] at hv; subst hv
    injection hl with hl; exact hl.symm
  · simp [exampleStateBrokenIndex, exampleState] at hv; subst hv
    injection hl with hl; exact hl.symm
  · simp [exampleStateBrokenIndex, exampleState] at hv; subst hv
    injection hl with hl; exact hl.symm
  · simp [exampleStateBrokenIndex, exampleState] at hv

/-- C24 on the state with an entry missing from the pubkey index, on which
`processValidatorSetCap` fails after one ejection. -/
theorem registry_stable_witness :
    PubkeyIndexSound exampleStateBrokenIndex ∧
    (exampleProcessor.processValidatorSetCap exampleStateBrokenIndex).2 ≠ none ∧
    (((exampleProcessor.processRegistryUpdates exampleStateBrokenIndex).state.Validators.length
        = exampleStateBrokenIndex.Validators.length ∧
      (exampleProcessor.processRegistryUpdates exampleStateBrokenIndex).state.Validators.map
          (fun v => v.Pubkey)
        = exampleStateBrokenIndex.Validators.map (fun v => v.Pubkey) ∧
      (exampleProcessor.processRegistryUpdates exampleStateBrokenIndex).state.Balances
        = exampleStateBrokenIndex.Balances) ∧
    ((exampleProcessor.processValidatorSetCap exampleStateBrokenIndex).1.Validators.length
        = exampleStateBrokenIndex.Validators.length ∧
      (exampleProcessor.processValidatorSetCap exampleStateBrokenIndex).1.Validators.map
          (fun v => v.Pubkey)
        = exampleStateBrokenIndex.Validators.map (fun v => v.Pubkey) ∧
      (exampleProcessor.processValidatorSetCap exampleStateBrokenIndex).1.Balances
        = exampleStateBrokenIndex.Balances) ∧
    (exampleStateBrokenIndex.Balances.length = exampleStateBrokenIndex.Validators.length →
      (exampleProcessor.processRegistryUpdates exampleStateBrokenIndex).state.Balances.length
          = (exampleProcessor.processRegistryUpdates
              exampleStateBrokenIndex).state.Validators.length ∧
        (exampleProcessor.processValidatorSetCap exampleStateBrokenIndex).1.Balances.length
          = (exampleProcessor.processValidatorSetCap
              exampleStateBrokenIndex).1.Validators.length)) :=
  ⟨exampleStateBrokenIndex_sound, by decide,
    registry_stable exampleProcessor exampleStateBrokenIndex exampleStateBrokenIndex_sound⟩

/-! ## The payload header builder -/

theorem NewU256FromBigInt_ok (b : Int) (h : 0 ≤ b ∧ b < 2 ^ 256) :
    ∃ u : U256, NewU256FromBigInt b = .ok u ∧ (u.val : Int) = b := by
  unfold NewU256FromBigInt
  rw [dif_pos h]
  exact ⟨_, rfl, Int.toNat_of_nonneg h.1⟩

theorem NewU256FromBigInt_error (b : Int) (h : b < 0 ∨ 2 ^ 256 ≤ b) :
    NewU256FromBigInt b = .error .OverflowError := by
  unfold NewU256FromBigInt
  rw [dif_neg (by omega)]

/-- C25: for every fork version other than `version.Genesis()` and every input,
`executableDataToExecutionPayloadHeader` returns a nil header together with
`ErrForkVersionNotSupported`. -/
theorem executableDataToExecutionPayloadHeader_unsupported (env : PayloadEnv)
    (forkVersion : Version) (data : ExecutableData) (maxWithdrawals : Nat)
    (h : forkVersion ≠ env.Genesis) :
    executableDataToExecutionPayloadHeader env forkVersion data maxWithdrawals
      = (none, some .ErrForkVersionNotSupported) := by
  unfold executableDataToExecutionPayloadHeader
  rw [if_neg h]

/-- C25 at the fork version `5.0.0.0`. -/
theorem executableDataToExecutionPayloadHeader_unsupported_witness :
    (⟨[5, 0, 0, 0], rfl⟩ : Version) ≠ examplePayloadEnv.Genesis ∧
      executableDataToExecutionPayloadHeader examplePayloadEnv ⟨[5, 0, 0, 0], rfl⟩
          (exampleExecutableData 1000) 16
        = (none, some .ErrForkVersionNotSupported) :=
  ⟨by decide, executableDataToExecutionPayloadHeader_unsupported examplePayloadEnv
    ⟨[5, 0, 0, 0], rfl⟩ (exampleExecutableData 1000) 16 (by decide)⟩

/-- C26: for the supported fork version and a base fee that fits 256 bits,
`executableDataToExecutionPayloadHeader` returns a header with a nil error, and the extra data
of the header are the first `min(len(ExtraData), ExtraDataLength)` bytes of the extra data of
the input. -/
theorem executableDataToExecutionPayloadHeader_extraData (env : PayloadEnv)
    (forkVersion : Version) (data : ExecutableData) (maxWithdrawals : Nat)
    (hv : forkVersion = env.Genesis)
    (hb : 0 ≤ data.BaseFeePerGas ∧ data.BaseFeePerGas < 2 ^ 256) :
    ∃ header : ExecutionPayloadHeader,
      executableDataToExecutionPayloadHeader env forkVersion data maxWithdrawals
        = (some header, none) ∧
      header.ExtraData
        = data.ExtraData.take (min data.ExtraData.length env.ExtraDataLength) ∧
      header.ExtraData.length ≤ env.ExtraDataLength := by
  obtain ⟨u, hu, _⟩ := NewU256FromBigInt_ok data.BaseFeePerGas hb
  unfold executableDataToExecutionPayloadHeader
  rw [if_pos hv]
  simp only [hu]
  refine ⟨_, rfl, ?_, ?_⟩
  · simp only
    by_cases hl : data.ExtraData.length > env.ExtraDataLength
    · rw [if_pos hl, Nat.min_eq_right (le_of_lt hl)]
    · rw [if_neg hl, Nat.min_eq_left (by omega), List.take_length]
  · simp only
    by_cases hl : data.ExtraData.length > env.ExtraDataLength
    · rw [if_pos hl, List.length_take]
      omega
    · rw [if_neg hl]
      omega

/-- C26 on an input with 40 bytes of extra data: the header keeps the first 32. -/
theorem executableDataToExecutionPayloadHeader_extraData_witness :
    examplePayloadEnv.Genesis = examplePayloadEnv.Genesis ∧
    (0 ≤ (exampleExecutableData 1000).BaseFeePerGas
      ∧ (exampleExecutableData 1000).BaseFeePerGas < 2 ^ 256) ∧
    ∃ header : ExecutionPayloadHeader,
      executableDataToExecutionPayloadHeader examplePayloadEnv examplePayloadEnv.Genesis
          (exampleExecutableData 1000) 16
        = (some header, none) ∧
      header.ExtraData
        = (exampleExecutableData 1000).ExtraData.take
            (min (exampleExecutableData 1000).ExtraData.length
              examplePayloadEnv.ExtraDataLength) ∧
      header.ExtraData.length ≤ examplePayloadEnv.ExtraDataLength :=
  ⟨rfl, ⟨by norm_num [exampleExecutableData], by norm_num [exampleExecutableData]⟩,
    executableDataToExecutionPayloadHeader_extraData examplePayloadEnv
      examplePayloadEnv.Genesis (exampleExecutableData 1000) 16 rfl ⟨by norm_num [exampleExecutableData], by norm_num [exampleExecutableData]⟩⟩

/-- C27: for the supported fork version, when the base fee is negative or at least `2 ^ 256`
`executableDataToExecutionPayloadHeader` returns a nil header and the conversion error wrapped;
when the base fee fits 256 bits it returns a header whose base fee is the input value. -/
theorem executableDataToExecutionPayloadHeader_baseFee (env : PayloadEnv)
    (forkVersion : Version) (data : ExecutableData) (maxWithdrawals : Nat)
    (hv : forkVersion = env.Genesis) :
    ((data.BaseFeePerGas < 0 ∨ 2 ^ 256 ≤ data.BaseFeePerGas) →
      executableDataToExecutionPayloadHeader env forkVersion data maxWithdrawals
        = (none, some (.Wrapf "failed baseFeePerGas conversion: %w" .OverflowError))) ∧
    ((0 ≤ data.BaseFeePerGas ∧ data.BaseFeePerGas < 2 ^ 256) →
      ∃ header : ExecutionPayloadHeader,
        executableDataToExecutionPayloadHeader env forkVersion data maxWithdrawals
          = (some header, none) ∧
        (header.BaseFeePerGas.val : Int) = data.BaseFeePerGas) := by
  constructor
  · intro h
    unfold executableDataToExecutionPayloadHeader
    rw [if_pos hv]
    simp only [NewU256FromBigInt_error data.BaseFeePerGas h]
  · intro h
    obtain ⟨u, hu, huv⟩ := NewU256FromBigInt_ok data.BaseFeePerGas h
    unfold executableDataToExecutionPayloadHeader
    rw [if_pos hv]
    simp only [hu]
    exact ⟨_, rfl, huv⟩

/-- C27 at the base fees `-1`, `2 ^ 256` and `1000`. -/
theorem executableDataToExecutionPayloadHeader_baseFee_witness :
    executableDataToExecutionPayloadHeader examplePayloadEnv examplePayloadEnv.Genesis
        (exampleExecutableData (-1)) 16
      = (none, some (.Wrapf "failed baseFeePerGas conversion: %w" .OverflowError)) ∧
    executableDataToExecutionPayloadHeader examplePayloadEnv examplePayloadEnv.Genesis
        (exampleExecutableData (2 ^ 256)) 16
      = (none, some (.Wrapf "failed baseFeePerGas conversion: %w" .OverflowError)) ∧
    ∃ header : ExecutionPayloadHeader,
      executableDataToExecutionPayloadHeader examplePayloadEnv examplePayloadEnv.Genesis
          (exampleExecutableData 1000) 16
        = (some header, none) ∧
      (header.BaseFeePerGas.val : Int) = (exampleExecutableData 1000).BaseFeePerGas :=
  ⟨(executableDataToExecutionPayloadHeader_baseFee examplePayloadEnv examplePayloadEnv.Genesis
      (exampleExecutableData (-1)) 16 rfl).1 (Or.inl (by norm_num [exampleExecutableData])),
    (executableDataToExecutionPayloadHeader_baseFee examplePayloadEnv examplePayloadEnv.Genesis
      (exampleExecutableData (2 ^ 256)) 16 rfl).1 (Or.inr (by norm_num [exampleExecutableData])),
    (executableDataToExecutionPayloadHeader_baseFee examplePayloadEnv examplePayloadEnv.Genesis
      (exampleExecutableData 1000) 16 rfl).2 ⟨by norm_num [exampleExecutableData], by norm_num [exampleExecutableData]⟩⟩

/-- C28: whenever `executableDataToExecutionPayloadHeader` returns a header, its parent hash,
fee recipient, state root, receipts root, logs bloom, number, gas limit, gas used and
timestamp are those of the input, and its two blob-gas fields are the values of the input
where present and `0` where the input has none. -/
theorem executableDataToExecutionPayloadHeader_fields (env : PayloadEnv)
    (forkVersion : Version) (data : ExecutableData) (maxWithdrawals : Nat)
    (header : ExecutionPayloadHeader)
    (h : (executableDataToExecutionPayloadHeader env forkVersion data maxWithdrawals).1
      = some header) :
    header.ParentHash = data.ParentHash ∧ header.FeeRecipient = data.FeeRecipient ∧
      header.StateRoot = data.StateRoot ∧ header.ReceiptsRoot = data.ReceiptsRoot ∧
      header.LogsBloom = data.LogsBloom ∧ header.Number = data.Number ∧
      header.GasLimit = data.GasLimit ∧ header.GasUsed = data.GasUsed ∧
      header.Timestamp = data.Timestamp ∧
      header.BlobGasUsed = data.BlobGasUsed.getD 0 ∧
      header.ExcessBlobGas = data.ExcessBlobGas.getD 0 ∧
      (executableDataToExecutionPayloadHeader env forkVersion data maxWithdrawals).2
        = none := by
  unfold executableDataToExecutionPayloadHeader at h ⊢
  by_cases hv : forkVersion = env.Genesis
  · rw [if_pos hv] at h ⊢
    cases hu : NewU256FromBigInt data.BaseFeePerGas with
    | error e => simp [hu] at h
    | ok u =>
      rw [hu] at h
      have h' := Option.some.inj h
      subst h'
      refine ⟨rfl, rfl, rfl, rfl, rfl, rfl, rfl, rfl, rfl, ?_, ?_, rfl⟩
      · cases data.BlobGasUsed <;> rfl
      · cases data.ExcessBlobGas <;> rfl
  · rw [if_neg hv] at h
    cases h

/-- C28 on the example input, which has no `BlobGasUsed` and the `ExcessBlobGas` 11. -/
theorem executableDataToExecutionPayloadHeader_fields_witness :
    ∃ header : ExecutionPayloadHeader,
      (executableDataToExecutionPayloadHeader examplePayloadEnv examplePayloadEnv.Genesis
        (exampleExecutableData 1000) 16).1 = some header ∧
      header.ParentHash = (exampleExecutableData 1000).ParentHash ∧
      header.FeeRecipient = (exampleExecutableData 1000).FeeRecipient ∧
      header.StateRoot = (exampleExecutableData 1000).StateRoot ∧
      header.ReceiptsRoot = (exampleExecutableData 1000).ReceiptsRoot ∧
      header.LogsBloom = (exampleExecutableData 1000).LogsBloom ∧
      header.Number = (exampleExecutableData 1000).Number ∧
      header.GasLimit = (exampleExecutableData 1000).GasLimit ∧
      header.GasUsed = (exampleExecutableData 1000).GasUsed ∧
      header.Timestamp = (exampleExecutableData 1000).Timestamp ∧
      header.BlobGasUsed = 0 ∧
      header.ExcessBlobGas = 11 ∧
      (executableDataToExecutionPayloadHeader examplePayloadEnv examplePayloadEnv.Genesis
        (exampleExecutableData 1000) 16).2 = none := by
  obtain ⟨header, hh, _⟩ := (executableDataToExecutionPayloadHeader_baseFee examplePayloadEnv
    examplePayloadEnv.Genesis (exampleExecutableData 1000) 16 rfl).2 ⟨by norm_num [exampleExecutableData], by norm_num [exampleExecutableData]⟩
  have hfst : (executableDataToExecutionPayloadHeader examplePayloadEnv
      examplePayloadEnv.Genesis (exampleExecutableData 1000) 16).1 = some header := by
    rw [hh]
  exact ⟨header, hfst, executableDataToExecutionPayloadHeader_fields examplePayloadEnv
    examplePayloadEnv.Genesis (exampleExecutableData 1000) 16 header hfst⟩

/-! ## Gwei and the hash tree root of a `U64` -/

theorem ediv_GWei_nonneg_iff (wei : Int) : 0 ≤ Int.ediv wei (GWei : Int) ↔ 0 ≤ wei := by
  have hpos : (0 : Int) < (GWei : Int) := by unfold GWei; norm_num
  show 0 ≤ wei / (GWei : Int) ↔ 0 ≤ wei
  exact Int.div_nonneg_iff_of_pos hpos

theorem ediv_GWei_lt_iff (wei : Int) :
    Int.ediv wei (GWei : Int) < 2 ^ 64 ↔ wei < 2 ^ 64 * 10 ^ 9 := by
  have hpos : (0 : Int) < (GWei : Int) := by unfold GWei; norm_num
  have hg : (GWei : Int) = 10 ^ 9 := by unfold GWei; norm_num
  have h := Int.ediv_lt_iff_lt_mul (a := wei) (b := 2 ^ 64) hpos
  rw [hg] at h ⊢
  exact h

/-- C29: `GweiFromWei` returns `ErrGweiOverflow` exactly when `wei < 0` or
`wei ≥ 2 ^ 64 * 10 ^ 9`; otherwise it returns the floor of `wei / 10 ^ 9` with a nil error. -/
theorem GweiFromWei_spec (wei : Int) :
    ((GweiFromWei wei).err = some .ErrGweiOverflow ↔ (wei < 0 ∨ 2 ^ 64 * 10 ^ 9 ≤ wei)) ∧
      (¬ (wei < 0 ∨ 2 ^ 64 * 10 ^ 9 ≤ wei) →
        (GweiFromWei wei).err = none ∧
        ((GweiFromWei wei).gwei : Int) = ⌊(wei : ℚ) / 10 ^ 9⌋) := by
  have h1 := ediv_GWei_nonneg_iff wei
  have h2 := ediv_GWei_lt_iff wei
  have hfloor : ⌊(wei : ℚ) / 10 ^ 9⌋ = Int.ediv wei (GWei : Int) := by
    have := Rat.floor_intCast_div_natCast wei (10 ^ 9)
    rw [show ((10 ^ 9 : ℕ) : ℚ) = (10 : ℚ) ^ 9 by norm_num] at this
    rw [this]
    unfold GWei
    rfl
  unfold GweiFromWei
  simp only
  by_cases hr : 0 ≤ Int.ediv wei (GWei : Int) ∧ Int.ediv wei (GWei : Int) < 2 ^ 64
  · rw [if_neg (not_not.2 hr)]
    have hw : ¬ (wei < 0 ∨ 2 ^ 64 * 10 ^ 9 ≤ wei) := by
      have := h1.1 hr.1
      have := h2.1 hr.2
      omega
    refine ⟨⟨fun h => (by cases h), fun h => absurd h hw⟩, fun _ => ⟨rfl, ?_⟩⟩
    rw [hfloor]
    have hnat : ((Int.ediv wei (GWei : Int)).toNat : Int) = Int.ediv wei (GWei : Int) :=
      Int.toNat_of_nonneg hr.1
    have hlt : (Int.ediv wei (GWei : Int)).toNat < 2 ^ 64 := by
      have : ((Int.ediv wei (GWei : Int)).toNat : Int) < ((2 ^ 64 : Nat) : Int) := by
        rw [hnat]; exact_mod_cast hr.2
      exact_mod_cast this
    simp only
    rw [Nat.mod_eq_of_lt hlt, hnat]
  · rw [if_pos hr]
    have hw : wei < 0 ∨ 2 ^ 64 * 10 ^ 9 ≤ wei := by
      by_contra hc
      apply hr
      constructor
      · apply h1.2; omega
      · apply h2.2; omega
    exact ⟨⟨fun _ => hw, fun _ => rfl⟩, fun h => absurd hw h⟩

theorem putUint64LE_value (u : Nat) (h : u < 2 ^ 64) : littleEndianValue (putUint64LE u) = u := by
  have e : putUint64LE u = [u / 256 ^ 0 % 256, u / 256 ^ 1 % 256, u / 256 ^ 2 % 256,
      u / 256 ^ 3 % 256, u / 256 ^ 4 % 256, u / 256 ^ 5 % 256, u / 256 ^ 6 % 256,
      u / 256 ^ 7 % 256] := rfl
  rw [e]
  simp only [littleEndianValue]
  norm_num at h ⊢
  omega

/-- C30: for a 64-bit `u`, the first eight bytes of `U64.HashTreeRoot(u)` are the
little-endian encoding of `u`, the other 24 bytes are zero, and two 64-bit values with the
same root are equal. -/
theorem U64HashTreeRoot_spec (u : Nat) (hu : u < 2 ^ 64) :
    littleEndianValue ((U64HashTreeRoot u).val.take 8) = u ∧
      (∀ b ∈ (U64HashTreeRoot u).val, b < 256) ∧
      (U64HashTreeRoot u).val.drop 8 = List.replicate 24 0 ∧
      (U64HashTreeRoot u).val.length = 32 ∧
      (∀ w : Nat, w < 2 ^ 64 → U64HashTreeRoot u = U64HashTreeRoot w → u = w) := by
  have hlen : ∀ x : Nat, (putUint64LE x).length = 8 := fun x => by simp [putUint64LE]
  have htake : ∀ x : Nat, (U64HashTreeRoot x).val.take 8 = putUint64LE x := by
    intro x
    unfold U64HashTreeRoot
    simp only
    rw [List.take_append_of_le_length (by rw [hlen]), ← hlen x, List.take_length]
  refine ⟨by rw [htake, putUint64LE_value u hu], ?_, ?_, (U64HashTreeRoot u).property, ?_⟩
  · intro b hb
    unfold U64HashTreeRoot at hb
    simp only [List.mem_append] at hb
    rcases hb with hb | hb
    · unfold putUint64LE at hb
      obtain ⟨k, _, hk⟩ := List.mem_map.1 hb
      rw [← hk]
      exact Nat.mod_lt _ (by norm_num)
    · have : b = 0 := by
        have hb' := List.mem_of_mem_drop hb
        exact List.eq_of_mem_replicate hb'
      omega
  · unfold U64HashTreeRoot
    simp only
    rw [List.drop_append_of_le_length (by rw [hlen]), ← hlen u, List.drop_length]
    rfl
  · intro w hw heq
    have h1 := putUint64LE_value u hu
    have h2 := putUint64LE_value w hw
    rw [← htake u, heq, htake w, h2] at h1
    exact h1.symm

/-- C29 at `-1` Wei, at the bound `2 ^ 64 * 10 ^ 9` Wei and at `2500000000` Wei. -/
theorem GweiFromWei_spec_witness :
    (GweiFromWei (-1)).err = some .ErrGweiOverflow ∧
      (GweiFromWei (2 ^ 64 * 10 ^ 9)).err = some .ErrGweiOverflow ∧
      (GweiFromWei 2500000000).err = none ∧
      ((GweiFromWei 2500000000).gwei : Int) = ⌊((2500000000 : Int) : ℚ) / 10 ^ 9⌋ :=
  ⟨(GweiFromWei_spec (-1)).1.2 (Or.inl (by norm_num)),
    (GweiFromWei_spec (2 ^ 64 * 10 ^ 9)).1.2 (Or.inr (le_refl _)),
    ((GweiFromWei_spec 2500000000).2 (by norm_num)).1,
    ((GweiFromWei_spec 2500000000).2 (by norm_num)).2⟩

/-- C30 at `u = 258`: the root starts with the bytes `2, 1`. -/
theorem U64HashTreeRoot_spec_witness :
    258 < 2 ^ 64 ∧
      littleEndianValue ((U64HashTreeRoot 258).val.take 8) = 258 ∧
      (∀ b ∈ (U64HashTreeRoot 258).val, b < 256) ∧
      (U64HashTreeRoot 258).val.drop 8 = List.replicate 24 0 ∧
      (U64HashTreeRoot 258).val.length = 32 ∧
      (∀ w : Nat, w < 2 ^ 64 → U64HashTreeRoot 258 = U64HashTreeRoot w → 258 = w) :=
  ⟨by norm_num, U64HashTreeRoot_spec 258 (by norm_num)⟩

/-! ## Building a block -/

/-- C31: for every slot, proposer index and parent root, `NewBeaconBlockWithVersion` with the
fork version `version.Deneb` returns, with a nil error, a block carrying exactly that slot,
proposer index and parent root, an all-zero state root and the empty body; for every other fork
version it returns a nil block and an error that wraps `ErrForkVersionNotSupported`. -/
theorem NewBeaconBlockWithVersion_spec (deneb slot proposerIndex : Nat)
    (parentBlockRoot : Bytes32) (forkVersion : Nat) :
    (forkVersion = deneb →
      ∃ b : BeaconBlock,
        NewBeaconBlockWithVersion deneb slot proposerIndex parentBlockRoot forkVersion
          = (some b, none) ∧
        b.Slot = slot ∧ b.ProposerIndex = proposerIndex ∧ b.ParentRoot = parentBlockRoot ∧
        b.StateRoot.val = List.replicate 32 0 ∧ b.Body = BeaconBlockBody.zeroValue) ∧
    (forkVersion ≠ deneb →
      ∃ e : PayloadError,
        NewBeaconBlockWithVersion deneb slot proposerIndex parentBlockRoot forkVersion
          = (none, some e) ∧
        e.Is .ErrForkVersionNotSupported = true) := by
  constructor
  · intro h
    refine ⟨⟨slot, proposerIndex, parentBlockRoot, zeroBytes32, BeaconBlockBody.zeroValue⟩, ?_,
      rfl, rfl, rfl, rfl, rfl⟩
    unfold NewBeaconBlockWithVersion
    rw [if_pos h]
  · intro h
    refine ⟨.Wrapf ("fork " ++ toString forkVersion) .ErrForkVersionNotSupported, ?_, ?_⟩
    · unfold NewBeaconBlockWithVersion
      rw [if_neg h]
    · simp [PayloadError.Is]

/-- C31 with `version.Deneb = 4`: the fork version `4` gives a block of slot `7` and proposer
`3`, the fork version `5` gives an error wrapping `ErrForkVersionNotSupported`. -/
theorem NewBeaconBlockWithVersion_spec_witness :
    (∃ b : BeaconBlock,
        NewBeaconBlockWithVersion 4 7 3 (constBytes32 1) 4 = (some b, none) ∧
        b.Slot = 7 ∧ b.ProposerIndex = 3 ∧ b.ParentRoot = constBytes32 1 ∧
        b.StateRoot.val = List.replicate 32 0 ∧ b.Body = BeaconBlockBody.zeroValue) ∧
    (∃ e : PayloadError,
        NewBeaconBlockWithVersion 4 7 3 (constBytes32 1) 5 = (none, some e) ∧
        e.Is .ErrForkVersionNotSupported = true) :=
  ⟨(NewBeaconBlockWithVersion_spec 4 7 3 (constBytes32 1) 4).1 rfl,
    (NewBeaconBlockWithVersion_spec 4 7 3 (constBytes32 1) 5).2 (by decide)⟩

/-! ## The SSZ encoding of the deposit message -/

theorem putUint64LE_length (v : Nat) : (putUint64LE v).length = 8 := by
  simp [putUint64LE]

theorem DepositMessage.encoding_length (m : DepositMessage) :
    m.encoding.length = DepositMessage.SizeSSZ := by
  unfold DepositMessage.encoding DepositMessage.SizeSSZ
  rw [List.length_append, List.length_append, m.Pubkey.property, m.Credentials.property,
    putUint64LE_length]

/-- Decoding the encoding of a deposit message with a 64-bit amount gives the message back. -/
theorem DepositMessage.UnmarshalSSZ_encoding (m : DepositMessage) (h : m.Amount < 2 ^ 64) :
    DepositMessage.UnmarshalSSZ m.encoding = .ok m := by
  unfold DepositMessage.UnmarshalSSZ
  rw [dif_pos m.encoding_length]
  obtain ⟨⟨pk, hpk⟩, ⟨cr, hcr⟩, am⟩ := m
  have h1 : (pk ++ cr ++ putUint64LE am).take 48 = pk := by
    rw [List.append_assoc, List.take_append_of_le_length (by omega), List.take_of_length_le (by omega)]
  have h2 : ((pk ++ cr ++ putUint64LE am).drop 48).take 32 = cr := by
    rw [List.append_assoc, List.drop_append_of_le_length (by omega),
      List.drop_of_length_le (by omega), List.nil_append,
      List.take_append_of_le_length (by omega), List.take_of_length_le (by omega)]
  have h3 : (pk ++ cr ++ putUint64LE am).drop 80 = putUint64LE am := by
    have e : (pk ++ cr).length = 80 := by rw [List.length_append, hpk, hcr]
    rw [← e, List.drop_left]
  simp only [DepositMessage.encoding, h1, h2, h3]
  simp only at h
  rw [putUint64LE_value am h]

/-- C32: for every deposit message with a 64-bit amount, `MarshalSSZ` succeeds, and so does
`MarshalSSZTo` on a buffer of the size of the object; `UnmarshalSSZ` applied to the bytes either
of them produces succeeds and yields a deposit message equal to the original. -/
theorem DepositMessage_ssz_roundtrip (m : DepositMessage) (hamount : m.Amount < 2 ^ 64)
    (buf : List Nat) (hbuf : buf.length = DepositMessage.SizeSSZ) :
    (m.MarshalSSZ).2 = none ∧ DepositMessage.UnmarshalSSZ (m.MarshalSSZ).1 = .ok m ∧
      (m.MarshalSSZTo buf).2 = none ∧ DepositMessage.UnmarshalSSZ (m.MarshalSSZTo buf).1 = .ok m := by
  have hto : ∀ b : List Nat, b.length = DepositMessage.SizeSSZ →
      m.MarshalSSZTo b = (m.encoding, none) := by
    intro b hb
    unfold DepositMessage.MarshalSSZTo
    rw [if_neg (by omega), List.drop_of_length_le (by omega), List.append_nil]
  have hrep : (List.replicate DepositMessage.SizeSSZ 0).length = DepositMessage.SizeSSZ :=
    List.length_replicate _ _
  unfold DepositMessage.MarshalSSZ
  rw [hto _ hrep, hto buf hbuf]
  exact ⟨rfl, DepositMessage.UnmarshalSSZ_encoding m hamount, rfl,
    DepositMessage.UnmarshalSSZ_encoding m hamount⟩

/-- C32 on the message of the tests: zero pubkey, zero credentials, amount 1000, and a buffer
of 88 bytes. -/
theorem DepositMessage_ssz_roundtrip_witness :
    (exampleDepositMessage.MarshalSSZ).2 = none ∧
      DepositMessage.UnmarshalSSZ (exampleDepositMessage.MarshalSSZ).1 = .ok exampleDepositMessage ∧
      (exampleDepositMessage.MarshalSSZTo (List.replicate 88 5)).2 = none ∧
      DepositMessage.UnmarshalSSZ (exampleDepositMessage.MarshalSSZTo (List.replicate 88 5)).1
        = .ok exampleDepositMessage :=
  DepositMessage_ssz_roundtrip exampleDepositMessage (by norm_num [exampleDepositMessage])
    (List.replicate 88 5) (by simp [DepositMessage.SizeSSZ])

/-! ## A root from a hex string -/

/-- A string of an even number of hex digits decodes to half as many bytes. -/
theorem decodeHexDigits_ok : ∀ (digits : List Char),
    (∀ c ∈ digits, (hexDigitValue c).isSome = true) → digits.length % 2 = 0 →
    ∃ bs, decodeHexDigits digits = .ok bs ∧ 2 * bs.length = digits.length
  | [], _, _ => ⟨[], rfl, rfl⟩
  | [_], _, h => by simp at h
  | a :: b :: rest, hall, hlen => by
    have ha : (hexDigitValue a).isSome = true := hall a (by simp)
    have hb : (hexDigitValue b).isSome = true := hall b (by simp)
    obtain ⟨x, hx⟩ := Option.isSome_iff_exists.1 ha
    obtain ⟨y, hy⟩ := Option.isSome_iff_exists.1 hb
    obtain ⟨bs, hbs, hl⟩ := decodeHexDigits_ok rest
      (fun c hc => hall c (by simp [hc])) (by simp only [List.length_cons] at hlen; omega)
    refine ⟨(16 * x + y) :: bs, ?_, ?_⟩
    · simp only [decodeHexDigits, hx, hy, hbs]
    · simp only [List.length_cons]; omega

/-- C33: `NewRootFromHex` returns a value or an error for every string; it fails with
`hex.ErrEmptyString` for the empty string, fails with `bytes.ErrIncorrectLength` for `0x`
followed by an even number of hex digits other than 64, fewer or more, and succeeds for `0x`
followed by exactly 64 hex digits, with the 32 bytes they stand for. -/
theorem NewRootFromHex_spec :
    NewRootFromHex "" = .error .ErrEmptyString ∧
    (∀ digits : List Char, (∀ c ∈ digits, (hexDigitValue c).isSome = true) →
      digits.length % 2 = 0 → digits.length / 2 ≠ RootSize →
      NewRootFromHex (String.mk ('0' :: 'x' :: digits)) = .error .ErrIncorrectLength) ∧
    (∀ digits : List Char, (∀ c ∈ digits, (hexDigitValue c).isSome = true) →
      digits.length = 2 * RootSize →
      ∃ r : Bytes32, NewRootFromHex (String.mk ('0' :: 'x' :: digits)) = .ok r ∧
        decodeHexDigits digits = .ok r.val) := by
  have hpre : ∀ digits : List Char,
      hex.ToBytes (String.mk ('0' :: 'x' :: digits)) = decodeHexDigits digits := by
    intro digits
    simp [hex.ToBytes]
  refine ⟨rfl, ?_, ?_⟩
  · intro digits hall heven hne
    obtain ⟨bs, hbs, hl⟩ := decodeHexDigits_ok digits hall heven
    unfold NewRootFromHex
    rw [hpre, hbs]
    simp only
    rw [dif_neg (by omega)]
  · intro digits hall hlen
    obtain ⟨bs, hbs, hl⟩ := decodeHexDigits_ok digits hall (by omega)
    have hb : bs.length = RootSize := by omega
    refine ⟨⟨bs, hb⟩, ?_, hbs⟩
    unfold NewRootFromHex
    rw [hpre, hbs]
    simp only
    rw [dif_pos hb]

/-- C33 on the strings of the tests: `0x` followed by 62 and by 66 digits `f` gives
`bytes.ErrIncorrectLength`, `0x` followed by 64 digits `f` gives a root. -/
theorem NewRootFromHex_spec_witness :
    NewRootFromHex (String.mk ('0' :: 'x' :: List.replicate 62 'f')) = .error .ErrIncorrectLength ∧
    NewRootFromHex (String.mk ('0' :: 'x' :: List.replicate 66 'f')) = .error .ErrIncorrectLength ∧
    ∃ r : Bytes32, NewRootFromHex (String.mk ('0' :: 'x' :: List.replicate 64 'f')) = .ok r ∧
      decodeHexDigits (List.replicate 64 'f') = .ok r.val :=
  have hf : ∀ n : Nat, ∀ c ∈ List.replicate n 'f', (hexDigitValue c).isSome = true := by
    intro n c hc
    rw [List.eq_of_mem_replicate hc]
    decide
  ⟨NewRootFromHex_spec.2.1 (List.replicate 62 'f') (hf 62) (by simp) (by simp [RootSize]),
    NewRootFromHex_spec.2.1 (List.replicate 66 'f') (hf 66) (by simp) (by simp [RootSize]),
    NewRootFromHex_spec.2.2 (List.replicate 64 'f') (hf 64) (by simp [RootSize])⟩

/-! ## The single node left by the layer reductions -/

/-- The first loop of `NewRootWithDepth` on a non-empty layer of at most `2 ^ n` nodes either
stops with the error of `rootHashFn` or leaves exactly one node after its `n` reductions. -/
theorem hashLayers_single {R : Type} (rh : RootHasher R) (hk : RootHashFnKeepsLength rh)
    (Z : Nat → R) :
    ∀ (n i : Nat) (xs : List R) (c : Nat), 1 ≤ xs.length → xs.length ≤ 2 ^ n →
      (∃ e c1, hashLayers rh Z n i xs c = (.error e, c1))
        ∨ (∃ h c1, hashLayers rh Z n i xs c = (.ok [h], c1))
  | 0, _, xs, c, h1, h2 => by
    simp only [pow_zero] at h2
    obtain ⟨h, hh⟩ := List.length_eq_one.1 (le_antisymm h2 h1)
    exact Or.inr ⟨h, c, by rw [hh]; rfl⟩
  | n + 1, i, xs, c, h1, h2 => by
    have hp : 2 ^ (n + 1) = 2 * 2 ^ n := by rw [pow_succ]; ring
    have hlen : (if xs.length % 2 = 1 then xs ++ [Z i] else xs).length ≥ (xs.length + 1) / 2 := by
      split
      · rw [List.length_append, List.length_singleton]; omega
      · omega
    cases hr : rh.rootHashFn (if xs.length % 2 = 1 then xs ++ [Z i] else xs)
        (if xs.length % 2 = 1 then xs ++ [Z i] else xs) with
    | error code =>
      refine Or.inl ⟨.HashFnFailed code, c + 1, ?_⟩
      simp only [hashLayers, hr]
    | ok out =>
      have ho := hk _ _ _ hr
      have ht : (out.take ((xs.length + 1) / 2)).length = (xs.length + 1) / 2 := by
        rw [List.length_take]; omega
      have ih := hashLayers_single rh hk Z n (i + 1) (out.take ((xs.length + 1) / 2)) (c + 1)
        (by omega) (by omega)
      simp only [hashLayers, hr]
      exact ih

theorem pairwiseRootHashFn_keepsLength {R : Type} (C : R → R → R) :
    RootHashFnKeepsLength ⟨C, pairwiseRootHashFn C⟩ := by
  intro out inp res h
  simp only [pairwiseRootHashFn] at h
  split at h
  · next hc =>
    injection h with h
    rw [← h, List.length_append, pairUp_length, List.length_drop]
    omega
  · cases h

/-- What `NewRootWithDepth` returns on a non-empty leaf sequence, by the outcome of its first
loop: the error of `rootHashFn` next to `Hashes[limitDepth]`, or, from a single remaining node,
the result of the second loop with a nil error. -/
theorem NewRootWithDepth_of_hashLayers {R : Type} (rh : RootHasher R) (Z : Nat → R)
    (leaves : List R) (d D : Nat) (h1 : 1 ≤ leaves.length) :
    (∀ e c, hashLayers rh Z d 0 leaves 0 = (.error e, c) →
      NewRootWithDepth rh Z leaves d D = ⟨Z D, some e, c⟩) ∧
    (∀ h c, hashLayers rh Z d 0 leaves 0 = (.ok [h], c) →
      NewRootWithDepth rh Z leaves d D
        = ⟨(combiLoop rh Z (D - d) d h c).1, none, (combiLoop rh Z (D - d) d h c).2⟩) := by
  constructor
  · intro e c he
    unfold NewRootWithDepth
    rw [if_neg (by omega), he]
  · intro h c hh
    unfold NewRootWithDepth
    rw [if_neg (by omega), hh]

/-- For a non-empty leaf sequence within a limit of at most `2 ^ 63`, `NewRootWithMaxLeaves`
returns what `NewRootWithDepth` returns at the depth of the leaves and the depth of the limit;
this holds for a single leaf under limit 1 as well, where both depths are zero and both loops are
empty. -/
theorem NewRootWithMaxLeaves_eq_NewRootWithDepth {R : Type} (rh : RootHasher R) (Z : Nat → R)
    (leaves : List R) (limit : Nat)
    (h1 : 1 ≤ leaves.length) (h3 : leaves.length ≤ limit) (h2 : limit ≤ 2 ^ 63) :
    NewRootWithMaxLeaves rh Z leaves limit
      = NewRootWithDepth rh Z leaves (ILog2Ceil (NextPowerOfTwo leaves.length))
          (ILog2Ceil (NextPowerOfTwo limit)) := by
  unfold NewRootWithMaxLeaves
  rw [if_neg (by omega), if_neg (by omega)]
  split
  · next h =>
    obtain ⟨hlim, hlen⟩ := h
    obtain ⟨x, hx⟩ := List.length_eq_one.1 hlen
    subst hx
    subst hlim
    have hz : ILog2Ceil (NextPowerOfTwo 1) = 0 := by
      rw [depth_eq_clog (by norm_num)]
      exact Nat.clog_one_right 2
    simp only [List.length_singleton, hz]
    simp [NewRootWithDepth, hashLayers, combiLoop]
  · rfl

/-- C34: for a non-empty leaf sequence and a limit with `len(leaves) ≤ limit ≤ 2 ^ 63`,
`NewRootWithMaxLeaves` returns what the call `NewRootWithDepth(leaves, depth, limitDepth)`
returns, where `depth = ILog2Ceil(NextPowerOfTwo(count))` is the least `d` with `2 ^ d ≥ count`
and is at most `limitDepth`.  In that call the loop of the `depth` layer reductions either stops
with the error of `rootHashFn`, which is returned, or leaves exactly one node, from which the
second loop computes the root returned with a nil error: the branch that returns
`Hashes[limitDepth]` for `len(leaves) != 1` is never taken.  With a `rootHashFn` that meets its
contract the reductions leave exactly one node, after `depth` invocations. -/
theorem NewRootWithMaxLeaves_single_node {R : Type} (rh : RootHasher R) (Z : Nat → R)
    (leaves : List R) (limit : Nat) (hk : RootHashFnKeepsLength rh)
    (h1 : 1 ≤ leaves.length) (h3 : leaves.length ≤ limit) (h2 : limit ≤ 2 ^ 63) :
    (∀ d : Nat, ILog2Ceil (NextPowerOfTwo leaves.length) ≤ d ↔ leaves.length ≤ 2 ^ d) ∧
    ILog2Ceil (NextPowerOfTwo leaves.length) ≤ ILog2Ceil (NextPowerOfTwo limit) ∧
    NewRootWithMaxLeaves rh Z leaves limit
      = NewRootWithDepth rh Z leaves (ILog2Ceil (NextPowerOfTwo leaves.length))
          (ILog2Ceil (NextPowerOfTwo limit)) ∧
    ((∃ e c, hashLayers rh Z (ILog2Ceil (NextPowerOfTwo leaves.length)) 0 leaves 0
          = (.error e, c) ∧
        NewRootWithMaxLeaves rh Z leaves limit
          = ⟨Z (ILog2Ceil (NextPowerOfTwo limit)), some e, c⟩)
      ∨ (∃ h c, hashLayers rh Z (ILog2Ceil (NextPowerOfTwo leaves.length)) 0 leaves 0
          = (.ok [h], c) ∧
        NewRootWithMaxLeaves rh Z leaves limit
          = ⟨(combiLoop rh Z
                (ILog2Ceil (NextPowerOfTwo limit) - ILog2Ceil (NextPowerOfTwo leaves.length))
                (ILog2Ceil (NextPowerOfTwo leaves.length)) h c).1, none,
              (combiLoop rh Z
                (ILog2Ceil (NextPowerOfTwo limit) - ILog2Ceil (NextPowerOfTwo leaves.length))
                (ILog2Ceil (NextPowerOfTwo leaves.length)) h c).2⟩)) ∧
    (RootHashFnContract rh →
      ∃ h, hashLayers rh Z (ILog2Ceil (NextPowerOfTwo leaves.length)) 0 leaves 0
          = (.ok [h], ILog2Ceil (NextPowerOfTwo leaves.length)) ∧
        NewRootWithMaxLeaves rh Z leaves limit
          = ⟨(combiLoop rh Z
                (ILog2Ceil (NextPowerOfTwo limit) - ILog2Ceil (NextPowerOfTwo leaves.length))
                (ILog2Ceil (NextPowerOfTwo leaves.length)) h
                (ILog2Ceil (NextPowerOfTwo leaves.length))).1, none,
              (combiLoop rh Z
                (ILog2Ceil (NextPowerOfTwo limit) - ILog2Ceil (NextPowerOfTwo leaves.length))
                (ILog2Ceil (NextPowerOfTwo leaves.length)) h
                (ILog2Ceil (NextPowerOfTwo leaves.length))).2⟩) := by
  have hd := depth_eq_clog (le_trans h3 h2)
  have hD := depth_eq_clog h2
  have hcall := NewRootWithMaxLeaves_eq_NewRootWithDepth rh Z leaves limit h1 h3 h2
  have hle : leaves.length ≤ 2 ^ ILog2Ceil (NextPowerOfTwo leaves.length) := by
    rw [hd]
    exact Nat.le_pow_clog (by decide) _
  have hcases := NewRootWithDepth_of_hashLayers rh Z leaves
    (ILog2Ceil (NextPowerOfTwo leaves.length)) (ILog2Ceil (NextPowerOfTwo limit)) h1
  refine ⟨?_, ?_, hcall, ?_, ?_⟩
  · intro d
    rw [hd]
    exact (Nat.le_pow_iff_clog_le (by decide)).symm
  · rw [hd, hD]
    exact Nat.clog_mono_right 2 h3
  · rw [hcall]
    rcases hashLayers_single rh hk Z _ 0 leaves 0 h1 hle with ⟨e, c, he⟩ | ⟨h, c, hh⟩
    · exact Or.inl ⟨e, c, he, hcases.1 e c he⟩
    · exact Or.inr ⟨h, c, hh, hcases.2 h c hh⟩
  · intro hc
    have hl := hashLayers_eq rh hc Z (ILog2Ceil (NextPowerOfTwo leaves.length)) 0 leaves 0
    obtain ⟨h, hh⟩ := List.length_eq_one.1
      (layerSteps_length_one rh.Combi Z (ILog2Ceil (NextPowerOfTwo leaves.length)) 0 leaves h1
        hle)
    rw [hh, Nat.zero_add] at hl
    exact ⟨h, hl, by rw [hcall]; exact hcases.2 h _ hl⟩

/-- C34 at three leaves under limit 8, with the toy hasher: the depth is 2, at most the limit
depth 3, and the two reductions leave one node, which the second loop extends to the root. -/
theorem NewRootWithMaxLeaves_single_node_witness :
    (∀ d : Nat, ILog2Ceil (NextPowerOfTwo 3) ≤ d ↔ 3 ≤ 2 ^ d) ∧
    ILog2Ceil (NextPowerOfTwo 3) ≤ ILog2Ceil (NextPowerOfTwo 8) ∧
    NewRootWithMaxLeaves toyHasher toyZeroHashes
        [constBytes32 1, constBytes32 2, constBytes32 3] 8
      = NewRootWithDepth toyHasher toyZeroHashes
          [constBytes32 1, constBytes32 2, constBytes32 3] (ILog2Ceil (NextPowerOfTwo 3))
          (ILog2Ceil (NextPowerOfTwo 8)) ∧
    ((∃ e c, hashLayers toyHasher toyZeroHashes (ILog2Ceil (NextPowerOfTwo 3)) 0
          [constBytes32 1, constBytes32 2, constBytes32 3] 0 = (.error e, c) ∧
        NewRootWithMaxLeaves toyHasher toyZeroHashes
            [constBytes32 1, constBytes32 2, constBytes32 3] 8
          = ⟨toyZeroHashes (ILog2Ceil (NextPowerOfTwo 8)), some e, c⟩)
      ∨ (∃ h c, hashLayers toyHasher toyZeroHashes (ILog2Ceil (NextPowerOfTwo 3)) 0
          [constBytes32 1, constBytes32 2, constBytes32 3] 0 = (.ok [h], c) ∧
        NewRootWithMaxLeaves toyHasher toyZeroHashes
            [constBytes32 1, constBytes32 2, constBytes32 3] 8
          = ⟨(combiLoop toyHasher toyZeroHashes
                (ILog2Ceil (NextPowerOfTwo 8) - ILog2Ceil (NextPowerOfTwo 3))
                (ILog2Ceil (NextPowerOfTwo 3)) h c).1, none,
              (combiLoop toyHasher toyZeroHashes
                (ILog2Ceil (NextPowerOfTwo 8) - ILog2Ceil (NextPowerOfTwo 3))
                (ILog2Ceil (NextPowerOfTwo 3)) h c).2⟩)) ∧
    (RootHashFnContract toyHasher →
      ∃ h, hashLayers toyHasher toyZeroHashes (ILog2Ceil (NextPowerOfTwo 3)) 0
          [constBytes32 1, constBytes32 2, constBytes32 3] 0
          = (.ok [h], ILog2Ceil (NextPowerOfTwo 3)) ∧
        NewRootWithMaxLeaves toyHasher toyZeroHashes
            [constBytes32 1, constBytes32 2, constBytes32 3] 8
          = ⟨(combiLoop toyHasher toyZeroHashes
                (ILog2Ceil (NextPowerOfTwo 8) - ILog2Ceil (NextPowerOfTwo 3))
                (ILog2Ceil (NextPowerOfTwo 3)) h (ILog2Ceil (NextPowerOfTwo 3))).1, none,
              (combiLoop toyHasher toyZeroHashes
                (ILog2Ceil (NextPowerOfTwo 8) - ILog2Ceil (NextPowerOfTwo 3))
                (ILog2Ceil (NextPowerOfTwo 3)) h (ILog2Ceil (NextPowerOfTwo 3))).2⟩) :=
  NewRootWithMaxLeaves_single_node toyHasher toyZeroHashes
    [constBytes32 1, constBytes32 2, constBytes32 3] 8
    (pairwiseRootHashFn_keepsLength toyCombi) (by decide) (by decide) (by norm_num)

/-! ## The index in the error of the validator-set cap -/

/-- C35, at a state where exit initiation fails for the first validator to eject: the reverse
lookup of its pubkey returns the index `7`, and the error `processValidatorSetCap` returns
formats the loop counter `0` into "validator cap, failed ejecting validator idx %d". -/
theorem processValidatorSetCap_error_index :
    (sortFunc validatorCmp (getActiveVals exampleStateDanglingIndex 3)).head?
        = some (exampleValidator 3 16) ∧
      ValidatorIndexByPubkey exampleStateDanglingIndex (exampleValidator 3 16).Pubkey = .ok 7 ∧
      ((exampleProcessorWithCap 3).processValidatorSetCap exampleStateDanglingIndex).2
        = some (.Wrapf "validator cap, failed ejecting validator idx %d: %w" (some 0)
            .IndexOutOfRange) := by
  refine ⟨by decide, rfl, by decide⟩

/-! ## Gwei to Wei and back -/

theorem GWei_eq : GWei = 1000000000 := by norm_num [GWei]

/-- What `GweiFromWei` returns when the quotient by `10 ^ 9` is a 64-bit value `g`. -/
theorem GweiFromWei_of_ediv (wei : Int) (g : Nat) (hg : g < 2 ^ 64)
    (h : Int.ediv wei (GWei : Int) = (g : Int)) :
    (GweiFromWei wei).gwei = g ∧ (GweiFromWei wei).err = none := by
  have hr : 0 ≤ Int.ediv wei (GWei : Int) ∧ Int.ediv wei (GWei : Int) < 2 ^ 64 := by
    rw [h]
    refine ⟨Int.natCast_nonneg g, ?_⟩
    exact_mod_cast hg
  unfold GweiFromWei
  simp only
  rw [if_neg (not_not.2 hr)]
  refine ⟨?_, rfl⟩
  simp only
  rw [h, Int.toNat_ofNat]
  exact Nat.mod_eq_of_lt hg

/-- C36: for every 64-bit Gwei value `g` the product `g * 10 ^ 9` fits 256 bits, so `ToWei`
returns it unreduced, and `GweiFromWei` of that value returns `g` with a nil error. -/
theorem ToWei_GweiFromWei (g : Nat) (hg : g < 2 ^ 64) :
    g * GWei < 2 ^ 256 ∧ (Gwei.ToWei g).val = g * GWei ∧
      (GweiFromWei ((Gwei.ToWei g).val : Int)).gwei = g ∧
      (GweiFromWei ((Gwei.ToWei g).val : Int)).err = none := by
  have hlt : g * GWei < 2 ^ 256 := by
    rw [GWei_eq]
    have : (2 : Nat) ^ 256 = 2 ^ 64 * 2 ^ 192 := by norm_num
    rw [this]
    exact Nat.mul_lt_mul'' hg (by norm_num)
  have hG : GWei % 2 ^ 64 = GWei := Nat.mod_eq_of_lt (by rw [GWei_eq]; norm_num)
  have hval : (Gwei.ToWei g).val = g * GWei := by
    unfold Gwei.ToWei U256.Mul NewU256
    simp only
    rw [Nat.mod_eq_of_lt hg, hG, Nat.mod_eq_of_lt hlt]
  have hpos : (GWei : Int) ≠ 0 := by rw [GWei_eq]; norm_num
  have hdiv : Int.ediv (((Gwei.ToWei g).val : Nat) : Int) (GWei : Int) = (g : Int) := by
    rw [hval, Nat.cast_mul]
    exact Int.mul_ediv_cancel _ hpos
  exact ⟨hlt, hval, GweiFromWei_of_ediv _ g hg hdiv⟩

/-- C36 at the largest Gwei value, `2 ^ 64 - 1`. -/
theorem ToWei_GweiFromWei_witness :
    (2 ^ 64 - 1) * GWei < 2 ^ 256 ∧ (Gwei.ToWei (2 ^ 64 - 1)).val = (2 ^ 64 - 1) * GWei ∧
      (GweiFromWei ((Gwei.ToWei (2 ^ 64 - 1)).val : Int)).gwei = 2 ^ 64 - 1 ∧
      (GweiFromWei ((Gwei.ToWei (2 ^ 64 - 1)).val : Int)).err = none :=
  ToWei_GweiFromWei (2 ^ 64 - 1) (by norm_num)

/-- C40: after `GweiFromWei(i)` returns, with or without `ErrGweiOverflow`, the integer passed
by pointer holds the quotient of its original value by `10 ^ 9`; that is its original value
only for `0` and `-1`. -/
theorem GweiFromWei_in_place (i : Int) :
    (GweiFromWei i).arg = i / (10 ^ 9 : Int) ∧
      ((GweiFromWei i).arg = i ↔ i = 0 ∨ i = -1) := by
  have harg : (GweiFromWei i).arg = i / (10 ^ 9 : Int) := by
    unfold GweiFromWei
    simp only
    split <;> rfl
  refine ⟨harg, ?_⟩
  rw [harg]
  norm_num
  omega

/-! ## The randao fold -/

theorem zipWith_xor_right_comm : ∀ (a b c : List Nat),
    List.zipWith Nat.xor (List.zipWith Nat.xor a b) c
      = List.zipWith Nat.xor (List.zipWith Nat.xor a c) b
  | [], _, _ => by simp
  | _ :: _, [], [] => by simp
  | _ :: _, [], _ :: _ => by simp
  | _ :: _, _ :: _, [] => by simp
  | x :: a, y :: b, z :: c => by
    have h : Nat.xor (Nat.xor x y) z = Nat.xor (Nat.xor x z) y := by
      show (x ^^^ y) ^^^ z = (x ^^^ z) ^^^ y
      rw [Nat.xor_assoc, Nat.xor_comm y z, ← Nat.xor_assoc]
    simp only [List.zipWith_cons_cons, h, zipWith_xor_right_comm a b c]

theorem zipWith_xor_cancel : ∀ (a b : List Nat), a.length ≤ b.length →
    List.zipWith Nat.xor (List.zipWith Nat.xor a b) b = a
  | [], _, _ => by simp
  | _ :: _, [], h => by simp at h
  | x :: a, y :: b, h => by
    have hx : Nat.xor (Nat.xor x y) y = x := Nat.xor_cancel_right y x
    simp only [List.zipWith_cons_cons, hx,
      zipWith_xor_cancel a b (by simp only [List.length_cons] at h; omega)]

theorem Bytes32.eq_of_val_eq {a b : Bytes32} (h : a.val = b.val) : a = b := by
  cases a; cases b; cases h; rfl

/-- C39: for every 32-byte mix `m` and reveals `r1`, `r2`, folding in `r1` and then `r2` gives
the same mix as folding in `r2` and then `r1`, and folding in `r1` twice gives `m` back. -/
theorem buildRandaoMix_comm_involutive (sp : StateProcessor) (m : Bytes32)
    (r1 r2 : BLSSignature) :
    sp.buildRandaoMix (sp.buildRandaoMix m r1) r2
        = sp.buildRandaoMix (sp.buildRandaoMix m r2) r1 ∧
      sp.buildRandaoMix (sp.buildRandaoMix m r1) r1 = m := by
  constructor
  · apply Bytes32.eq_of_val_eq
    exact zipWith_xor_right_comm _ _ _
  · apply Bytes32.eq_of_val_eq
    exact zipWith_xor_cancel _ _ (by rw [m.property, (sp.sha256Hash r1.val).property])

/-! ## Registry updates: queueing and activation in one pass -/

/-- C37, as stated, fails at the last epoch: with one slot per epoch and the state at slot
`2 ^ 64 - 1` the sum `current + 1` wraps to `0`, and the pass both queues the validator
(activation-eligibility epoch `0`) and activates it (activation epoch `0`). -/
theorem processRegistryUpdates_queue_then_activate_counterexample :
    GetEpoch exampleProcessorSingleSlot.cs exampleStateLastSlot = 2 ^ 64 - 1 ∧
      exampleStateLastSlot.Validators[0]?
        = some ⟨constBytes48 1, constBytes32 0, 32, false, FarFutureEpoch, FarFutureEpoch,
            FarFutureEpoch⟩ ∧
      (⟨constBytes48 1, constBytes32 0, 32, false, FarFutureEpoch, FarFutureEpoch,
          FarFutureEpoch⟩ : Validator).IsEligibleForActivationQueue
            exampleProcessorSingleSlot.cs.MinActivationBalance = true ∧
      (exampleProcessorSingleSlot.processRegistryUpdates exampleStateLastSlot).err = none ∧
      (exampleProcessorSingleSlot.processRegistryUpdates exampleStateLastSlot).state.Validators[0]?
        = some ⟨constBytes48 1, constBytes32 0, 32, false, 0, 0, FarFutureEpoch⟩ := by
  refine ⟨by decide, rfl, by decide, by decide, by decide⟩

/-- C37, amended: in a successful `processRegistryUpdates` pass at a current epoch below
`2 ^ 64 - 1`, on a state whose pubkey lookups resolve validators to their index, every validator
the pass queues (its activation-eligibility epoch becomes `current + 1`) keeps its activation
epoch; and a validator with the activation-eligibility epoch `e + 1`, queued at epoch `e`,
whose activation epoch the pass changes has an activation epoch of at least `e + 2`
afterwards. -/
theorem processRegistryUpdates_queue_then_activate (sp : StateProcessor) (st : BeaconState)
    (hs : PubkeyIndexSound st) (hok : (sp.processRegistryUpdates st).err = none)
    (hcur : GetEpoch sp.cs st < 2 ^ 64 - 1) (i : Nat)
    (v : Validator) (hv : st.Validators[i]? = some v) :
    ∃ v' : Validator, (sp.processRegistryUpdates st).state.Validators[i]? = some v' ∧
      (v.IsEligibleForActivationQueue sp.cs.MinActivationBalance = true →
        v'.ActivationEligibilityEpoch = GetEpoch sp.cs st + 1 ∧
        v'.ActivationEpoch = v.ActivationEpoch) ∧
      (∀ e : Nat, v.ActivationEligibilityEpoch = e + 1 →
        v'.ActivationEpoch ≠ v.ActivationEpoch → e + 2 ≤ v'.ActivationEpoch) := by
  refine ⟨_, processRegistryUpdates_getElem? sp st hs hok i v hv, ?_, ?_⟩
  · intro hq
    have hmod : (GetEpoch sp.cs st + 1) % 2 ^ 64 = GetEpoch sp.cs st + 1 :=
      Nat.mod_eq_of_lt (by omega)
    rw [hmod]
    unfold registryUpdatedValidator
    simp only [hq, if_true]
    have hna : (v.SetActivationEligibilityEpoch (GetEpoch sp.cs st + 1)).IsEligibleForActivation
        (GetEpoch sp.cs st) = false := by
      simp [Validator.IsEligibleForActivation, Validator.SetActivationEligibilityEpoch]
    rw [hna]
    exact ⟨rfl, rfl⟩
  · intro e he hch
    have hmod : (GetEpoch sp.cs st + 1) % 2 ^ 64 = GetEpoch sp.cs st + 1 :=
      Nat.mod_eq_of_lt (by omega)
    rw [hmod] at hch ⊢
    unfold registryUpdatedValidator at hch ⊢
    by_cases hq : v.IsEligibleForActivationQueue sp.cs.MinActivationBalance = true
    · exfalso
      apply hch
      simp only [hq, if_true]
      have hna : (v.SetActivationEligibilityEpoch (GetEpoch sp.cs st + 1)).IsEligibleForActivation
          (GetEpoch sp.cs st) = false := by
        simp [Validator.IsEligibleForActivation, Validator.SetActivationEligibilityEpoch]
      rw [hna]
      rfl
    · rw [if_neg hq] at hch ⊢
      by_cases ha : v.IsEligibleForActivation (GetEpoch sp.cs st) = true
      · rw [if_pos ha]
        have hle : v.ActivationEligibilityEpoch ≤ GetEpoch sp.cs st := by
          simp only [Validator.IsEligibleForActivation, Bool.and_eq_true, decide_eq_true_eq] at ha
          exact ha.1
        show e + 2 ≤ GetEpoch sp.cs st + 1
        omega
      · rw [if_neg ha] at hch
        exact absurd rfl hch

/-- C37, amended, on the example registry state at epoch 2: the first validator is queued for
epoch 3 and keeps its activation epoch. -/
theorem processRegistryUpdates_queue_then_activate_witness :
    PubkeyIndexSound exampleRegistryState ∧
    (exampleProcessor.processRegistryUpdates exampleRegistryState).err = none ∧
    GetEpoch exampleProcessor.cs exampleRegistryState < 2 ^ 64 - 1 ∧
    ∃ v' : Validator,
      (exampleProcessor.processRegistryUpdates exampleRegistryState).state.Validators[0]?
        = some v' ∧
      ((⟨constBytes48 1, constBytes32 0, 32, false, FarFutureEpoch, FarFutureEpoch,
          FarFutureEpoch⟩ : Validator).IsEligibleForActivationQueue
            exampleProcessor.cs.MinActivationBalance = true →
        v'.ActivationEligibilityEpoch = GetEpoch exampleProcessor.cs exampleRegistryState + 1 ∧
        v'.ActivationEpoch = FarFutureEpoch) ∧
      (∀ e : Nat, FarFutureEpoch = e + 1 →
        v'.ActivationEpoch ≠ FarFutureEpoch → e + 2 ≤ v'.ActivationEpoch) :=
  ⟨PubkeyIndexSound.of_consistent exampleRegistryState_consistent, by decide, by decide,
    processRegistryUpdates_queue_then_activate exampleProcessor exampleRegistryState
      (PubkeyIndexSound.of_consistent exampleRegistryState_consistent) (by decide) (by decide) 0
      ⟨constBytes48 1, constBytes32 0, 32, false, FarFutureEpoch, FarFutureEpoch,
        FarFutureEpoch⟩ rfl⟩

/-! ## The validator-set diff as a patch -/

theorem GweiMap.get_delete_self (m : GweiMap) (k : List Nat) : (m.delete k).get k = none := by
  rw [GweiMap.get_eq_none_iff]
  intro e he
  unfold GweiMap.delete at he
  rw [List.mem_filter, decide_eq_true_iff] at he
  exact he.2

theorem GweiMap.get_append_of_get_none (m m2 : GweiMap) (k : List Nat) (h : m.get k = none) :
    GweiMap.get (m ++ m2) k = GweiMap.get m2 k := by
  unfold GweiMap.get at h ⊢
  rw [List.find?_append]
  cases hf : List.find? (fun e => decide (e.1 = k)) m with
  | none => rfl
  | some e => rw [hf] at h; cases h

theorem GweiMap.get_append_of_get_some (m m2 : GweiMap) (k : List Nat) (b : Nat)
    (h : m.get k = some b) : GweiMap.get (m ++ m2) k = some b := by
  unfold GweiMap.get at h ⊢
  rw [List.find?_append]
  cases hf : List.find? (fun e => decide (e.1 = k)) m with
  | none => rw [hf] at h; cases h
  | some e => rw [hf] at h; exact h

theorem GweiMap.get_singleton_self (k : List Nat) (v : Nat) :
    GweiMap.get [(k, v)] k = some v := by
  simp [GweiMap.get]

theorem GweiMap.get_singleton_ne (k k' : List Nat) (v : Nat) (h : k' ≠ k) :
    GweiMap.get [(k, v)] k' = none := by
  rw [GweiMap.get_eq_none_iff]
  intro e he
  rw [List.mem_singleton] at he
  rw [he]
  exact fun hk => h hk.symm

theorem GweiMap.get_set_self (m : GweiMap) (k : List Nat) (v : Nat) :
    (m.set k v).get k = some v := by
  unfold GweiMap.set
  rw [GweiMap.get_append_of_get_none _ _ _ (GweiMap.get_delete_self m k)]
  exact GweiMap.get_singleton_self k v

theorem GweiMap.get_set_ne (m : GweiMap) (k k' : List Nat) (v : Nat) (h : k' ≠ k) :
    (m.set k v).get k' = m.get k' := by
  unfold GweiMap.set
  cases hg : (m.delete k).get k' with
  | none =>
    rw [GweiMap.get_append_of_get_none _ _ _ hg, GweiMap.get_singleton_ne k k' v h,
      ← GweiMap.get_delete_ne m k k' h, hg]
  | some b =>
    rw [GweiMap.get_append_of_get_some _ _ _ b hg, ← GweiMap.get_delete_ne m k k' h, hg]

theorem applyValidatorUpdate_get_ne (m : GweiMap) (u : ValidatorUpdate) (k : List Nat)
    (h : u.Pubkey.val ≠ k) : (applyValidatorUpdate m u).get k = m.get k := by
  unfold applyValidatorUpdate
  split
  · exact GweiMap.get_delete_ne m _ k (fun hk => h hk.symm)
  · exact GweiMap.get_set_ne m _ k _ (fun hk => h hk.symm)

theorem applyValidatorUpdate_get_self (m : GweiMap) (u : ValidatorUpdate) :
    (applyValidatorUpdate m u).get u.Pubkey.val
      = if u.EffectiveBalance = 0 then none else some u.EffectiveBalance := by
  unfold applyValidatorUpdate
  split
  · exact GweiMap.get_delete_self m _
  · exact GweiMap.get_set_self m _ _

/-- Updates for other pubkeys leave the balance stored under a pubkey as it is. -/
theorem applyValidatorUpdates_get_of_not_mem : ∀ (diff : List ValidatorUpdate) (m : GweiMap)
    (k : List Nat), (∀ u ∈ diff, u.Pubkey.val ≠ k) →
    (applyValidatorUpdates m diff).get k = m.get k
  | [], _, _, _ => rfl
  | w :: rest, m, k, h => by
    unfold applyValidatorUpdates
    rw [List.foldl_cons]
    have ih := applyValidatorUpdates_get_of_not_mem rest (applyValidatorUpdate m w) k
      (fun u hu => h u (List.mem_cons_of_mem _ hu))
    unfold applyValidatorUpdates at ih
    rw [ih]
    exact applyValidatorUpdate_get_ne m w k (h w (List.mem_cons_self _ _))

/-- In a diff with distinct pubkeys, the update for a pubkey decides the balance stored under
it afterwards. -/
theorem applyValidatorUpdates_get_of_mem : ∀ (diff : List ValidatorUpdate) (m : GweiMap)
    (u : ValidatorUpdate), (diff.map (fun u => u.Pubkey.val)).Nodup → u ∈ diff →
    (applyValidatorUpdates m diff).get u.Pubkey.val
      = if u.EffectiveBalance = 0 then none else some u.EffectiveBalance
  | [], _, _, _, hu => by cases hu
  | w :: rest, m, u, hn, hu => by
    rw [List.map_cons, List.nodup_cons] at hn
    unfold applyValidatorUpdates
    rw [List.foldl_cons]
    rcases List.mem_cons.1 hu with huw | hur
    · subst huw
      have h1 := applyValidatorUpdates_get_of_not_mem rest (applyValidatorUpdate m u)
        u.Pubkey.val (by
          intro x hx hxk
          apply hn.1
          rw [← hxk]
          exact List.mem_map.2 ⟨x, hx, rfl⟩)
      unfold applyValidatorUpdates at h1
      rw [h1]
      exact applyValidatorUpdate_get_self m u
    · have ih := applyValidatorUpdates_get_of_mem rest (applyValidatorUpdate m w) u hn.2 hur
      unfold applyValidatorUpdates at ih
      exact ih

theorem pubkey_val_nodup {vals : List Validator} (h : (vals.map (fun v => v.Pubkey)).Nodup) :
    (vals.map (fun v => v.Pubkey.val)).Nodup := by
  have := h.map (f := Bytes48.val) Bytes48.val_injective
  simpa [List.map_map] using this

/-- The map of the balances of validators with distinct pubkeys holds one entry per
validator. -/
theorem balanceMap_eq (vals : List Validator) (h : (vals.map (fun v => v.Pubkey)).Nodup) :
    balanceMap vals = vals.map (fun v => (v.Pubkey.val, v.EffectiveBalance)) := by
  unfold balanceMap
  rw [foldl_set_eq vals [] (pubkey_val_nodup h) (fun _ _ => rfl), List.nil_append]

theorem balanceMap_get_of_mem (vals : List Validator)
    (h : (vals.map (fun v => v.Pubkey)).Nodup) (v : Validator) (hv : v ∈ vals) :
    (balanceMap vals).get v.Pubkey.val = some v.EffectiveBalance := by
  rw [balanceMap_eq vals h, GweiMap.get_eq_some_iff]
  · exact List.mem_map.2 ⟨v, hv, rfl⟩
  · simpa [List.map_map] using pubkey_val_nodup h

theorem balanceMap_get_of_not_mem (vals : List Validator)
    (h : (vals.map (fun v => v.Pubkey)).Nodup) (k : List Nat)
    (hk : ∀ v ∈ vals, v.Pubkey.val ≠ k) : (balanceMap vals).get k = none := by
  rw [balanceMap_eq vals h, GweiMap.get_eq_none_iff]
  intro e he
  obtain ⟨v, hv, hev⟩ := List.mem_map.1 he
  rw [← hev]
  exact hk v hv

/-- The entries of the diff of validator lists with distinct pubkeys. -/
theorem mem_validatorSetsDiffs_iff (prev curr : List Validator)
    (hp : (prev.map (fun v => v.Pubkey)).Nodup) (hc : (curr.map (fun v => v.Pubkey)).Nodup)
    (u : ValidatorUpdate) :
    u ∈ validatorSetsDiffs prev curr ↔
      (∃ v ∈ curr, (∀ w ∈ prev, w.Pubkey = v.Pubkey → w.EffectiveBalance ≠ v.EffectiveBalance)
          ∧ u = ⟨v.Pubkey, v.EffectiveBalance⟩)
        ∨ (∃ w ∈ prev, (∀ v ∈ curr, v.Pubkey ≠ w.Pubkey) ∧ u = ⟨w.Pubkey, 0⟩) := by
  rw [validatorSetsDiffs_eq prev curr hp hc, List.mem_append, List.mem_map, List.mem_map]
  constructor
  · rintro (⟨v, hv, he⟩ | ⟨w, hw, he⟩)
    · rw [List.mem_filter, decide_eq_true_iff] at hv
      exact Or.inl ⟨v, hv.1, hv.2, he.symm⟩
    · rw [List.mem_filter, decide_eq_true_iff] at hw
      exact Or.inr ⟨w, hw.1, hw.2, he.symm⟩
  · rintro (⟨v, hv, hP, he⟩ | ⟨w, hw, hP, he⟩)
    · refine Or.inl ⟨v, ?_, he.symm⟩
      rw [List.mem_filter, decide_eq_true_iff]
      exact ⟨hv, hP⟩
    · refine Or.inr ⟨w, ?_, he.symm⟩
      rw [List.mem_filter, decide_eq_true_iff]
      exact ⟨hw, hP⟩

/-- The pubkeys of the entries of the diff of validator lists with distinct pubkeys are
distinct. -/
theorem validatorSetsDiffs_pubkeys_nodup (prev curr : List Validator)
    (hp : (prev.map (fun v => v.Pubkey)).Nodup) (hc : (curr.map (fun v => v.Pubkey)).Nodup) :
    ((validatorSetsDiffs prev curr).map (fun u => u.Pubkey)).Nodup := by
  rw [validatorSetsDiffs_eq prev curr hp hc, List.map_append, List.map_map, List.map_map]
  have e1 : ((fun u : ValidatorUpdate => u.Pubkey)
      ∘ fun v : Validator => (⟨v.Pubkey, v.EffectiveBalance⟩ : ValidatorUpdate))
      = fun v => v.Pubkey := rfl
  have e2 : ((fun u : ValidatorUpdate => u.Pubkey)
      ∘ fun w : Validator => (⟨w.Pubkey, 0⟩ : ValidatorUpdate)) = fun w => w.Pubkey := rfl
  rw [e1, e2, List.nodup_append]
  refine ⟨hc.sublist ((List.filter_sublist _).map _), hp.sublist ((List.filter_sublist _).map _),
    ?_⟩
  intro pk h1 h2
  obtain ⟨v, hv, hvpk⟩ := List.mem_map.1 h1
  obtain ⟨w, hw, hwpk⟩ := List.mem_map.1 h2
  rw [List.mem_filter, decide_eq_true_iff] at hv hw
  exact hw.2 v hv.1 (hvpk.trans hwpk.symm)

/-- C38: for validator lists `prev` and `curr` with pairwise-distinct pubkeys and every
effective balance in `curr` non-zero, applying `validatorSetsDiffs(prev, curr)` to the map from
pubkey to effective balance of `prev` (an entry with balance 0 deletes the pubkey, any other
entry sets its balance) yields the map of `curr`: under every key the two maps store the same
balance or both store none; and every pubkey occurs in at most one entry of the diff. -/
theorem validatorSetsDiffs_patch (prev curr : List Validator)
    (hp : (prev.map (fun v => v.Pubkey)).Nodup) (hc : (curr.map (fun v => v.Pubkey)).Nodup)
    (hnz : ∀ v ∈ curr, v.EffectiveBalance ≠ 0) :
    (∀ k : List Nat,
      (applyValidatorUpdates (balanceMap prev) (validatorSetsDiffs prev curr)).get k
        = (balanceMap curr).get k) ∧
      ((validatorSetsDiffs prev curr).map (fun u => u.Pubkey)).Nodup := by
  have hnd := validatorSetsDiffs_pubkeys_nodup prev curr hp hc
  refine ⟨?_, hnd⟩
  have hnd' : ((validatorSetsDiffs prev curr).map (fun u => u.Pubkey.val)).Nodup := by
    have := hnd.map (f := Bytes48.val) Bytes48.val_injective
    simpa [List.map_map] using this
  intro k
  by_cases hA : ∃ v ∈ curr, v.Pubkey.val = k
  · obtain ⟨v, hv, hvk⟩ := hA
    subst hvk
    rw [balanceMap_get_of_mem curr hc v hv]
    by_cases hP : ∀ w ∈ prev, w.Pubkey = v.Pubkey → w.EffectiveBalance ≠ v.EffectiveBalance
    · have hu : (⟨v.Pubkey, v.EffectiveBalance⟩ : ValidatorUpdate)
          ∈ validatorSetsDiffs prev curr :=
        (mem_validatorSetsDiffs_iff prev curr hp hc _).2 (Or.inl ⟨v, hv, hP, rfl⟩)
      have h := applyValidatorUpdates_get_of_mem _ (balanceMap prev) _ hnd' hu
      simp only at h
      rw [h, if_neg (hnz v hv)]
    · push_neg at hP
      obtain ⟨w, hw, hwpk, hwb⟩ := hP
      rw [applyValidatorUpdates_get_of_not_mem]
      · rw [← hwpk, ← hwb]
        exact balanceMap_get_of_mem prev hp w hw
      · intro u hu huk
        rcases (mem_validatorSetsDiffs_iff prev curr hp hc u).1 hu with
          ⟨v1, hv1, hP1, he⟩ | ⟨w1, hw1, hP1, he⟩
        · rw [he] at huk
          have hpk : v1.Pubkey = v.Pubkey := Bytes48.val_injective huk
          have : v1 = v := eq_of_pubkey_eq hc hv1 hv hpk
          subst this
          exact hP1 w hw hwpk hwb
        · rw [he] at huk
          exact hP1 v hv (Bytes48.val_injective huk).symm
  · push_neg at hA
    rw [balanceMap_get_of_not_mem curr hc k hA]
    by_cases hB : ∃ w ∈ prev, w.Pubkey.val = k
    · obtain ⟨w, hw, hwk⟩ := hB
      subst hwk
      have hu : (⟨w.Pubkey, 0⟩ : ValidatorUpdate) ∈ validatorSetsDiffs prev curr := by
        refine (mem_validatorSetsDiffs_iff prev curr hp hc _).2 (Or.inr ⟨w, hw, ?_, rfl⟩)
        intro v hv hvw
        exact hA v hv (by rw [hvw])
      have h := applyValidatorUpdates_get_of_mem _ (balanceMap prev) _ hnd' hu
      rw [h]
      exact if_pos rfl
    · push_neg at hB
      rw [applyValidatorUpdates_get_of_not_mem]
      · exact balanceMap_get_of_not_mem prev hp k hB
      · intro u hu huk
        rcases (mem_validatorSetsDiffs_iff prev curr hp hc u).1 hu with
          ⟨v1, hv1, _, he⟩ | ⟨w1, hw1, _, he⟩
        · rw [he] at huk
          exact hA v1 hv1 huk
        · rw [he] at huk
          exact hB w1 hw1 huk

/-- C38 on three previous and three current validators: one removed, one changed, one added,
one unchanged. -/
theorem validatorSetsDiffs_patch_witness :
    (([exampleValidator 1 32, exampleValidator 2 64, exampleValidator 3 16].map
        (fun v => v.Pubkey)).Nodup) ∧
    (([exampleValidator 2 64, exampleValidator 3 20, exampleValidator 4 7].map
        (fun v => v.Pubkey)).Nodup) ∧
    (∀ v ∈ [exampleValidator 2 64, exampleValidator 3 20, exampleValidator 4 7],
      v.EffectiveBalance ≠ 0) ∧
    (∀ k : List Nat,
      (applyValidatorUpdates
          (balanceMap [exampleValidator 1 32, exampleValidator 2 64, exampleValidator 3 16])
          (validatorSetsDiffs
            [exampleValidator 1 32, exampleValidator 2 64, exampleValidator 3 16]
            [exampleValidator 2 64, exampleValidator 3 20, exampleValidator 4 7])).get k
        = (balanceMap [exampleValidator 2 64, exampleValidator 3 20, exampleValidator 4 7]).get
            k) ∧
    ((validatorSetsDiffs
        [exampleValidator 1 32, exampleValidator 2 64, exampleValidator 3 16]
        [exampleValidator 2 64, exampleValidator 3 20, exampleValidator 4 7]).map
      (fun u => u.Pubkey)).Nodup :=
  ⟨by decide, by decide, by decide, validatorSetsDiffs_patch
    [exampleValidator 1 32, exampleValidator 2 64, exampleValidator 3 16]
    [exampleValidator 2 64, exampleValidator 3 20, exampleValidator 4 7]
    (by decide) (by decide) (by decide)⟩

end BeaconKit
